import Mathlib

/-!
fwrite.c : formatting and emission engine

Shallow embedding of `src/src/fwrite.c` (data.table's delimited-text writer).

* Bytes are natural numbers (`'0'` is 48, `'-'` is 45, `'"'` is 34, ...).
* The output buffer is a byte store addressed by an integer offset together with
  the write cursor `ch`; `*ch++ = c` is `Buf.put`, `*ch-- = c` is `Buf.putBack`.
  The store is unbounded: the C code never checks bounds either, it relies on the
  line-length bound computed up front.
* C loops are structural recursions; where the C loop counter is not itself the
  recursion argument a fuel argument is supplied by the caller that is large enough
  for the loop to run to its exit condition.
* Machine integers are mathematical integers reduced to two's complement where the C
  code stores them: `wrap64` for the `long long` of `writeInteger`, `wrap32` for the
  `int` variables `max` of `maxStrLen`, `lineLenMax` and `upp`.
-/

namespace Fwrite

/-! ## Output buffer -/

/-- Output buffer: the byte store `mem` and the write cursor `ch` (the C `char *ch`). -/
structure Buf where
  mem : Int → Nat
  ch : Int

/-- The C statement `*ch++ = c`. -/
def Buf.put (b : Buf) (c : Nat) : Buf :=
  ⟨Function.update b.mem b.ch c, b.ch + 1⟩

/-- The C statement `*ch-- = c`. -/
def Buf.putBack (b : Buf) (c : Nat) : Buf :=
  ⟨Function.update b.mem b.ch c, b.ch - 1⟩

/-- The C statement `*ch = c` (cursor unchanged). -/
def Buf.poke (b : Buf) (c : Nat) : Buf :=
  ⟨Function.update b.mem b.ch c, b.ch⟩

/-- The C statement `ch += n` (`n` may be negative). -/
def Buf.move (b : Buf) (n : Int) : Buf :=
  ⟨b.mem, b.ch + n⟩

/-- The C statements `memcpy(ch, s, len); ch += len` for a byte sequence `s` of length `len`. -/
def Buf.memcpy (b : Buf) : List Nat → Buf
  | [] => b
  | c :: s => (b.put c).memcpy s

/-- The bytes of buffer `b` from offset `start` up to (excluding) the cursor. -/
def out (start : Int) (b : Buf) : List Nat :=
  (List.range (b.ch - start).toNat).map (fun (i : Nat) => b.mem (start + (i : Int)))

/-- A buffer whose store is all zero with the cursor at offset 0. -/
def emptyBuf : Buf := ⟨fun _ => 0, 0⟩

/-- Store of a computed `int` value into a `char`: only the low 8 bits are kept. -/
def byteOf (n : Nat) : Nat := n % 256

/-! ## writeInteger (fwrite.c lines 30-50) -/

/-- Two's-complement wrap of an integer into the range of `long long`. -/
def wrap64 (v : Int) : Int := (v + 2 ^ 63) % 2 ^ 64 - 2 ^ 63

/-- Two's-complement wrap of an integer into the range of a 32-bit `int`. -/
def wrap32 (v : Int) : Int := (v + 2 ^ 31) % 2 ^ 32 - 2 ^ 31

/-- The loop `while (x>0) { *ch++ = '0'+x%10; x /= 10; width++; }`; returns the buffer
and `width`. -/
def writeIntegerDigits : Nat → Int → Buf → Nat → Buf × Nat
  | 0, _, b, width => (b, width)
  | fuel + 1, x, b, width =>
    if x > 0 then writeIntegerDigits fuel (x / 10) (b.put (byteOf (48 + x % 10).toNat)) (width + 1)
    else (b, width)

/-- The loop `for (int i=width/2; i>0; i--) { swap *(ch-i) and *(ch-width+i-1) }`,
the first argument being the loop variable `i`. -/
def writeIntegerReverse : Nat → Nat → Buf → Buf
  | 0, _, b => b
  | i + 1, width, b =>
    let p : Int := b.ch - ((i : Int) + 1)
    let q : Int := b.ch - width + ((i : Int) + 1) - 1
    let tmp := b.mem p
    let m1 := Function.update b.mem p (b.mem q)
    let m2 := Function.update m1 q tmp
    writeIntegerReverse i width ⟨m2, b.ch⟩

/-- The C function `writeInteger(long long x, char **thisCh)`. The negation `x=-x`
is taken in two's complement (it leaves `LLONG_MIN` unchanged). -/
def writeInteger (x : Int) (b : Buf) : Buf :=
  if x = 0 then b.put 48
  else
    let b1 := if x < 0 then b.put 45 else b
    let x1 := if x < 0 then wrap64 (-x) else x
    let r := writeIntegerDigits x1.toNat x1 b1 0
    writeIntegerReverse (r.2 / 2) r.2 r.1

/-- Canonical decimal representation of an integer as ASCII bytes: the digits of
`|x|` most significant first without leading zeros (`"0"` for zero), preceded by
`'-'` iff `x < 0`. -/
def decimalRepr (x : Int) : List Nat :=
  if x = 0 then [48]
  else (if x < 0 then [45] else []) ++ ((Nat.digits 10 x.natAbs).reverse.map (fun d => 48 + d))

/-- The bytes `writeInteger` writes for an arbitrary `x`: as `decimalRepr`, but with the
digits of the two's-complement negation actually computed by the code. -/
def integerBytes (x : Int) : List Nat :=
  if x = 0 then [48]
  else (if x < 0 then [45] else []) ++
    ((Nat.digits 10 (if x < 0 then wrap64 (-x) else x).toNat).reverse.map (fun d => 48 + d))

/-! ## Buffer extension -/

/-- Buffer `b1` extends `b` by exactly the bytes `l`: the cursor advanced by
`l.length`, the store below the old cursor is unchanged, and the bytes from the old
cursor on are those of `l`. -/
def Appends (b b1 : Buf) (l : List Nat) : Prop :=
  b1.ch = b.ch + l.length ∧ (∀ p, p < b.ch → b1.mem p = b.mem p) ∧
    ∀ i : Nat, i < l.length → b1.mem (b.ch + i) = l.getD i 0

/-! ## Configuration (the file-level globals and the scalar arguments of `writefile`) -/

/-- R's three-valued logical as used for `quote`: `NA_LOGICAL` means `"auto"`. -/
inductive Rboolean where
  | FALSE
  | TRUE
  | NA_LOGICAL
  deriving DecidableEq, Repr

/-- Parameters of one write: `na_str` and `row_sep` are the bytes of the C strings
before their terminating NUL (so `na_len = strlen(na_str)` is `na_str.length`). -/
structure Config where
  na_str : List Nat
  col_sep : Nat
  dec_sep : Nat
  quote : Rboolean
  qmethod_escape : Bool
  row_sep : List Nat
  row_names : Bool
  turbo : Bool

/-! ## writeNumeric (fwrite.c lines 96-217) -/

/-- Arithmetic on C `double` and the tables of `fwriteLookups.h` (`sigparts`, `expsig`,
`exppow`), which are not part of the sources: `writeNumeric` is embedded over an
abstract carrier `F` for `double`. -/
structure FloatEnv (F : Type) where
  /-- A numeric literal converted to `double`. -/
  lit : Nat → F
  add : F → F → F
  mul : F → F → F
  div : F → F → F
  /-- The comparison `a >= b`. -/
  ge : F → F → Bool
  /-- Conversion `double` to `unsigned long long`. -/
  toULL : F → Nat
  sigparts : Nat → F
  expsig : Nat → F
  exppow : Nat → Int

/-- The constant `NUM_SF`. -/
def NUM_SF : Nat := 15

/-- The constant `SIZE_SF`, `10^NUM_SF`. -/
def SIZE_SF : Nat := 1000000000000000

/-- The 52-bit fraction field of a binary64 bit pattern: `u.ull & 0xFFFFFFFFFFFFF`. -/
def fractionOf (bits : Nat) : Nat := bits &&& 0xFFFFFFFFFFFFF

/-- The 11-bit biased exponent of a binary64 bit pattern: `(u.ull>>52) & 0x7FF`. -/
def exponentOf (bits : Nat) : Nat := (bits >>> 52) &&& 0x7FF

/-- The sign bit of a binary64 bit pattern. -/
def signOf (bits : Nat) : Bool := (bits >>> 63) &&& 1 = 1

/-- `ISNAN(x)` on the bit pattern: exponent all ones and a non-zero fraction. -/
def ISNAN (bits : Nat) : Bool := exponentOf bits = 2047 ∧ fractionOf bits ≠ 0

/-- `R_FINITE(x)` on the bit pattern: exponent not all ones. -/
def R_FINITE (bits : Nat) : Bool := exponentOf bits ≠ 2047

/-- The comparison `x == 0.0` on the bit pattern (true for `0.0` and `-0.0`). -/
def dblIsZero (bits : Nat) : Bool := exponentOf bits = 0 ∧ fractionOf bits = 0

/-- The comparison `x > 0` on the bit pattern. -/
def dblGtZero (bits : Nat) : Bool := !ISNAN bits && !signOf bits && !dblIsZero bits

/-- The comparison `x < 0.0` on the bit pattern. -/
def dblLtZero (bits : Nat) : Bool := !ISNAN bits && signOf bits && !dblIsZero bits

/-- The negation `-x` on the bit pattern: the sign bit is flipped. -/
def dblNeg (bits : Nat) : Nat := bits ^^^ 0x8000000000000000

/-- The loop `while ((fraction & 0xFF) == 0) { fraction >>= 8; i-=8; }`. -/
def skipZeroBytes : Nat → Nat → Int → Nat × Int
  | 0, fraction, i => (fraction, i)
  | fuel + 1, fraction, i =>
    if fraction &&& 0xFF = 0 then skipZeroBytes fuel (fraction >>> 8) (i - 8) else (fraction, i)

/-- The table index `(((fraction&1u)^1u)-1u) & i`, computed in `unsigned long long`. -/
def sigIndex (fraction : Nat) (i : Int) : Nat :=
  ((((fraction &&& 1) ^^^ 1) + (2 ^ 64 - 1)) % 2 ^ 64) &&& (i % 2 ^ 64).toNat

/-- The loop `while (fraction) { acc += sigparts[...]; i--; fraction >>= 1; }`. -/
def sumSigparts {F : Type} (env : FloatEnv F) : Nat → Nat → Int → F → F
  | 0, _, _, acc => acc
  | fuel + 1, fraction, i, acc =>
    if fraction ≠ 0 then
      sumSigparts env fuel (fraction >>> 1) (i - 1) (env.add acc (env.sigparts (sigIndex fraction i)))
    else acc

/-- The accumulation of `acc` from the fraction bits (lines 129-138). -/
def accumulate {F : Type} (env : FloatEnv F) (fraction : Nat) : F :=
  if fraction ≠ 0 then
    let r := skipZeroBytes fraction fraction 52
    sumSigparts env r.1 r.1 r.2 (env.lit 0)
  else env.lit 0

/-- The loop `while (l%10 == 0) { l /= 10; trailZero++; }`; returns `l` and `trailZero`. -/
def stripZeros : Nat → Nat → Int → Nat × Int
  | 0, l, trailZero => (l, trailZero)
  | fuel + 1, l, trailZero =>
    if l % 10 = 0 then stripZeros fuel (l / 10) (trailZero + 1) else (l, trailZero)

/-- The loop `while (dr && sf) { *ch--='0'+l%10; l/=10; dr--; sf--; }`; returns
`l`, `dr`, `sf` and the buffer. -/
def decFracDigits : Nat → Nat → Int → Int → Buf → Nat × Int × Int × Buf
  | 0, l, dr, sf, b => (l, dr, sf, b)
  | fuel + 1, l, dr, sf, b =>
    if dr ≠ 0 ∧ sf ≠ 0 then
      decFracDigits fuel (l / 10) (dr - 1) (sf - 1) (b.putBack (byteOf (48 + l % 10)))
    else (l, dr, sf, b)

/-- The loops `while (n) { *ch--='0'; n--; }` (for `dr` and for `dl0`), the first
argument being the counter `n`. -/
def putZerosBack : Nat → Buf → Buf
  | 0, b => b
  | n + 1, b => putZerosBack n (b.putBack 48)

/-- The loop `while (sf) { *ch--='0'+l%10; l/=10; sf--; }`, the first argument being
the counter `sf`. -/
def decIntDigits : Nat → Nat → Buf → Buf
  | 0, _, b => b
  | sf + 1, l, b => decIntDigits sf (l / 10) (b.putBack (byteOf (48 + l % 10)))

/-- The decimal-format branch (lines 182-191). Loop counters are non-negative here
whenever `sf` is; they are passed as naturals. -/
def writeDecimal (dec_sep : Nat) (l : Nat) (sf dr dl0 width : Int) (b : Buf) : Buf :=
  let b1 := b.move (width - 1)
  let r := decFracDigits dr.toNat l dr sf b1
  let l1 := if dr ≠ 0 then r.1 else l
  let sf1 := if dr ≠ 0 then r.2.2.1 else sf
  let b2 := if dr ≠ 0 then (putZerosBack r.2.1.toNat r.2.2.2).putBack dec_sep else b1
  let b3 := putZerosBack dl0.toNat b2
  let b4 := decIntDigits sf1.toNat l1 b3
  b4.move (width + 1)

/-- The loop `for (int i=sf; i>1; i--) { *ch-- = '0' + l%10; l /= 10; }`, the first
argument being `i-1`; returns `l` and the buffer. -/
def sciFracDigits : Nat → Nat → Buf → Nat × Buf
  | 0, l, b => (l, b)
  | n + 1, l, b => sciFracDigits n (l / 10) (b.putBack (byteOf (48 + l % 10)))

/-- The scientific-format branch (lines 194-212). -/
def writeScientific (dec_sep : Nat) (l : Nat) (sf exp : Int) (b : Buf) : Buf :=
  let b1 := b.move sf
  let r := sciFracDigits (sf - 1).toNat l b1
  let b2 := if sf = 1 then r.2.move (-1) else r.2.putBack dec_sep
  let b3 := b2.poke (byteOf (48 + r.1))
  let b4 := b3.move (sf + (if sf > 1 then 1 else 0))
  let b5 := b4.put 101
  let b6 := if exp < 0 then b5.put 45 else b5.put 43
  let e : Int := if exp < 0 then -exp else exp
  if e < 100 then
    (b6.put (byteOf (48 + e / 10).toNat)).put (byteOf (48 + e % 10).toNat)
  else
    ((b6.put (byteOf (48 + e / 100).toNat)).put (byteOf (48 + (e / 10) % 10).toNat)).put
      (byteOf (48 + e % 10).toNat)

/-- Lines 152-153: `if (l%10 >= 5) l+=10; l /= 10;` in `unsigned long long`. -/
def roundLast (l0 : Nat) : Nat :=
  (if l0 % 10 ≥ 5 then (l0 + 10) % 2 ^ 64 else l0) / 10

/-- The quantities computed in lines 159-174 from the rounded integer and the exponent. -/
structure NumLayout where
  l : Nat
  sf : Int
  exp : Int
  dr : Int
  dl0 : Int
  width : Int

/-- Lines 159-174: strip trailing zeros, count the significant figures `sf`, adjust
`exp`, and derive `dr`, `dl0` and the decimal field `width`. -/
def numLayout (l2 : Nat) (exp0 : Int) : NumLayout :=
  let r := stripZeros l2 l2 0
  let trailZero := r.2
  let sf0 : Int := (NUM_SF : Int) - trailZero
  let sf : Int := if sf0 = 0 then 1 else sf0
  let exp : Int := if sf0 = 0 then exp0 + 1 else exp0
  let dr0 : Int := sf - exp - 1
  { l := r.1
    sf := sf
    exp := exp
    dr := if dr0 ≤ 0 then 0 else dr0
    dl0 := if dr0 ≤ 0 then -dr0 else if sf > dr0 then 0 else 1
    width := if dr0 ≤ 0 then sf + (-dr0) else if sf > dr0 then sf + 1 else dr0 + 1 + 1 }

/-- The test of line 178: decimal format iff `width` does not exceed the width of the
scientific format. -/
def NumLayout.decimal (L : NumLayout) : Bool :=
  L.width ≤ L.sf + (if L.sf > 1 then 1 else 0) + 2 + (if |L.exp| > 99 then 3 else 2)

/-- The integer part of `writeNumeric` (lines 152-214): from the `NUM_SF+1`-digit
integer `l` and the decimal exponent `exp` to the bytes of the field. -/
def writeNumericDigits (dec_sep : Nat) (l0 : Nat) (exp0 : Int) (b : Buf) : Buf :=
  let l2 := roundLast l0
  if l2 = 0 then
    let b1 := if b.mem (b.ch - 1) = 45 then b.move (-1) else b
    b1.put 48
  else
    let L := numLayout l2 exp0
    if L.decimal = true then writeDecimal dec_sep L.l L.sf L.dr L.dl0 L.width b
    else writeScientific dec_sep L.l L.sf L.exp b

/-- The floating-point part of `writeNumeric` (lines 119-147) for a positive finite
`x` given by its bit pattern: returns `l` and `exp`. -/
def mantissaExp {F : Type} (env : FloatEnv F) (bits : Nat) : Nat × Int :=
  let fraction := fractionOf bits
  let exponent := exponentOf bits
  let acc := accumulate env fraction
  let y := env.mul (env.add (env.lit 1) acc) (env.expsig exponent)
  let exp := env.exppow exponent
  let big := env.ge y (env.lit 10)
  let y1 := if big then env.div y (env.lit 10) else y
  let exp1 := if big then exp + 1 else exp
  (env.toULL (env.mul y1 (env.lit SIZE_SF)), exp1)

/-- The C function `writeNumeric(double x, char **thisCh)`; the double `x` is given by
its binary64 bit pattern. -/
def writeNumeric {F : Type} (env : FloatEnv F) (cfg : Config) (x : Nat) (b : Buf) : Buf :=
  if !R_FINITE x then
    if ISNAN x then b.memcpy cfg.na_str
    else if dblGtZero x then ((b.put 73).put 110).put 102
    else (((b.put 45).put 73).put 110).put 102
  else if dblIsZero x then b.put 48
  else
    let b1 := if dblLtZero x then b.put 45 else b
    let x1 := if dblLtZero x then dblNeg x else x
    let r := mantissaExp env x1
    writeNumericDigits cfg.dec_sep r.1 r.2 b1

/-! ## writeString (fwrite.c lines 219-273) -/

/-- An R `CHARSXP` as seen by this file: `none` is `NA_STRING`, `some s` a string whose
`LENGTH` bytes are `s`; `CHAR(x)` is `s` followed by a terminating NUL. -/
abbrev CharSxp := Option (List Nat)

/-- `LENGTH(x)` of a `CHARSXP`; `NA_STRING` is the two-byte string `"NA"`. -/
def LENGTH : CharSxp → Nat
  | none => 2
  | some s => s.length

/-- The loop `for (i<nrow) { l = LENGTH(STRING_ELT(x,i)); if (l>max) max=l; }` of
`maxStrLen`, on the `int` variables `l` and `max` (`LENGTH` is an `int` in R: a string
has fewer than `2^31` bytes). -/
def maxStrLenLoop : List CharSxp → Int → Int
  | [], max => max
  | s :: x, max => maxStrLenLoop x (if (LENGTH s : Int) > max then (LENGTH s : Int) else max)

/-- The C function `int maxStrLen(SEXP x)`: `int max=na_len` converts the `size_t`
`na_len` to `int`, and `max*2 +2` is computed in `int` (two's complement). -/
def maxStrLen (cfg : Config) (x : List CharSxp) : Int :=
  wrap32 (wrap32 (maxStrLenLoop x (wrap32 cfg.na_str.length) * 2) + 2)

/-- The scan `while (*tt!='\0' && *tt!=col_sep && *tt!='\n') *ch++ = *tt++;` over the
bytes of `CHAR(x)`; the empty list stands for the terminating NUL. Returns the buffer
and the test `*tt=='\0'` after the loop. -/
def autoScan (col_sep : Nat) : List Nat → Buf → Buf × Bool
  | [], b => (b, true)
  | c :: tt, b =>
    if c ≠ 0 ∧ c ≠ col_sep ∧ c ≠ 10 then autoScan col_sep tt (b.put c) else (b, c = 0)

/-- The loop `while (*tt!='\0') { if (*tt=='"' || *tt=='\\') *ch++ = '\\'; *ch++ = *tt++; }`. -/
def escapeLoop : List Nat → Buf → Buf
  | [], b => b
  | c :: tt, b =>
    if c ≠ 0 then escapeLoop tt ((if c = 34 ∨ c = 92 then b.put 92 else b).put c) else b

/-- The loop `while (*tt!='\0') { if (*tt=='"') *ch++ = '"'; *ch++ = *tt++; }`. -/
def doubleLoop : List Nat → Buf → Buf
  | [], b => b
  | c :: tt, b =>
    if c ≠ 0 then doubleLoop tt ((if c = 34 then b.put 34 else b).put c) else b

/-- The C function `writeString(SEXP x, char **thisCh)`. -/
def writeString (cfg : Config) (x : CharSxp) (b : Buf) : Buf :=
  match x with
  | none => b.memcpy cfg.na_str
  | some s =>
    let r := autoScan cfg.col_sep s b
    if cfg.quote = Rboolean.NA_LOGICAL ∧ r.2 = true then r.1
    else
      let b1 : Buf := if cfg.quote = Rboolean.NA_LOGICAL then ⟨r.1.mem, b.ch⟩ else b
      let q : Rboolean := if cfg.quote = Rboolean.NA_LOGICAL then Rboolean.TRUE else cfg.quote
      if q = Rboolean.FALSE then b1.memcpy s
      else
        let b2 := b1.put 34
        let b3 := if cfg.qmethod_escape then escapeLoop s b2 else doubleLoop s b2
        b3.put 34

/-! ## Tables and the passes of `writefile` (fwrite.c lines 285-657) -/

/-- The R type codes `TYPEOF` can return for the supported column kinds. -/
def LGLSXP : Nat := 10

/-- Type code of integer vectors. -/
def INTSXP : Nat := 13

/-- Type code of double vectors. -/
def REALSXP : Nat := 14

/-- Type code of character vectors. -/
def STRSXP : Nat := 16

/-- The constants `NA_INTEGER` and `NA_LOGICAL` (`INT_MIN`). -/
def NA_INTEGER : Int := -2147483648

/-- A column of the list passed to `writefile`.
* `lgl v`: `LGLSXP`, the `int` cells.
* `int levels v`: `INTSXP`; `levels` is `some lv` iff `isFactor(column)`, `lv` being its
  levels attribute.
* `real integer64 v`: `REALSXP`, the cells as binary64 bit patterns; `integer64` is
  `isInteger64(column)`.
* `str v`: `STRSXP`.
* `other t n`: a vector of any other type code `t` and length `n`. -/
inductive Column where
  | lgl (v : List Int)
  | int (levels : Option (List CharSxp)) (v : List Int)
  | real (integer64 : Bool) (v : List Nat)
  | str (v : List CharSxp)
  | other (type : Nat) (len : Nat)

/-- `TYPEOF(column)`. -/
def Column.TYPEOF : Column → Nat
  | .lgl _ => LGLSXP
  | .int _ _ => INTSXP
  | .real _ _ => REALSXP
  | .str _ => STRSXP
  | .other t _ => t

/-- `length(column)`. -/
def Column.length : Column → Nat
  | .lgl v => v.length
  | .int _ v => v.length
  | .real _ v => v.length
  | .str v => v.length
  | .other _ n => n

/-- The entry `integer64[col_i]` stored by the first pass for this column. -/
def Column.integer64 : Column → Bool
  | .real i64 _ => i64
  | _ => false

/-- The entry `levels[col_i]` stored by the first pass for this column (`none` is the
C `NULL`; the entry is only read for `INTSXP` columns). -/
def Column.levels : Column → Option (List CharSxp)
  | .int lv _ => lv
  | _ => none

/-- The list passed to `writefile`: its columns and, when it is a string vector, its
row-names attribute. -/
structure Table where
  cols : List Column
  rn : Option (List CharSxp)

/-- Platform pieces that are not in the sources: the `NAINT64` constant of
`data.table.h` and the `sprintf` conversions used when `turbo` is off (each gives the
bytes written before the terminating NUL). -/
structure Platform where
  NAINT64 : Int
  sprintf_lld : Int → List Nat
  sprintf_d : Int → List Nat
  sprintf_15g : Nat → List Nat

/-- The C statement `ch += sprintf(ch, fmt, v)`: the formatted bytes and a terminating
NUL are stored, the cursor is left on the NUL. -/
def Buf.sprintf (b : Buf) (s : List Nat) : Buf :=
  ((b.memcpy s).poke 0)

/-- The reinterpretation `*(long long *)&REAL(column)[row_i]` of a 64-bit pattern. -/
def asInt64 (bits : Nat) : Int :=
  if bits % 2 ^ 64 < 2 ^ 63 then (bits % 2 ^ 64 : Nat) else ((bits % 2 ^ 64 : Nat) : Int) - 2 ^ 64

/-- Result of the first pass over the columns (lines 358-404): the `int` variables
`lineLenMax` and `sameType`. -/
structure FirstPass where
  lineLenMax : Int
  sameType : Nat
  deriving DecidableEq, Repr

/-- The `switch(TYPEOF(column))` of the first pass (lines 376-399) for one column;
`none` is the `error()` exit of the `default:` case. The sum `lineLenMax += w` is
returned as an integer; it is reduced to the range of `int` together with the
`lineLenMax++` that follows it (in `firstPassLoop`), which gives the same `int` as
reducing after each of the two additions. -/
def firstPassSwitch (cfg : Config) (column : Column) (st : FirstPass) : Option FirstPass :=
  match column with
  | .lgl _ => some ⟨st.lineLenMax + 5, st.sameType⟩
  | .real _ _ => some ⟨st.lineLenMax + 25, st.sameType⟩
  | .int (some lv) _ => some ⟨st.lineLenMax + maxStrLen cfg lv, 0⟩
  | .int none _ => some ⟨st.lineLenMax + 11, st.sameType⟩
  | .str v => some ⟨st.lineLenMax + maxStrLen cfg v, st.sameType⟩
  | .other _ _ => none

/-- The loop over columns of the first pass (lines 373-404); `lineLenMax` is an `int`
(two's complement). -/
def firstPassLoop (cfg : Config) : List Column → FirstPass → Option FirstPass
  | [], st => some st
  | column :: rest, st =>
    match firstPassSwitch cfg column st with
    | none => none
    | some st1 =>
      let sameType :=
        if column.TYPEOF ≠ st1.sameType ∨ column.integer64 = true then 0 else st1.sameType
      firstPassLoop cfg rest ⟨wrap32 (st1.lineLenMax + 1), sameType⟩

/-- The number of rows `nrows = length(VECTOR_ELT(list_of_columns, 0))`. -/
def Table.nrows (t : Table) : Nat :=
  match t.cols with
  | [] => 0
  | c :: _ => c.length

/-- The first pass of `writefile` (lines 358-404): the line-length bound `lineLenMax`
and `sameType`; `none` when a column has an unsupported type. `(int)log10(nrows)` is
`Nat.log 10 nrows`. -/
def firstPass (cfg : Config) (t : Table) : Option FirstPass :=
  let sameType0 := match t.cols with
    | [] => 0
    | c :: _ => c.TYPEOF
  let lineLenMax1 : Int :=
    if cfg.row_names then
      match t.rn with
      | some rn => wrap32 (2 + wrap32 (maxStrLen cfg rn + 1))
      | none => ((2 + Nat.log 10 t.nrows + 1 + 2 + 1 : Nat) : Int)
    else 2
  firstPassLoop cfg t.cols ⟨lineLenMax1, sameType0⟩

/-! ### Row encoding (lines 485-595)

A result `none` stands for a read outside a vector (undefined behaviour in C). -/

/-- A C `for` loop over the columns `col_i = 0 .. ncols-1` with the given body. -/
def forCols (body : Column → Buf → Option Buf) : List Column → Buf → Option Buf
  | [], b => some b
  | column :: rest, b =>
    match body column b with
    | none => none
    | some b1 => forCols body rest b1

/-- A C `for` loop `for (row_i = start; row_i < start + n; row_i++)` with the given
body, the first argument being the number `n` of iterations. -/
def forRows (body : Nat → Buf → Option Buf) : Nat → Nat → Buf → Option Buf
  | 0, _, b => some b
  | n + 1, row_i, b =>
    match body row_i b with
    | none => none
    | some b1 => forRows body n (row_i + 1) b1

/-- The cell of the all-`REALSXP` fast path (line 490): `writeNumeric(REAL(column)[row_i], &ch)`. -/
def fastCellReal {F : Type} (env : FloatEnv F) (cfg : Config) (column : Column) (row_i : Nat)
    (b : Buf) : Option Buf :=
  match column with
  | .real _ v =>
    match v[row_i]? with
    | none => none
    | some x => some (writeNumeric env cfg x b)
  | _ => none

/-- The cell of the all-`INTSXP` fast path (lines 501-505). -/
def fastCellInt (cfg : Config) (column : Column) (row_i : Nat) (b : Buf) : Option Buf :=
  match column with
  | .int _ v =>
    match v[row_i]? with
    | none => none
    | some x => if x = NA_INTEGER then some (b.memcpy cfg.na_str) else some (writeInteger x b)
  | _ => none

/-- The `switch(TYPEOF(column))` of the general path for one cell (lines 527-589). -/
def writeCell {F : Type} (env : FloatEnv F) (pf : Platform) (cfg : Config) (column : Column)
    (row_i : Nat) (b : Buf) : Option Buf :=
  match column with
  | .lgl v =>
    match v[row_i]? with
    | none => none
    | some true_false =>
      if true_false = NA_INTEGER then some (b.memcpy cfg.na_str)
      else if true_false ≠ 0 then some (b.memcpy [84, 82, 85, 69])
      else some (b.memcpy [70, 65, 76, 83, 69])
  | .real _ v =>
    match v[row_i]? with
    | none => none
    | some x =>
      if column.integer64 = true then
        let i64 := asInt64 x
        if i64 = pf.NAINT64 then some (b.memcpy cfg.na_str)
        else if cfg.turbo = true then some (writeInteger i64 b)
        else some (b.sprintf (pf.sprintf_lld i64))
      else if cfg.turbo = true then some (writeNumeric env cfg x b)
      else if ISNAN x = true then some (b.memcpy cfg.na_str)
      else some (b.sprintf (pf.sprintf_15g x))
  | .int _ v =>
    match v[row_i]? with
    | none => none
    | some x =>
      if x = NA_INTEGER then some (b.memcpy cfg.na_str)
      else
        match column.levels with
        | some lv =>
          if x - 1 < 0 then none
          else
            match lv[(x - 1).toNat]? with
            | none => none
            | some s => some (writeString cfg s b)
        | none =>
          if cfg.turbo = true then some (writeInteger x b)
          else some (b.sprintf (pf.sprintf_d x))
  | .str v =>
    match v[row_i]? with
    | none => none
    | some s => some (writeString cfg s b)
  | .other _ _ => some b

/-- The row-identifier field of the general path (lines 515-524). -/
def writeRowName (cfg : Config) (t : Table) (row_i : Nat) (b : Buf) : Option Buf :=
  if cfg.row_names = true then
    match t.rn with
    | none =>
      let b1 := if cfg.quote ≠ Rboolean.FALSE then b.put 34 else b
      let b2 := writeInteger ((row_i : Int) + 1) b1
      let b3 := if cfg.quote ≠ Rboolean.FALSE then b2.put 34 else b2
      some (b3.put cfg.col_sep)
    | some rn =>
      match rn[row_i]? with
      | none => none
      | some s => some ((writeString cfg s b).put cfg.col_sep)
  else some b

/-- One row of the all-`REALSXP` fast path (lines 488-495). -/
def fastRowReal {F : Type} (env : FloatEnv F) (cfg : Config) (t : Table) (row_i : Nat)
    (b : Buf) : Option Buf :=
  match forCols (fun column b1 =>
      match fastCellReal env cfg column row_i b1 with
      | none => none
      | some b2 => some (b2.put cfg.col_sep)) t.cols b with
  | none => none
  | some b3 => some ((b3.move (-1)).memcpy cfg.row_sep)

/-- One row of the all-`INTSXP` fast path (lines 499-510). -/
def fastRowInt (cfg : Config) (t : Table) (row_i : Nat) (b : Buf) : Option Buf :=
  match forCols (fun column b1 =>
      match fastCellInt cfg column row_i b1 with
      | none => none
      | some b2 => some (b2.put cfg.col_sep)) t.cols b with
  | none => none
  | some b3 => some ((b3.move (-1)).memcpy cfg.row_sep)

/-- One row of the general path (lines 515-594). -/
def generalRow {F : Type} (env : FloatEnv F) (pf : Platform) (cfg : Config) (t : Table)
    (row_i : Nat) (b : Buf) : Option Buf :=
  match writeRowName cfg t row_i b with
  | none => none
  | some b0 =>
    match forCols (fun column b1 =>
        match writeCell env pf cfg column row_i b1 with
        | none => none
        | some b2 => some (b2.put cfg.col_sep)) t.cols b0 with
    | none => none
    | some b3 => some ((b3.move (-1)).memcpy cfg.row_sep)

/-- The rows `start_row .. upp-1` written by the general path (lines 514-595). -/
def generalRows {F : Type} (env : FloatEnv F) (pf : Platform) (cfg : Config) (t : Table)
    (start_row upp : Nat) (b : Buf) : Option Buf :=
  forRows (generalRow env pf cfg t) (upp - start_row) start_row b

/-- The rows `start_row .. upp-1` of one batch (lines 485-596): the path is chosen from
`turbo`, `sameType` and `row_names`. -/
def writeBatchRows {F : Type} (env : FloatEnv F) (pf : Platform) (cfg : Config) (t : Table)
    (sameType : Nat) (start_row upp : Nat) (b : Buf) : Option Buf :=
  if cfg.turbo = true ∧ sameType = REALSXP ∧ ¬ cfg.row_names = true then
    forRows (fastRowReal env cfg t) (upp - start_row) start_row b
  else if cfg.turbo = true ∧ sameType = INTSXP ∧ ¬ cfg.row_names = true then
    forRows (fastRowInt cfg t) (upp - start_row) start_row b
  else generalRows env pf cfg t start_row upp b

/-! ## Reference byte sequences used to state the properties -/

/-- Backslash escaping: every `'"'` (34) and every backslash (92) is preceded by one
backslash, all other bytes are kept. -/
def escapeBytes (s : List Nat) : List Nat :=
  s.flatMap (fun c => if c = 34 ∨ c = 92 then [92, c] else [c])

/-- Quote doubling: every `'"'` (34) is emitted twice, all other bytes are kept. -/
def doubleBytes (s : List Nat) : List Nat :=
  s.flatMap (fun c => if c = 34 then [34, 34] else [c])

/-- A quoted field: opening quote, the escaped or doubled content, closing quote. -/
def quotedBytes (qmethod_escape : Bool) (s : List Nat) : List Nat :=
  [34] ++ (if qmethod_escape = true then escapeBytes s else doubleBytes s) ++ [34]

/-- Replaces, scanning from the left, every pair of adjacent double-quotes by a
single double-quote. -/
def halveQuotes : List Nat → List Nat
  | [] => []
  | [c] => [c]
  | c :: d :: rest =>
    if c = 34 ∧ d = 34 then 34 :: halveQuotes rest else c :: halveQuotes (d :: rest)

/-- A floating-point environment for concrete evaluation: `double` carries no
information, every conversion to `unsigned long long` yields `l` and every table
exponent is `e`. -/
def constEnv (l : Nat) (e : Int) : FloatEnv Unit where
  lit := fun _ => ()
  add := fun _ _ => ()
  mul := fun _ _ => ()
  div := fun _ _ => ()
  ge := fun _ _ => false
  toULL := fun _ => l
  sigparts := fun _ => ()
  expsig := fun _ => ()
  exppow := fun _ => e

/-- A platform for concrete evaluation: `NAINT64` is `LLONG_MIN` and the `sprintf`
conversions of integers give their decimal representation (`%.15g` is not evaluated:
it gives `"?"`). -/
def examplePlatform : Platform where
  NAINT64 := -9223372036854775808
  sprintf_lld := fun v => out 0 (writeInteger v emptyBuf)
  sprintf_d := fun v => out 0 (writeInteger v emptyBuf)
  sprintf_15g := fun _ => [63]

/-- The default configuration of the spec with `na_str = "NA"`: `col_sep = ','`,
`dec_sep = '.'`, `quote = auto`, `qmethod = escape`, `row_sep = "\n"`, no row names,
`turbo` on. -/
def exampleConfig : Config where
  na_str := [78, 65]
  col_sep := 44
  dec_sep := 46
  quote := Rboolean.NA_LOGICAL
  qmethod_escape := true
  row_sep := [10]
  row_names := false
  turbo := true

/-- Whether the cell of `column` at `row_i` is missing: `NA_LOGICAL` in a logical
column, `NA_INTEGER` in an integer (or factor) column, `NAINT64` in an integer64
column, any NaN in a double column, `NA_STRING` in a string column. -/
def isMissingCell (pf : Platform) (column : Column) (row_i : Nat) : Bool :=
  match column with
  | .lgl v => v[row_i]? = some NA_INTEGER
  | .int _ v => v[row_i]? = some NA_INTEGER
  | .real true v =>
    match v[row_i]? with
    | none => false
    | some x => asInt64 x = pf.NAINT64
  | .real false v =>
    match v[row_i]? with
    | none => false
    | some x => ISNAN x
  | .str v => v[row_i]? = some none
  | .other _ _ => false

/-- A plain double column: `REALSXP` that is not an integer64 overlay. -/
def Column.isPlainReal : Column → Bool
  | .real false _ => true
  | _ => false

/-- A plain integer column: `INTSXP` that is not a factor. -/
def Column.isPlainInt : Column → Bool
  | .int none _ => true
  | _ => false

/-- The bytes of `CHAR(x)` before the terminating NUL. -/
def cstr (s : List Nat) : List Nat := s.takeWhile (fun c => c ≠ 0)

/-- The bytes `writeString` emits for `x`. -/
def stringBytes (cfg : Config) (x : CharSxp) : List Nat :=
  match x with
  | none => cfg.na_str
  | some s =>
    match cfg.quote with
    | Rboolean.FALSE => s
    | Rboolean.TRUE => quotedBytes cfg.qmethod_escape (cstr s)
    | Rboolean.NA_LOGICAL =>
      if cfg.col_sep ∈ cstr s ∨ 10 ∈ cstr s then quotedBytes cfg.qmethod_escape (cstr s)
      else cstr s

/-- The `k` low decimal digits of `l` as ASCII, most significant first. -/
def lowDigits (l : Nat) : Nat → List Nat
  | 0 => []
  | k + 1 => lowDigits (l / 10) k ++ [48 + l % 10]

/-- The decimal rendering (left to right) of the significand `l` with `sf` digits:
the digits left of the decimal point, `dl0` zeros, then, when `dr` is not zero,
`dec_sep` followed by `dr` fractional digits (zeros first when `dr > sf`). -/
def decimalBytes (dec_sep l : Nat) (sf dr dl0 : Int) : List Nat :=
  let k := if dr ≠ 0 then min dr.toNat sf.toNat else 0
  lowDigits (l / 10 ^ k) (sf.toNat - k) ++ List.replicate dl0.toNat 48 ++
    (if dr ≠ 0 then dec_sep :: (List.replicate (dr.toNat - k) 48 ++ lowDigits l k) else [])

/-- The exponent part of the scientific rendering: `'e'`, the sign, and two or three
digits. -/
def exponentBytes (exp : Int) : List Nat :=
  let e : Int := if exp < 0 then -exp else exp
  [101, if exp < 0 then 45 else 43] ++
    (if e < 100 then [byteOf (48 + e / 10).toNat, byteOf (48 + e % 10).toNat]
     else [byteOf (48 + e / 100).toNat, byteOf (48 + (e / 10) % 10).toNat,
       byteOf (48 + e % 10).toNat])

/-- The scientific rendering (left to right) of the significand `l` with `sf` digits and
exponent `exp`. -/
def scientificBytes (dec_sep l : Nat) (sf exp : Int) : List Nat :=
  (byteOf (48 + l / 10 ^ (sf - 1).toNat) ::
    (if sf = 1 then [] else dec_sep :: lowDigits l (sf - 1).toNat)) ++ exponentBytes exp

/-- The bytes of the field for the integer `l0` and exponent `exp0` produced by the
floating-point part (when the rounded integer is zero the field is `"0"`). -/
def numericDigitsBytes (dec_sep l0 : Nat) (exp0 : Int) : List Nat :=
  if roundLast l0 = 0 then [48]
  else
    let L := numLayout (roundLast l0) exp0
    if L.decimal = true then decimalBytes dec_sep L.l L.sf L.dr L.dl0
    else scientificBytes dec_sep L.l L.sf L.exp

/-- The bytes of the field `writeNumeric` emits for the double with bit pattern `x`. -/
def numericBytes {F : Type} (env : FloatEnv F) (cfg : Config) (x : Nat) : List Nat :=
  if !R_FINITE x then
    if ISNAN x then cfg.na_str
    else if dblGtZero x then [73, 110, 102]
    else [45, 73, 110, 102]
  else if dblIsZero x then [48]
  else
    (if dblLtZero x then [45] else []) ++
      numericDigitsBytes cfg.dec_sep
        (mantissaExp env (if dblLtZero x then dblNeg x else x)).1
        (mantissaExp env (if dblLtZero x then dblNeg x else x)).2

/-- The source's comment on line 148: the integer `l` produced by the floating-point
part has `NUM_SF+1` digits, for every bit pattern. -/
def SixteenDigits {F : Type} (env : FloatEnv F) : Prop :=
  ∀ bits, SIZE_SF ≤ (mantissaExp env bits).1 ∧ (mantissaExp env bits).1 < 10 * SIZE_SF

/-- Buffer `b1` results from `b` by writing the bytes `l` downwards from the cursor
(`*ch-- = c`, last byte of `l` first): the cursor moved down by `l.length`, the bytes
just above the new cursor are those of `l`, everything else is unchanged. -/
def Prepends (b b1 : Buf) (l : List Nat) : Prop :=
  b1.ch = b.ch - l.length ∧ (∀ p, p ≤ b1.ch ∨ b.ch < p → b1.mem p = b.mem p) ∧
    ∀ i : Nat, i < l.length → b1.mem (b1.ch + 1 + i) = l.getD i 0

/-- The bytes of the field the general path emits for the cell of `column` at `row_i`
(`none` when the cell cannot be read). -/
def cellBytes {F : Type} (env : FloatEnv F) (pf : Platform) (cfg : Config) (column : Column)
    (row_i : Nat) : Option (List Nat) :=
  match column with
  | .lgl v =>
    match v[row_i]? with
    | none => none
    | some true_false =>
      if true_false = NA_INTEGER then some cfg.na_str
      else if true_false ≠ 0 then some [84, 82, 85, 69]
      else some [70, 65, 76, 83, 69]
  | .real _ v =>
    match v[row_i]? with
    | none => none
    | some x =>
      if column.integer64 = true then
        if asInt64 x = pf.NAINT64 then some cfg.na_str
        else if cfg.turbo = true then some (integerBytes (asInt64 x))
        else some (pf.sprintf_lld (asInt64 x))
      else if cfg.turbo = true then some (numericBytes env cfg x)
      else if ISNAN x = true then some cfg.na_str
      else some (pf.sprintf_15g x)
  | .int _ v =>
    match v[row_i]? with
    | none => none
    | some x =>
      if x = NA_INTEGER then some cfg.na_str
      else
        match column.levels with
        | some lv =>
          if x - 1 < 0 then none
          else
            match lv[(x - 1).toNat]? with
            | none => none
            | some s => some (stringBytes cfg s)
        | none =>
          if cfg.turbo = true then some (integerBytes x)
          else some (pf.sprintf_d x)
  | .str v =>
    match v[row_i]? with
    | none => none
    | some s => some (stringBytes cfg s)
  | .other _ _ => some []

/-- The bytes of the row-identifier field of row `row_i` (without the separator that
follows it): the row number `row_i+1`, quoted unless `quote` is `FALSE`, for implicit
row names, else the row-name string as `writeString` emits it. -/
def rowNameField (cfg : Config) (t : Table) (row_i : Nat) : Option (List Nat) :=
  match t.rn with
  | none =>
    some ((if cfg.quote ≠ Rboolean.FALSE then [34] else []) ++ integerBytes ((row_i : Int) + 1) ++
      (if cfg.quote ≠ Rboolean.FALSE then [34] else []))
  | some rn =>
    match rn[row_i]? with
    | none => none
    | some s => some (stringBytes cfg s)

/-! ## The lookup tables, with exact arithmetic -/

/-- The number of decimal digits of `n` (0 for `n = 0`), the first argument being fuel. -/
def numDigits : Nat → Nat → Nat
  | 0, _ => 0
  | fuel + 1, n => if n = 0 then 0 else 1 + numDigits fuel (n / 10)

/-- Modelled from the spec: the tables of `fwriteLookups.h`, which is not among the
sources. `sigparts[i] = 2^-i` with `sigparts[0] = 0`; `expsig[e]` and `exppow[e]` are
the decimal significand in `[1, 10)` and the base-10 exponent of `2^(e-1023)` (as the
generator kept in the comment of `genLookups` prints them). A `double` is modelled by
an exact non-negative fraction (numerator, denominator) and the arithmetic is exact,
without the rounding of binary64. -/
def exactEnv : FloatEnv (Nat × Nat) where
  lit := fun n => (n, 1)
  add := fun a b => (a.1 * b.2 + b.1 * a.2, a.2 * b.2)
  mul := fun a b => (a.1 * b.1, a.2 * b.2)
  div := fun a b => (a.1 * b.2, a.2 * b.1)
  ge := fun a b => b.1 * a.2 ≤ a.1 * b.2
  toULL := fun a => a.1 / a.2
  sigparts := fun i => if i = 0 then (0, 1) else (1, 2 ^ i)
  expsig := fun e =>
    if 1023 ≤ e then (2 ^ (e - 1023), 10 ^ (numDigits (2 ^ (e - 1023)) (2 ^ (e - 1023)) - 1))
    else (10 ^ numDigits (2 ^ (1023 - e)) (2 ^ (1023 - e)), 2 ^ (1023 - e))
  exppow := fun e =>
    if 1023 ≤ e then ((numDigits (2 ^ (e - 1023)) (2 ^ (e - 1023)) - 1 : Nat) : Int)
    else -((numDigits (2 ^ (1023 - e)) (2 ^ (1023 - e)) : Nat) : Int)

/-! ## Further reference quantities for `writeNumeric` -/

/-- The decimal digits of `n` as ASCII, most significant first (no digit for 0). -/
def digitChars (n : Nat) : List Nat := (Nat.digits 10 n).reverse.map (fun d => 48 + d)

/-- Lines 167-174 as a function of `sf` and `exp`: the values of `dr`, `dl0` and
`width`. -/
def decimalLayout (sf exp : Int) : Int × Int × Int :=
  let dr0 : Int := sf - exp - 1
  if dr0 ≤ 0 then (0, -dr0, sf + (-dr0))
  else if sf > dr0 then (dr0, 0, sf + 1)
  else (dr0, 1, dr0 + 1 + 1)

/-- The right-hand side of the test of line 178:
`sf + (sf>1) + 2 + (abs(exp)>99?3:2)`. -/
def sciCost (sf exp : Int) : Int :=
  sf + (if sf > 1 then 1 else 0) + 2 + (if |exp| > 99 then 3 else 2)

/-! ## writefile as a whole (fwrite.c lines 285-657)

The function is embedded sequentially: effects on the sink are recorded as a list of
events, results of the operating system (`open`, `malloc`, `write`, `close`) are
supplied by `Sys`, and the parallel loop is run in the order of its `ordered`
sections with one worker buffer. `verbose` and `showProgress` are taken to be off. -/

/-- An effect of `writefile` on its sink: a successful `open` of the file (with
`O_APPEND` if `append`, else `O_TRUNC`), a `WRITE` call with the bytes of the buffer and
whether it succeeded, an `Rprintf` of the buffer to the console, a `close` call. -/
inductive Event where
  | open (append : Bool)
  | write (bytes : List Nat) (ok : Bool)
  | print (bytes : List Nat)
  | close
  deriving DecidableEq, Repr

/-- How `writefile` ends: normal return, or one of its `error()` exits. -/
inductive Outcome where
  | ok
  | emptyList
  | shapeMismatch
  | openFailedExisting
  | openFailedCreate
  | unsupportedColumnKind
  | namesLength
  | headerOutOfMemory
  | headerWriteFailed
  | closeFailedNoRows
  | outOfMemory
  | closeFailed
  | writeFailed (errno : Int)
  deriving DecidableEq, Repr

/-- Results of the operating system calls made by `writefile`: the descriptor returned
by `open` (-1 on failure), whether `access(filename, F_OK)` finds the file, whether the
two `malloc` calls succeed, the contents of freshly allocated memory, for the `n`-th
`WRITE` call `none` when it succeeds or `some errno` when it returns -1, and for `CLOSE`
`none` when it returns 0 or `some errno` otherwise. -/
structure Sys where
  openFd : Int
  fileExists : Bool
  headerMalloc : Bool
  workerMalloc : Bool
  heap : Int → Nat
  writeErrno : Nat → Option Int
  closeErrno : Option Int

/-- The arguments of `writefile`: the list of columns with its names attribute, the
configuration, and the flags `*filename=='\0'`, `append`, `col_names`. -/
structure Args where
  t : Table
  names : List CharSxp
  cfg : Config
  filename_empty : Bool
  append : Bool
  col_names : Bool

/-- Lines 415-418: the size of the header buffer. -/
def headerBufSize (names : List CharSxp) (ncols : Nat) : Nat :=
  (1 + (names.map LENGTH).sum) * 2 + ncols * (2 + 1) + 2 + 1

/-- The loop of lines 426-429 over the column names. -/
def headerFields (cfg : Config) : List CharSxp → Buf → Buf
  | [], b => b
  | name :: rest, b => headerFields cfg rest ((writeString cfg name b).put cfg.col_sep)

/-- Lines 421-432: the header line is written into the buffer. -/
def writeHeader (cfg : Config) (names : List CharSxp) (b : Buf) : Buf :=
  let b1 :=
    if cfg.row_names = true then
      (if cfg.quote ≠ Rboolean.FALSE then (b.put 34).put 34 else b).put cfg.col_sep
    else b
  let b2 := headerFields cfg names b1
  (b2.move (-1)).memcpy cfg.row_sep

/-- The number of bytes of the header buffer that are used, counted from its start at
offset 0: the header line and, on the console, the terminating NUL of line 433. -/
def headerBytesUsed (cfg : Config) (names : List CharSxp) (console : Bool) (heap : Int → Nat) :
    Int :=
  (writeHeader cfg names ⟨heap, 0⟩).ch + (if console = true then 1 else 0)

/-- Lines 449-450: `bufSize`. -/
def bufSizeOf (lineLenMax : Nat) : Nat :=
  if lineLenMax > 1 * 1024 * 1024 then lineLenMax else 1 * 1024 * 1024

/-- Line 451: `rowsPerBatch = bufSize/lineLenMax`. -/
def rowsPerBatchOf (lineLenMax : Nat) : Nat := bufSizeOf lineLenMax / lineLenMax

/-- Line 452: `numBatches = (nrows-1)/rowsPerBatch + 1`. -/
def numBatchesOf (nrows rowsPerBatch : Nat) : Nat := (nrows - 1) / rowsPerBatch + 1

/-- Lines 483-484: `int upp = start_row + rowsPerBatch; if (upp > nrows) upp = nrows;`
with the sum stored in a 32-bit `int`. -/
def batchUpp (nrows rowsPerBatch start_row : Nat) : Int :=
  let upp := wrap32 ((start_row : Int) + (rowsPerBatch : Int))
  if upp > (nrows : Int) then (nrows : Int) else upp

/-- The state of the parallel region: the contents of the worker buffer, the shared
`failed` and `failed_reason`, the events so far, and the number of `WRITE` calls made. -/
structure Region where
  mem : Int → Nat
  failed : Bool
  failed_reason : Int
  events : List Event
  nwrites : Nat

/-- One iteration of the batch loop (lines 482-636): the rows of the batch are encoded
from the start of the buffer, then, in the ordered section, the buffer is printed
(console) or written (file). -/
def batchBody {F : Type} (env : FloatEnv F) (pf : Platform) (sys : Sys) (cfg : Config)
    (t : Table) (sameType : Nat) (console : Bool) (nrows rowsPerBatch start_row : Nat)
    (st : Region) : Option Region :=
  if st.failed = true then some st
  else
    match writeBatchRows env pf cfg t sameType start_row
        (batchUpp nrows rowsPerBatch start_row).toNat ⟨st.mem, 0⟩ with
    | none => none
    | some b =>
      if console = true then
        some { st with mem := (b.poke 0).mem, events := st.events ++ [Event.print (out 0 b)] }
      else
        match sys.writeErrno st.nwrites with
        | none =>
          some { st with mem := b.mem, events := st.events ++ [Event.write (out 0 b) true],
                         nwrites := st.nwrites + 1 }
        | some errno =>
          some { st with mem := b.mem, failed := true, failed_reason := errno,
                         events := st.events ++ [Event.write (out 0 b) false],
                         nwrites := st.nwrites + 1 }

/-- The loop `for (start_row = 0; start_row < nrows; start_row += rowsPerBatch)` of line
481, the first argument being fuel. -/
def batchLoop {F : Type} (env : FloatEnv F) (pf : Platform) (sys : Sys) (cfg : Config)
    (t : Table) (sameType : Nat) (console : Bool) (nrows rowsPerBatch : Nat) :
    Nat → Nat → Region → Option Region
  | 0, _, st => some st
  | fuel + 1, start_row, st =>
    if start_row < nrows then
      match batchBody env pf sys cfg t sameType console nrows rowsPerBatch start_row st with
      | none => none
      | some st1 =>
        batchLoop env pf sys cfg t sameType console nrows rowsPerBatch fuel
          (start_row + rowsPerBatch) st1
    else some st

/-- Lines 648-656: after the parallel region the recorded failure and the result of
`CLOSE` decide how `writefile` ends; returns whether `CLOSE` was called and the
outcome. -/
def postRegion (console : Bool) (failed : Bool) (failed_reason : Int)
    (closeErrno : Option Int) : Bool × Outcome :=
  if failed = true ∧ failed_reason = -1 then (false, Outcome.outOfMemory)
  else if console = false ∧ closeErrno.isSome = true ∧ failed = false then
    (true, Outcome.closeFailed)
  else if failed = true then (!console, Outcome.writeFailed failed_reason)
  else (!console, Outcome.ok)

/-- Lines 411-437: the header stage. `Sum.inl` is an `error()` exit with the events up
to it, `Sum.inr` the events and the number of `WRITE` calls so far. -/
def headerStage (sys : Sys) (cfg : Config) (a : Args) (console : Bool) (events : List Event) :
    (List Event × Outcome) ⊕ (List Event × Nat) :=
  if a.col_names = true then
    if a.names.length ≠ a.t.cols.length then Sum.inl (events, Outcome.namesLength)
    else if sys.headerMalloc = false then Sum.inl (events, Outcome.headerOutOfMemory)
    else
      let b := writeHeader cfg a.names ⟨sys.heap, 0⟩
      if console = true then Sum.inr (events ++ [Event.print (out 0 b)], 0)
      else
        match sys.writeErrno 0 with
        | some _ =>
          Sum.inl (events ++ [Event.write (out 0 b) false, Event.close],
            Outcome.headerWriteFailed)
        | none => Sum.inr (events ++ [Event.write (out 0 b) true], 1)
  else Sum.inr (events, 0)

/-- Lines 439-656: from the test `nrows == 0` to the end, given the result of the first
pass and of the header stage. A line bound that has overflowed `int` to a value
below 1 makes `bufSize/lineLenMax` zero, negative or a division by zero: the embedding
does not follow the code there (`none`). -/
def dataStage {F : Type} (env : FloatEnv F) (pf : Platform) (sys : Sys) (cfg : Config)
    (a : Args) (console : Bool) (fp : FirstPass) (events : List Event) (nwrites : Nat) :
    Option (List Event × Outcome) :=
  if a.t.nrows = 0 then
    if console = false ∧ sys.closeErrno.isSome = true then
      some (events ++ [Event.close], Outcome.closeFailedNoRows)
    else some (if console = true then events else events ++ [Event.close], Outcome.ok)
  else if fp.lineLenMax < 1 then none
  else
    let rowsPerBatch := rowsPerBatchOf fp.lineLenMax.toNat
    let st0 : Region :=
      { mem := sys.heap
        failed := !sys.workerMalloc
        failed_reason := if sys.workerMalloc = true then 0 else -1
        events := events
        nwrites := nwrites }
    match batchLoop env pf sys cfg a.t fp.sameType console a.t.nrows rowsPerBatch a.t.nrows 0
        st0 with
    | none => none
    | some st =>
      let r := postRegion console st.failed st.failed_reason sys.closeErrno
      some (if r.1 = true then st.events ++ [Event.close] else st.events, r.2)

/-- The C function `writefile`: the events on the sink and the outcome (`none` when a
cell outside a vector is read, or the line bound has overflowed to a value below 1). -/
def writefile {F : Type} (env : FloatEnv F) (pf : Platform) (sys : Sys) (a : Args) :
    Option (List Event × Outcome) :=
  if a.t.cols.length = 0 then some ([], Outcome.emptyList)
  else if a.t.cols.any (fun c => decide (c.length ≠ a.t.nrows)) = true then
    some ([], Outcome.shapeMismatch)
  else
    let console := a.filename_empty
    let cfg : Config := if console = true then { a.cfg with row_sep := [10] } else a.cfg
    if console = false ∧ sys.openFd = -1 then
      some ([], if sys.fileExists = true then Outcome.openFailedExisting
        else Outcome.openFailedCreate)
    else
      let events0 : List Event := if console = true then [] else [Event.open a.append]
      match firstPass cfg a.t with
      | none => some (events0, Outcome.unsupportedColumnKind)
      | some fp =>
        match headerStage sys cfg a console events0 with
        | Sum.inl r => some r
        | Sum.inr (events1, nwrites) => dataStage env pf sys cfg a console fp events1 nwrites

/-- The bytes that reached the sink: those of the successful `WRITE` calls and of the
console prints, in order. -/
def sinkBytes : List Event → List Nat
  | [] => []
  | Event.write bytes true :: rest => bytes ++ sinkBytes rest
  | Event.print bytes :: rest => bytes ++ sinkBytes rest
  | _ :: rest => sinkBytes rest

/-- The content of the file after the events, from its content before: a truncating
`open` empties it, a successful `WRITE` appends to it. -/
def fileAfter : List Nat → List Event → List Nat
  | content, [] => content
  | _, Event.open false :: rest => fileAfter [] rest
  | content, Event.write bytes true :: rest => fileAfter (content ++ bytes) rest
  | content, _ :: rest => fileAfter content rest

/-- The number of `close` calls among the events. -/
def closeCount (events : List Event) : Nat := events.count Event.close

/-- The fields of row `row_i`, one per column (`none` when a cell cannot be read). -/
def rowFields {F : Type} (env : FloatEnv F) (pf : Platform) (cfg : Config) (row_i : Nat) :
    List Column → Option (List (List Nat))
  | [] => some []
  | column :: rest =>
    match cellBytes env pf cfg column row_i, rowFields env pf cfg row_i rest with
    | some f, some fs => some (f :: fs)
    | _, _ => none

/-- The encoding of row `row_i`: the row-identifier field and `col_sep` when row names
are requested, the fields separated by `col_sep`, then `row_sep`. -/
def rowBytes {F : Type} (env : FloatEnv F) (pf : Platform) (cfg : Config) (t : Table)
    (row_i : Nat) : Option (List Nat) :=
  match (if cfg.row_names = true then rowNameField cfg t row_i else some []),
      rowFields env pf cfg row_i t.cols with
  | some rnf, some fields =>
    some ((if cfg.row_names = true then rnf ++ [cfg.col_sep] else []) ++
      List.intercalate [cfg.col_sep] fields ++ cfg.row_sep)
  | _, _ => none

/-- A system in which every call succeeds and fresh memory is zero. -/
def exampleSys : Sys where
  openFd := 3
  fileExists := false
  headerMalloc := true
  workerMalloc := true
  heap := fun _ => 0
  writeErrno := fun _ => none
  closeErrno := none

/-- The start rows visited by the loop header of line 481,
`for (start_row = 0; start_row < nrows; start_row += rowsPerBatch)`, the first
argument being fuel. -/
def batchStarts (nrows rowsPerBatch : Nat) : Nat → Nat → List Nat
  | 0, _ => []
  | fuel + 1, start_row =>
    if start_row < nrows then
      start_row :: batchStarts nrows rowsPerBatch fuel (start_row + rowsPerBatch)
    else []

/-! ## Variables shared between the worker threads

`int true_false` is declared in `writefile` before the parallel region (line 352), so
inside the region it is one variable shared by all threads, like the file-scope
`static union u` of `writeNumeric` (line 91). -/

/-- The LGLSXP case after the store to `true_false` (lines 530-538): the tests on
`true_false` and the write they select. -/
def lglEmit (cfg : Config) (true_false : Int) (b : Buf) : Buf :=
  if true_false = NA_INTEGER then b.memcpy cfg.na_str
  else if true_false ≠ 0 then b.memcpy [84, 82, 85, 69]
  else b.memcpy [70, 65, 76, 83, 69]

/-- Two worker threads A and B in the parallel region, each encoding one logical cell
into its own buffer; `true_false` is the variable they share. -/
structure TwoWorkers where
  true_false : Int
  bufA : Buf
  bufB : Buf

/-- The steps of the two threads: the store of line 529 (`store`) and the tests and
write of lines 530-538 (`emit`), for thread A and for thread B. -/
inductive WorkerStep where
  | storeA
  | emitA
  | storeB
  | emitB

/-- One step of one of the two threads, `cellA` and `cellB` being the values of
`LOGICAL(column)[row_i]` for the cells they encode. -/
def workerStep (cfg : Config) (cellA cellB : Int) (s : TwoWorkers) : WorkerStep → TwoWorkers
  | WorkerStep.storeA => { s with true_false := cellA }
  | WorkerStep.emitA => { s with bufA := lglEmit cfg s.true_false s.bufA }
  | WorkerStep.storeB => { s with true_false := cellB }
  | WorkerStep.emitB => { s with bufB := lglEmit cfg s.true_false s.bufB }

/-- An interleaving of the steps of the two threads. -/
def runWorkers (cfg : Config) (cellA cellB : Int) (steps : List WorkerStep) (s : TwoWorkers) :
    TwoWorkers :=
  steps.foldl (workerStep cfg cellA cellB) s

/-! ## The positional decimal expansion -/

/-- The plain positional decimal expansion of `l * 10^(exp - sf + 1)` for a significand
`l` of `sf` digits, with `dec_sep` as the decimal point: when `exp >= sf - 1` the digits
of `l` followed by `exp - (sf - 1)` zeros and no decimal point; when `0 <= exp < sf - 1`
the first `exp + 1` digits of `l`, `dec_sep`, the remaining digits; when `exp < 0` a
single `"0"`, `dec_sep`, `-exp - 1` zeros and the digits of `l`. -/
def positionalBytes (dec_sep l sf : Nat) (exp : Int) : List Nat :=
  if (sf : Int) - 1 ≤ exp then digitChars l ++ List.replicate (exp - ((sf : Int) - 1)).toNat 48
  else if 0 ≤ exp then
    (digitChars l).take (exp.toNat + 1) ++ dec_sep :: (digitChars l).drop (exp.toNat + 1)
  else 48 :: dec_sep :: (List.replicate ((-exp).toNat - 1) 48 ++ digitChars l)

/-! ## Widths used by the line bound -/

/-- The widest value of a string vector: the largest `LENGTH` of its elements (0 for
an empty vector). -/
def widestValue (x : List CharSxp) : Nat := (x.map LENGTH).foldr max 0

/-- The width `w(c)` of a column with the missing token taken into account: 5 for BOOL,
11 for INT32, 25 for DOUBLE and the INT64 overlay, and for FACTOR and STRING twice the
larger of `na_len` and the widest level (resp. value), plus 2 (0 for a column of
another type). -/
def colWidth (cfg : Config) : Column → Nat
  | .lgl _ => 5
  | .real _ _ => 25
  | .int (some lv) _ => 2 * max cfg.na_str.length (widestValue lv) + 2
  | .int none _ => 11
  | .str v => 2 * max cfg.na_str.length (widestValue v) + 2
  | .other _ _ => 0

/-- A floating-point environment that records the accesses to the table `sigparts`: a
`double` is the list of the table indices added into it so far, in order, so that
`accumulate traceEnv fraction` is the list of indices the accumulation loop uses. -/
def traceEnv : FloatEnv (List Nat) where
  lit := fun _ => []
  add := fun a b => a ++ b
  mul := fun a _ => a
  div := fun a _ => a
  ge := fun _ _ => false
  toULL := fun _ => 0
  sigparts := fun i => [i]
  expsig := fun _ => []
  exppow := fun _ => 0

/-! ## Buffer lemmas -/

theorem Appends.refl (b : Buf) : Appends b b [] := by
  refine ⟨by simp, fun _ _ => rfl, ?_⟩
  intro i hi; simp at hi

theorem Appends.trans {b b1 b2 : Buf} {l1 l2 : List Nat}
    (h1 : Appends b b1 l1) (h2 : Appends b1 b2 l2) : Appends b b2 (l1 ++ l2) := by
  obtain ⟨c1, m1, g1⟩ := h1
  obtain ⟨c2, m2, g2⟩ := h2
  refine ⟨by rw [c2, c1]; simp; ring, ?_, ?_⟩
  · intro p hp
    rw [m2 p (by rw [c1]; omega), m1 p hp]
  · intro i hi
    by_cases h : i < l1.length
    · rw [m2 _ (by rw [c1]; omega), g1 i h]
      simp [List.getD_eq_getElem?_getD, List.getElem?_append_left h]
    · have hi2 : i - l1.length < l2.length := by simp at hi; omega
      have := g2 (i - l1.length) hi2
      rw [c1] at this
      have e : b.ch + (l1.length : Int) + ((i - l1.length : Nat) : Int) = b.ch + i := by omega
      rw [e] at this
      rw [this]
      simp [List.getD_eq_getElem?_getD, List.getElem?_append_right (Nat.le_of_not_lt h)]

theorem Appends.put (b : Buf) (c : Nat) : Appends b (b.put c) [c] := by
  refine ⟨by simp [Buf.put], ?_, ?_⟩
  · intro p hp
    simp [Buf.put, Function.update_apply]; omega
  · intro i hi
    simp at hi; subst hi
    simp [Buf.put]

theorem Appends.memcpy (b : Buf) (s : List Nat) : Appends b (b.memcpy s) s := by
  induction s generalizing b with
  | nil => exact Appends.refl b
  | cons c s ih => exact (Appends.put b c).trans (ih (b.put c))

theorem Appends.out_eq {b b1 : Buf} {l : List Nat} (h : Appends b b1 l) : out b.ch b1 = l := by
  obtain ⟨c, _, g⟩ := h
  apply List.ext_getElem
  · simp [out, c]
  · intro i h1 h2
    simp [out, g i h2, List.getD_eq_getElem?_getD, List.getElem?_eq_getElem h2]

/-! ## writeInteger -/

theorem byteOf_digit (d : Nat) (h : d < 10) : byteOf (48 + d) = 48 + d := by
  unfold byteOf; omega

theorem writeIntegerDigits_spec (fuel : Nat) (n : Nat) (b : Buf) (w : Nat) (hf : n ≤ fuel) :
    writeIntegerDigits fuel (n : Int) b w =
      (b.memcpy ((Nat.digits 10 n).map (fun d => 48 + d)), w + (Nat.digits 10 n).length) := by
  induction fuel generalizing n b w with
  | zero =>
    have : n = 0 := by omega
    subst this
    simp [writeIntegerDigits, Buf.memcpy]
  | succ fuel ih =>
    unfold writeIntegerDigits
    by_cases hn : n = 0
    · subst hn; simp [Buf.memcpy]
    · have hpos : (n : Int) > 0 := by omega
      rw [if_pos hpos]
      have e1 : (n : Int) / 10 = ((n / 10 : Nat) : Int) := by omega
      have e2 : (48 + (n : Int) % 10).toNat = 48 + n % 10 := by omega
      rw [e1, e2, ih (n / 10) _ _ (by omega), byteOf_digit _ (Nat.mod_lt _ (by norm_num))]
      rw [Nat.digits_def' (by norm_num) (Nat.pos_of_ne_zero hn)]
      simp [Buf.memcpy]; omega

theorem writeIntegerReverse_ch (i w : Nat) (b : Buf) : (writeIntegerReverse i w b).ch = b.ch := by
  induction i generalizing b with
  | zero => rfl
  | succ i ih => simp [writeIntegerReverse, ih]

theorem writeIntegerReverse_mem (i w : Nat) (b : Buf) (h : 2 * i ≤ w) (p : Int) :
    (writeIntegerReverse i w b).mem p =
      if b.ch - w ≤ p ∧ p < b.ch ∧ (p - (b.ch - w) < i ∨ b.ch - 1 - p < i)
      then b.mem (2 * b.ch - w - 1 - p) else b.mem p := by
  induction i generalizing b with
  | zero =>
    simp only [writeIntegerReverse]
    rw [if_neg]
    intro ⟨_, _, h⟩
    omega
  | succ i ih =>
    simp only [writeIntegerReverse]
    rw [ih _ (by omega)]
    simp only [Function.update_apply]
    push_cast
    split_ifs <;> first | rfl | (exfalso; omega) | (congr 1; omega)

theorem writeIntegerReverse_appends (b1 : Buf) (L : List Nat) :
    Appends b1 (writeIntegerReverse (L.length / 2) L.length (b1.memcpy L)) L.reverse := by
  obtain ⟨c, m, g⟩ := Appends.memcpy b1 L
  refine ⟨by rw [writeIntegerReverse_ch, c]; simp, ?_, ?_⟩
  · intro p hp
    rw [writeIntegerReverse_mem _ _ _ (by omega), if_neg (by rw [c]; omega), m p hp]
  · intro i hi
    simp at hi
    rw [writeIntegerReverse_mem _ _ _ (by omega)]
    have key : (b1.memcpy L).mem (b1.ch + ((L.length - 1 - i : Nat) : Int)) = L.reverse.getD i 0 := by
      rw [g _ (by omega)]
      simp [List.getD_eq_getElem?_getD, List.getElem?_reverse hi]
    rw [← key, c]
    split_ifs with h
    · congr 1; omega
    · congr 1; omega

theorem writeInteger_appends_general (x : Int) (b : Buf) :
    Appends b (writeInteger x b) (integerBytes x) := by
  unfold writeInteger integerBytes
  by_cases h0 : x = 0
  · simp only [h0, if_true]; exact Appends.put b 48
  · simp only [if_neg h0]
    generalize hx1 : (if x < 0 then wrap64 (-x) else x) = x1
    have hd : writeIntegerDigits x1.toNat x1 (if x < 0 then b.put 45 else b) 0 =
        ((if x < 0 then b.put 45 else b).memcpy ((Nat.digits 10 x1.toNat).map (fun d => 48 + d)),
          0 + (Nat.digits 10 x1.toNat).length) := by
      by_cases hpos : 0 < x1
      · have e : x1 = (x1.toNat : Int) := by omega
        rw [e, Int.toNat_ofNat]
        exact writeIntegerDigits_spec _ _ _ _ (le_refl _)
      · have e : x1.toNat = 0 := by omega
        rw [e]
        simp [writeIntegerDigits, Buf.memcpy]
    rw [hd]
    simp only [Nat.zero_add]
    have := writeIntegerReverse_appends (if x < 0 then b.put 45 else b)
      ((Nat.digits 10 x1.toNat).map (fun d => 48 + d))
    simp only [List.length_map, ← List.map_reverse] at this
    split_ifs with hneg
    · rw [if_pos hneg] at this
      exact (Appends.put b 45).trans this
    · rw [if_neg hneg] at this
      simpa using this

theorem integerBytes_eq_decimalRepr (x : Int) (h1 : -2 ^ 63 < x) (h2 : x < 2 ^ 63) :
    integerBytes x = decimalRepr x := by
  unfold integerBytes decimalRepr
  have hx1 : (if x < 0 then wrap64 (-x) else x) = (x.natAbs : Int) := by
    unfold wrap64; split_ifs <;> omega
  rw [hx1, Int.toNat_ofNat]

theorem writeInteger_appends (x : Int) (b : Buf) (h1 : -2 ^ 63 < x) (h2 : x < 2 ^ 63) :
    Appends b (writeInteger x b) (decimalRepr x) := by
  rw [← integerBytes_eq_decimalRepr x h1 h2]
  exact writeInteger_appends_general x b

/-- C2 (amended): for every `x` with `-2^63 < x < 2^63`, `writeInteger` writes at the
cursor exactly the canonical decimal representation of `x`, leaves every byte before
the cursor unchanged, and advances the cursor by exactly the length of that
representation. -/
theorem writeInteger_canonical (x : Int) (b : Buf) (h1 : -2 ^ 63 < x) (h2 : x < 2 ^ 63) :
    out b.ch (writeInteger x b) = decimalRepr x ∧
      (∀ p, p < b.ch → (writeInteger x b).mem p = b.mem p) ∧
      (writeInteger x b).ch = b.ch + (decimalRepr x).length :=
  have h := writeInteger_appends x b h1 h2
  ⟨h.out_eq, h.2.1, h.1⟩

/-- C2 witness: the amended statement at `x = -7` on the empty buffer. -/
theorem writeInteger_canonical_witness :
    (-2 ^ 63 < (-7 : Int) ∧ (-7 : Int) < 2 ^ 63) ∧
    (out emptyBuf.ch (writeInteger (-7) emptyBuf) = decimalRepr (-7) ∧
      (∀ p, p < emptyBuf.ch → (writeInteger (-7) emptyBuf).mem p = emptyBuf.mem p) ∧
      (writeInteger (-7) emptyBuf).ch = emptyBuf.ch + (decimalRepr (-7)).length) :=
  ⟨by decide, writeInteger_canonical (-7) emptyBuf (by decide) (by decide)⟩

/-- C2 counterexample: `x = -2^63` is a signed 64-bit integer, yet `writeInteger`
writes only `"-"` for it, which is not its decimal representation. -/
theorem writeInteger_llong_min_counterexample :
    (-2 ^ 63 ≤ (-9223372036854775808 : Int) ∧ (-9223372036854775808 : Int) < 2 ^ 63) ∧
    out emptyBuf.ch (writeInteger (-9223372036854775808) emptyBuf) = [45] ∧
    out emptyBuf.ch (writeInteger (-9223372036854775808) emptyBuf)
      ≠ decimalRepr (-9223372036854775808) := by
  have e : out emptyBuf.ch (writeInteger (-9223372036854775808) emptyBuf) = [45] := by decide
  refine ⟨by decide, e, ?_⟩
  rw [e]
  intro h
  have := congrArg List.length h
  simp [decimalRepr] at this

/-! ## writeNumeric: non-finite values and zero -/

theorem writeNumeric_special_appends {F : Type} (env : FloatEnv F) (cfg : Config) (x : Nat)
    (b : Buf) :
    (ISNAN x = true → Appends b (writeNumeric env cfg x b) cfg.na_str) ∧
    (R_FINITE x = false ∧ ISNAN x = false ∧ signOf x = false →
      Appends b (writeNumeric env cfg x b) [73, 110, 102]) ∧
    (R_FINITE x = false ∧ ISNAN x = false ∧ signOf x = true →
      Appends b (writeNumeric env cfg x b) [45, 73, 110, 102]) ∧
    (dblIsZero x = true → Appends b (writeNumeric env cfg x b) [48]) := by
  refine ⟨?_, ?_, ?_, ?_⟩
  · intro h
    have hf : R_FINITE x = false := by
      simp only [ISNAN, R_FINITE, decide_eq_true_eq, decide_eq_false_iff_not] at h ⊢
      exact not_not.mpr h.1
    simp only [writeNumeric, hf, h, Bool.not_false, if_true]
    exact Appends.memcpy b _
  · rintro ⟨hf, hn, hs⟩
    have hz : dblIsZero x = false := by
      simp only [dblIsZero, R_FINITE, decide_eq_false_iff_not, not_not] at hf ⊢
      rw [hf]; simp
    simp only [writeNumeric, hf, hn, dblGtZero, hs, hz, Bool.not_false, if_true,
      Bool.and_self, Bool.false_eq_true, if_false]
    exact ((Appends.put b 73).trans (Appends.put _ 110)).trans (Appends.put _ 102)
  · rintro ⟨hf, hn, hs⟩
    simp only [writeNumeric, hf, hn, dblGtZero, hs, Bool.not_false, if_true,
      Bool.not_true, Bool.and_false, Bool.false_and, Bool.false_eq_true, if_false]
    exact (((Appends.put b 45).trans (Appends.put _ 73)).trans (Appends.put _ 110)).trans
      (Appends.put _ 102)
  · intro hz
    have hf : R_FINITE x = true := by
      simp only [dblIsZero, R_FINITE, decide_eq_true_eq] at hz ⊢
      rw [hz.1]; decide
    simp only [writeNumeric, hf, hz, Bool.not_true, Bool.false_eq_true, if_false, if_true]
    exact Appends.put b 48

/-- C4: `writeNumeric` emits exactly `na_str` for every NaN, `"Inf"` for `+∞`, `"-Inf"`
for `-∞`, and `"0"` for both zeros (no sign for `-0.0`); in each case the cursor
advances by exactly the bytes emitted and the bytes before the cursor are unchanged. -/
theorem writeNumeric_nonfinite_zero {F : Type} (env : FloatEnv F) (cfg : Config) (x : Nat)
    (b : Buf) :
    (ISNAN x = true → Appends b (writeNumeric env cfg x b) cfg.na_str) ∧
    (R_FINITE x = false ∧ ISNAN x = false ∧ signOf x = false →
      Appends b (writeNumeric env cfg x b) [73, 110, 102]) ∧
    (R_FINITE x = false ∧ ISNAN x = false ∧ signOf x = true →
      Appends b (writeNumeric env cfg x b) [45, 73, 110, 102]) ∧
    (dblIsZero x = true → Appends b (writeNumeric env cfg x b) [48]) :=
  writeNumeric_special_appends env cfg x b

/-- C4 witness: the theorem at the binary64 patterns of a quiet NaN, `+∞`, `-∞`, `0.0`
and `-0.0`. -/
theorem writeNumeric_nonfinite_zero_witness :
    Appends emptyBuf (writeNumeric (constEnv 0 0) exampleConfig 0x7FF8000000000000 emptyBuf)
      [78, 65] ∧
    Appends emptyBuf (writeNumeric (constEnv 0 0) exampleConfig 0x7FF0000000000000 emptyBuf)
      [73, 110, 102] ∧
    Appends emptyBuf (writeNumeric (constEnv 0 0) exampleConfig 0xFFF0000000000000 emptyBuf)
      [45, 73, 110, 102] ∧
    Appends emptyBuf (writeNumeric (constEnv 0 0) exampleConfig 0 emptyBuf) [48] ∧
    Appends emptyBuf (writeNumeric (constEnv 0 0) exampleConfig 0x8000000000000000 emptyBuf)
      [48] :=
  ⟨(writeNumeric_nonfinite_zero _ exampleConfig 0x7FF8000000000000 _).1 (by decide),
   (writeNumeric_nonfinite_zero _ exampleConfig 0x7FF0000000000000 _).2.1 (by decide),
   (writeNumeric_nonfinite_zero _ exampleConfig 0xFFF0000000000000 _).2.2.1 (by decide),
   (writeNumeric_nonfinite_zero _ exampleConfig 0 _).2.2.2 (by decide),
   (writeNumeric_nonfinite_zero _ exampleConfig 0x8000000000000000 _).2.2.2 (by decide)⟩

/-! ## writeString -/

theorem escapeLoop_eq (s : List Nat) (b : Buf) (h0 : 0 ∉ s) :
    escapeLoop s b = b.memcpy (escapeBytes s) := by
  induction s generalizing b with
  | nil => rfl
  | cons c tt ih =>
    have hc : c ≠ 0 := fun h => h0 (by simp [h])
    have ht : 0 ∉ tt := fun h => h0 (by simp [h])
    simp only [escapeLoop, if_pos hc, ih _ ht, escapeBytes, List.flatMap_cons]
    split_ifs <;> simp [Buf.memcpy]

theorem doubleLoop_eq (s : List Nat) (b : Buf) (h0 : 0 ∉ s) :
    doubleLoop s b = b.memcpy (doubleBytes s) := by
  induction s generalizing b with
  | nil => rfl
  | cons c tt ih =>
    have hc : c ≠ 0 := fun h => h0 (by simp [h])
    have ht : 0 ∉ tt := fun h => h0 (by simp [h])
    simp only [doubleLoop, if_pos hc, ih _ ht, doubleBytes, List.flatMap_cons]
    split_ifs with h
    · subst h; simp [Buf.memcpy]
    · simp [Buf.memcpy]

theorem Buf.memcpy_append (b : Buf) (s1 s2 : List Nat) :
    b.memcpy (s1 ++ s2) = (b.memcpy s1).memcpy s2 := by
  induction s1 generalizing b with
  | nil => rfl
  | cons c s ih => simp [Buf.memcpy, ih]

theorem autoScan_clean (col_sep : Nat) (s : List Nat) (b : Buf) (h0 : 0 ∉ s)
    (hs : col_sep ∉ s) (hn : 10 ∉ s) : autoScan col_sep s b = (b.memcpy s, true) := by
  induction s generalizing b with
  | nil => rfl
  | cons c tt ih =>
    simp only [List.mem_cons, not_or] at h0 hs hn
    have hc : c ≠ 0 ∧ c ≠ col_sep ∧ c ≠ 10 :=
      ⟨fun h => h0.1 h.symm, fun h => hs.1 h.symm, fun h => hn.1 h.symm⟩
    simp only [autoScan, if_pos hc, ih _ h0.2 hs.2 hn.2, Buf.memcpy]

theorem autoScan_dirty (col_sep : Nat) (s : List Nat) (b : Buf) (h0 : 0 ∉ s)
    (hs : col_sep ∈ s ∨ 10 ∈ s) :
    (autoScan col_sep s b).2 = false ∧ b.ch ≤ (autoScan col_sep s b).1.ch ∧
      ∀ p, p < b.ch → (autoScan col_sep s b).1.mem p = b.mem p := by
  induction s generalizing b with
  | nil => simp at hs
  | cons c tt ih =>
    simp only [List.mem_cons, not_or] at h0
    by_cases hc : c ≠ 0 ∧ c ≠ col_sep ∧ c ≠ 10
    · have hs2 : col_sep ∈ tt ∨ 10 ∈ tt := by
        rcases hs with h | h
        · left; simpa [Ne.symm hc.2.1] using h
        · right; simpa [Ne.symm hc.2.2] using h
      obtain ⟨h1, h2, h3⟩ := ih (b.put c) h0.2 hs2
      simp only [autoScan, if_pos hc]
      refine ⟨h1, ?_, ?_⟩
      · have : (b.put c).ch = b.ch + 1 := rfl
        omega
      · intro p hp
        rw [h3 p (by show p < b.ch + 1; omega)]
        simp [Buf.put, Function.update_apply]; omega
    · simp only [autoScan, if_neg hc]
      refine ⟨?_, le_refl _, ?_⟩
      · simp only [decide_eq_false_iff_not]
        exact fun h => h0.1 h.symm
      · intro p _; trivial

theorem quoted_appends (esc : Bool) (s : List Nat) (b b1 : Buf) (h0 : 0 ∉ s)
    (h1 : Appends b b1 []) :
    Appends b ((if esc = true then escapeLoop s (b1.put 34) else doubleLoop s (b1.put 34)).put 34)
      (quotedBytes esc s) := by
  have key : Appends b1 ((if esc = true then escapeLoop s (b1.put 34)
      else doubleLoop s (b1.put 34)).put 34) (quotedBytes esc s) := by
    unfold quotedBytes
    cases esc
    · simp only [Bool.false_eq_true, if_false, doubleLoop_eq s _ h0]
      exact ((Appends.put b1 34).trans (Appends.memcpy _ _)).trans (Appends.put _ 34)
    · simp only [if_true, escapeLoop_eq s _ h0]
      exact ((Appends.put b1 34).trans (Appends.memcpy _ _)).trans (Appends.put _ 34)
  simpa using h1.trans key

theorem writeString_always_appends (cfg : Config) (s : List Nat) (b : Buf)
    (hq : cfg.quote = Rboolean.TRUE) (h0 : 0 ∉ s) :
    Appends b (writeString cfg (some s) b) (quotedBytes cfg.qmethod_escape s) := by
  have := quoted_appends cfg.qmethod_escape s b b h0 (Appends.refl b)
  simpa [writeString, hq] using this

theorem writeString_auto_clean (cfg : Config) (s : List Nat) (b : Buf)
    (hq : cfg.quote = Rboolean.NA_LOGICAL) (h0 : 0 ∉ s) (hs : cfg.col_sep ∉ s) (hn : 10 ∉ s) :
    Appends b (writeString cfg (some s) b) s := by
  simp only [writeString, hq, autoScan_clean _ s b h0 hs hn, and_self, if_true]
  exact Appends.memcpy b s

theorem writeString_auto_dirty (cfg : Config) (s : List Nat) (b : Buf)
    (hq : cfg.quote = Rboolean.NA_LOGICAL) (h0 : 0 ∉ s) (hs : cfg.col_sep ∈ s ∨ 10 ∈ s) :
    Appends b (writeString cfg (some s) b) (quotedBytes cfg.qmethod_escape s) := by
  obtain ⟨h1, h2, h3⟩ := autoScan_dirty cfg.col_sep s b h0 hs
  have hb1 : Appends b ⟨(autoScan cfg.col_sep s b).1.mem, b.ch⟩ [] :=
    ⟨by simp, h3, by intro i hi; simp at hi⟩
  have := quoted_appends cfg.qmethod_escape s b _ h0 hb1
  simpa [writeString, hq, h1] using this

theorem writeString_never_appends (cfg : Config) (s : List Nat) (b : Buf)
    (hq : cfg.quote = Rboolean.FALSE) : Appends b (writeString cfg (some s) b) s := by
  simp only [writeString, hq]
  simp
  exact Appends.memcpy b s

theorem writeString_na_appends (cfg : Config) (b : Buf) :
    Appends b (writeString cfg none b) cfg.na_str := Appends.memcpy b _

theorem halveQuotes_doubleBytes (s : List Nat) : halveQuotes (doubleBytes s) = s := by
  induction s with
  | nil => rfl
  | cons c tt ih =>
    unfold doubleBytes at ih ⊢
    simp only [List.flatMap_cons]
    by_cases hc : c = 34
    · subst hc
      simp [halveQuotes, ih]
    · simp only [if_neg hc, List.singleton_append]
      generalize hr : (tt.flatMap fun c => if c = 34 then [34, 34] else [c]) = r at ih ⊢
      cases r with
      | nil => simp [halveQuotes] at ih ⊢; exact ih
      | cons d r => simp [halveQuotes, hc, ih]

/-- C5: under `quote = TRUE` (ALWAYS), for every non-missing string `s` (a C string, so
without an embedded NUL), `writeString` emits a double-quote, the bytes of `s` in order
where under `qmethod` ESCAPE every `'"'` and every backslash is preceded by one
backslash and under `qmethod` DOUBLE every `'"'` is emitted twice, then a closing
double-quote, and nothing else; the cursor advances by exactly these bytes and the
bytes before the cursor are unchanged. -/
theorem writeString_always (cfg : Config) (s : List Nat) (b : Buf)
    (hq : cfg.quote = Rboolean.TRUE) (h0 : 0 ∉ s) :
    out b.ch (writeString cfg (some s) b) =
        [34] ++ (if cfg.qmethod_escape = true
          then s.flatMap (fun c => if c = 34 ∨ c = 92 then [92, c] else [c])
          else s.flatMap (fun c => if c = 34 then [34, 34] else [c])) ++ [34] ∧
      (writeString cfg (some s) b).ch = b.ch + (out b.ch (writeString cfg (some s) b)).length ∧
      ∀ p, p < b.ch → (writeString cfg (some s) b).mem p = b.mem p := by
  have h := writeString_always_appends cfg s b hq h0
  rw [h.out_eq]
  exact ⟨rfl, h.1, h.2.1⟩

/-- C5 witness: the string `c"d` under `quote = TRUE` with `qmethod` ESCAPE. -/
theorem writeString_always_witness :
    out emptyBuf.ch (writeString { exampleConfig with quote := Rboolean.TRUE } (some [99, 34, 100])
      emptyBuf) = [34, 99, 92, 34, 100, 34] :=
  (writeString_always { exampleConfig with quote := Rboolean.TRUE } [99, 34, 100] emptyBuf rfl
    (by decide)).1

/-- C6: under `quote = NA_LOGICAL` (AUTO), for every non-missing string `s` (without an
embedded NUL): if `s` contains neither `col_sep` nor `'\n'` the output is exactly the
raw bytes of `s`; otherwise it is exactly the quoted field that `quote = TRUE` produces
for `s` under the same `qmethod`, starting at the original cursor. -/
theorem writeString_auto (cfg : Config) (s : List Nat) (b : Buf)
    (hq : cfg.quote = Rboolean.NA_LOGICAL) (h0 : 0 ∉ s) :
    (cfg.col_sep ∉ s ∧ 10 ∉ s → Appends b (writeString cfg (some s) b) s) ∧
    (cfg.col_sep ∈ s ∨ 10 ∈ s →
      Appends b (writeString cfg (some s) b) (quotedBytes cfg.qmethod_escape s) ∧
      out b.ch (writeString cfg (some s) b) =
        out b.ch (writeString { cfg with quote := Rboolean.TRUE } (some s) b) ∧
      (writeString cfg (some s) b).ch =
        (writeString { cfg with quote := Rboolean.TRUE } (some s) b).ch) := by
  refine ⟨fun h => writeString_auto_clean cfg s b hq h0 h.1 h.2, fun h => ?_⟩
  have h1 := writeString_auto_dirty cfg s b hq h0 h
  have h2 := writeString_always_appends { cfg with quote := Rboolean.TRUE } s b rfl h0
  exact ⟨h1, by rw [h1.out_eq, h2.out_eq], by rw [h1.1, h2.1]⟩

/-- C6 witness: with `col_sep = ','`, the string `c"d` is emitted raw and the string
`a,b` is emitted quoted. -/
theorem writeString_auto_witness :
    out emptyBuf.ch (writeString exampleConfig (some [99, 34, 100]) emptyBuf) = [99, 34, 100] ∧
    out emptyBuf.ch (writeString exampleConfig (some [97, 44, 98]) emptyBuf) =
      [34, 97, 44, 98, 34] :=
  ⟨((writeString_auto exampleConfig [99, 34, 100] emptyBuf rfl (by decide)).1
      (by decide)).out_eq,
   ((writeString_auto exampleConfig [97, 44, 98] emptyBuf rfl (by decide)).2
      (by decide)).1.out_eq⟩

/-- C7: for every non-missing string `s` (without an embedded NUL) that `writeString`
quotes under `qmethod` DOUBLE (that is under `quote = TRUE`, or under AUTO when `s`
contains `col_sep` or `'\n'`), the output starts and ends with a double-quote, and
replacing every pair of adjacent double-quotes in the bytes strictly between them by a
single double-quote yields exactly `s`. -/
theorem writeString_double_roundtrip (cfg : Config) (s : List Nat) (b : Buf)
    (hm : cfg.qmethod_escape = false)
    (hq : cfg.quote = Rboolean.TRUE ∨
      (cfg.quote = Rboolean.NA_LOGICAL ∧ (cfg.col_sep ∈ s ∨ 10 ∈ s)))
    (h0 : 0 ∉ s) :
    (out b.ch (writeString cfg (some s) b)).head? = some 34 ∧
    (out b.ch (writeString cfg (some s) b)).getLast? = some 34 ∧
    halveQuotes (((out b.ch (writeString cfg (some s) b)).drop 1).dropLast) = s := by
  have h : Appends b (writeString cfg (some s) b) (quotedBytes cfg.qmethod_escape s) := by
    rcases hq with hq | ⟨hq, hs⟩
    · exact writeString_always_appends cfg s b hq h0
    · exact writeString_auto_dirty cfg s b hq h0 hs
  rw [h.out_eq, hm]
  have e : quotedBytes false s = (34 :: doubleBytes s) ++ [34] := by simp [quotedBytes]
  rw [e]
  refine ⟨by simp, List.getLast?_concat _, ?_⟩
  simp [halveQuotes_doubleBytes]

/-- C7 witness: the string `c"d` under `quote = TRUE` with `qmethod` DOUBLE is written
as `"c""d"`, whose interior halves back to `c"d`. -/
theorem writeString_double_roundtrip_witness :
    halveQuotes (((out emptyBuf.ch (writeString
      { exampleConfig with quote := Rboolean.TRUE, qmethod_escape := false }
      (some [99, 34, 100]) emptyBuf)).drop 1).dropLast) = [99, 34, 100] :=
  (writeString_double_roundtrip
    { exampleConfig with quote := Rboolean.TRUE, qmethod_escape := false }
    [99, 34, 100] emptyBuf rfl (Or.inl rfl) (by decide)).2.2

/-! ## Missing cells -/

/-- C8: for every configuration (any `quote`, any `qmethod`, `turbo` on or off) a missing
cell - `NA_LOGICAL` in a BOOL column, `NA_INTEGER` in an INT32 column, `NAINT64` in an
INT64-overlay column, a NaN in a DOUBLE column, `NA_STRING` in a STRING column - is
emitted by the general path as exactly the bytes of `na_str` (no quotes), and so it is
by the cell code of the two fast paths on the columns they handle. -/
theorem missing_cell_emits_na_str {F : Type} (env : FloatEnv F) (pf : Platform) (cfg : Config)
    (column : Column) (row_i : Nat) (b : Buf) (hmiss : isMissingCell pf column row_i = true) :
    (∃ b1, writeCell env pf cfg column row_i b = some b1 ∧ Appends b b1 cfg.na_str) ∧
    (column.isPlainReal = true →
      ∃ b1, fastCellReal env cfg column row_i b = some b1 ∧ Appends b b1 cfg.na_str) ∧
    (column.isPlainInt = true →
      ∃ b1, fastCellInt cfg column row_i b = some b1 ∧ Appends b b1 cfg.na_str) := by
  cases column with
  | lgl v =>
    simp only [isMissingCell, decide_eq_true_eq] at hmiss
    refine ⟨⟨b.memcpy cfg.na_str, ?_, Appends.memcpy b _⟩, ?_, ?_⟩
    · simp [writeCell, hmiss]
    · simp [Column.isPlainReal]
    · simp [Column.isPlainInt]
  | int lv v =>
    simp only [isMissingCell, decide_eq_true_eq] at hmiss
    refine ⟨⟨b.memcpy cfg.na_str, ?_, Appends.memcpy b _⟩, ?_, ?_⟩
    · simp [writeCell, hmiss]
    · simp [Column.isPlainReal]
    · intro _
      exact ⟨b.memcpy cfg.na_str, by simp [fastCellInt, hmiss], Appends.memcpy b _⟩
  | real i64 v =>
    cases i64 with
    | true =>
      simp only [isMissingCell] at hmiss
      cases hx : v[row_i]? with
      | none => simp [hx] at hmiss
      | some x =>
        simp only [hx, decide_eq_true_eq] at hmiss
        refine ⟨⟨b.memcpy cfg.na_str, ?_, Appends.memcpy b _⟩, ?_, ?_⟩
        · simp [writeCell, hx, Column.integer64, hmiss]
        · simp [Column.isPlainReal]
        · simp [Column.isPlainInt]
    | false =>
      simp only [isMissingCell] at hmiss
      cases hx : v[row_i]? with
      | none => simp [hx] at hmiss
      | some x =>
        simp only [hx] at hmiss
        have hnum := (writeNumeric_special_appends env cfg x b).1 hmiss
        refine ⟨?_, ?_, ?_⟩
        · by_cases ht : cfg.turbo = true
          · exact ⟨writeNumeric env cfg x b, by simp [writeCell, hx, Column.integer64, ht], hnum⟩
          · exact ⟨b.memcpy cfg.na_str, by simp [writeCell, hx, Column.integer64, ht, hmiss],
              Appends.memcpy b _⟩
        · intro _
          exact ⟨writeNumeric env cfg x b, by simp [fastCellReal, hx], hnum⟩
        · simp [Column.isPlainInt]
  | str v =>
    simp only [isMissingCell, decide_eq_true_eq] at hmiss
    refine ⟨⟨writeString cfg none b, ?_, writeString_na_appends cfg b⟩, ?_, ?_⟩
    · simp [writeCell, hmiss]
    · simp [Column.isPlainReal]
    · simp [Column.isPlainInt]
  | other t n => simp [isMissingCell] at hmiss

/-- C8 witness: a missing logical cell under `quote = TRUE`, `turbo` off. -/
theorem missing_cell_emits_na_str_witness :
    ∃ b1, writeCell (constEnv 0 0) examplePlatform
        { exampleConfig with quote := Rboolean.TRUE, turbo := false }
        (Column.lgl [1, NA_INTEGER]) 1 emptyBuf = some b1 ∧
      Appends emptyBuf b1 [78, 65] :=
  (missing_cell_emits_na_str (constEnv 0 0) examplePlatform
    { exampleConfig with quote := Rboolean.TRUE, turbo := false }
    (Column.lgl [1, NA_INTEGER]) 1 emptyBuf (by decide)).1

/-! ## Fast paths -/

theorem forCols_congr (f g : Column → Buf → Option Buf) (cols : List Column)
    (h : ∀ c ∈ cols, ∀ b, f c b = g c b) (b : Buf) : forCols f cols b = forCols g cols b := by
  induction cols generalizing b with
  | nil => rfl
  | cons c rest ih =>
    simp only [forCols, h c (List.mem_cons_self _ _) b]
    cases g c b with
    | none => rfl
    | some b1 => exact ih (fun c hc => h c (List.mem_cons_of_mem _ hc)) b1

theorem forRows_congr (f g : Nat → Buf → Option Buf) (h : ∀ i b, f i b = g i b)
    (n start : Nat) (b : Buf) : forRows f n start b = forRows g n start b := by
  have : f = g := funext fun i => funext fun b => h i b
  rw [this]

theorem firstPassLoop_sameType (cfg : Config) (cols : List Column) (st fp : FirstPass)
    (h : firstPassLoop cfg cols st = some fp) (hne : fp.sameType ≠ 0) :
    st.sameType = fp.sameType ∧
      ∀ c ∈ cols, c.TYPEOF = fp.sameType ∧ c.integer64 = false ∧ c.levels = none ∧
        ∃ st0, (firstPassSwitch cfg c st0).isSome = true := by
  induction cols generalizing st with
  | nil =>
    simp only [firstPassLoop, Option.some.injEq] at h
    subst h
    exact ⟨rfl, by simp⟩
  | cons c rest ih =>
    simp only [firstPassLoop] at h
    cases hsw : firstPassSwitch cfg c st with
    | none => simp [hsw] at h
    | some st1 =>
      simp only [hsw] at h
      obtain ⟨h1, h2⟩ := ih _ h
      simp only at h1
      have hcond : ¬ (c.TYPEOF ≠ st1.sameType ∨ c.integer64 = true) := by
        intro hc
        rw [if_pos hc] at h1
        exact hne h1.symm
      rw [if_neg hcond] at h1
      simp only [not_or, not_not, Bool.not_eq_true] at hcond
      have hst1 : (st1.sameType = st.sameType ∧ c.levels = none) := by
        cases c with
        | lgl v => simp [firstPassSwitch] at hsw; subst hsw; exact ⟨rfl, rfl⟩
        | real i v => simp [firstPassSwitch] at hsw; subst hsw; exact ⟨rfl, rfl⟩
        | str v => simp [firstPassSwitch] at hsw; subst hsw; exact ⟨rfl, rfl⟩
        | other t n => simp [firstPassSwitch] at hsw
        | int lv v =>
          cases lv with
          | none => simp [firstPassSwitch] at hsw; subst hsw; exact ⟨rfl, rfl⟩
          | some l =>
            simp [firstPassSwitch] at hsw; subst hsw
            exact absurd h1.symm hne
      refine ⟨by rw [← hst1.1, h1], ?_⟩
      intro c' hc'
      rcases List.mem_cons.mp hc' with rfl | hc'
      · exact ⟨by rw [hcond.1, h1], hcond.2, hst1.2, st, by simp [hsw]⟩
      · exact h2 c' hc'

theorem plainReal_of_typeof (cfg : Config) (c : Column) (h1 : c.TYPEOF = REALSXP)
    (h2 : c.integer64 = false) (h3 : ∃ st0, (firstPassSwitch cfg c st0).isSome = true) :
    c.isPlainReal = true := by
  obtain ⟨st0, h3⟩ := h3
  cases c with
  | lgl v => simp [Column.TYPEOF, LGLSXP, REALSXP] at h1
  | int lv v => simp [Column.TYPEOF, INTSXP, REALSXP] at h1
  | str v => simp [Column.TYPEOF, STRSXP, REALSXP] at h1
  | other t n => simp [firstPassSwitch] at h3
  | real i v =>
    simp only [Column.integer64] at h2
    subst h2; rfl

theorem plainInt_of_typeof (cfg : Config) (c : Column) (h1 : c.TYPEOF = INTSXP)
    (h2 : c.levels = none) (h3 : ∃ st0, (firstPassSwitch cfg c st0).isSome = true) :
    c.isPlainInt = true := by
  obtain ⟨st0, h3⟩ := h3
  cases c with
  | lgl v => simp [Column.TYPEOF, LGLSXP, INTSXP] at h1
  | real i v => simp [Column.TYPEOF, INTSXP, REALSXP] at h1
  | str v => simp [Column.TYPEOF, STRSXP, INTSXP] at h1
  | other t n => simp [firstPassSwitch] at h3
  | int lv v =>
    simp only [Column.levels] at h2
    subst h2; rfl

theorem fastRowReal_eq_generalRow {F : Type} (env : FloatEnv F) (pf : Platform) (cfg : Config)
    (t : Table) (ht : cfg.turbo = true) (hr : cfg.row_names = false)
    (hall : ∀ c ∈ t.cols, c.isPlainReal = true) (row_i : Nat) (b : Buf) :
    fastRowReal env cfg t row_i b = generalRow env pf cfg t row_i b := by
  simp only [fastRowReal, generalRow, writeRowName, hr, Bool.false_eq_true, if_false]
  rw [forCols_congr _ (fun column b1 =>
        match writeCell env pf cfg column row_i b1 with
        | none => none
        | some b2 => some (b2.put cfg.col_sep)) t.cols]
  intro c hc b1
  have := hall c hc
  cases c with
  | real i v =>
    cases i with
    | true => simp [Column.isPlainReal] at this
    | false => simp only [fastCellReal, writeCell, Column.integer64, ht]; cases v[row_i]? <;> simp
  | lgl v => simp [Column.isPlainReal] at this
  | int lv v => simp [Column.isPlainReal] at this
  | str v => simp [Column.isPlainReal] at this
  | other t n => simp [Column.isPlainReal] at this

theorem fastRowInt_eq_generalRow {F : Type} (env : FloatEnv F) (pf : Platform) (cfg : Config)
    (t : Table) (ht : cfg.turbo = true) (hr : cfg.row_names = false)
    (hall : ∀ c ∈ t.cols, c.isPlainInt = true) (row_i : Nat) (b : Buf) :
    fastRowInt cfg t row_i b = generalRow env pf cfg t row_i b := by
  simp only [fastRowInt, generalRow, writeRowName, hr, Bool.false_eq_true, if_false]
  rw [forCols_congr _ (fun column b1 =>
        match writeCell env pf cfg column row_i b1 with
        | none => none
        | some b2 => some (b2.put cfg.col_sep)) t.cols]
  intro c hc b1
  have := hall c hc
  cases c with
  | int lv v =>
    cases lv with
    | some l => simp [Column.isPlainInt] at this
    | none =>
      simp only [fastCellInt, writeCell, Column.levels, ht]
      cases v[row_i]? with
      | none => rfl
      | some x => by_cases hx : x = NA_INTEGER <;> simp [hx]
  | lgl v => simp [Column.isPlainInt] at this
  | real i v => simp [Column.isPlainInt] at this
  | str v => simp [Column.isPlainInt] at this
  | other t n => simp [Column.isPlainInt] at this

theorem firstPassLoop_plainReal (cfg : Config) (cols : List Column) (n : Int)
    (hall : ∀ c ∈ cols, c.isPlainReal = true) :
    ∃ fp, firstPassLoop cfg cols ⟨n, REALSXP⟩ = some fp ∧ fp.sameType = REALSXP := by
  induction cols generalizing n with
  | nil => exact ⟨_, rfl, rfl⟩
  | cons c rest ih =>
    have hc := hall c (List.mem_cons_self _ _)
    cases c with
    | real i v =>
      cases i with
      | true => simp [Column.isPlainReal] at hc
      | false =>
        simp only [firstPassLoop, firstPassSwitch, Column.TYPEOF, Column.integer64]
        simpa using ih (wrap32 (n + 25 + 1)) (fun c hc => hall c (List.mem_cons_of_mem _ hc))
    | lgl v => simp [Column.isPlainReal] at hc
    | int lv v => simp [Column.isPlainReal] at hc
    | str v => simp [Column.isPlainReal] at hc
    | other t n => simp [Column.isPlainReal] at hc

theorem firstPassLoop_plainInt (cfg : Config) (cols : List Column) (n : Int)
    (hall : ∀ c ∈ cols, c.isPlainInt = true) :
    ∃ fp, firstPassLoop cfg cols ⟨n, INTSXP⟩ = some fp ∧ fp.sameType = INTSXP := by
  induction cols generalizing n with
  | nil => exact ⟨_, rfl, rfl⟩
  | cons c rest ih =>
    have hc := hall c (List.mem_cons_self _ _)
    cases c with
    | int lv v =>
      cases lv with
      | some l => simp [Column.isPlainInt] at hc
      | none =>
        simp only [firstPassLoop, firstPassSwitch, Column.TYPEOF, Column.integer64]
        simpa using ih (wrap32 (n + 11 + 1)) (fun c hc => hall c (List.mem_cons_of_mem _ hc))
    | lgl v => simp [Column.isPlainInt] at hc
    | real i v => simp [Column.isPlainInt] at hc
    | str v => simp [Column.isPlainInt] at hc
    | other t n => simp [Column.isPlainInt] at hc

/-- C10: for every table whose columns are all plain DOUBLE (respectively all plain,
non-factor INT32), with no row names and `turbo` on, the all-DOUBLE (respectively
all-INT32) fast path produces for every row range exactly the buffer the general
per-cell path produces; the first pass sets `sameType` to `REALSXP` (respectively
`INTSXP`) only when every column is a plain DOUBLE (respectively plain INT32) column
(and does so for every such non-empty table); hence the path chosen for a batch always
produces what the general path produces. -/
theorem fast_paths_refine_general {F : Type} (env : FloatEnv F) (pf : Platform) (cfg : Config)
    (t : Table) :
    (cfg.turbo = true → cfg.row_names = false → (∀ c ∈ t.cols, c.isPlainReal = true) →
      ∀ start_row upp b, forRows (fastRowReal env cfg t) (upp - start_row) start_row b =
        generalRows env pf cfg t start_row upp b) ∧
    (cfg.turbo = true → cfg.row_names = false → (∀ c ∈ t.cols, c.isPlainInt = true) →
      ∀ start_row upp b, forRows (fastRowInt cfg t) (upp - start_row) start_row b =
        generalRows env pf cfg t start_row upp b) ∧
    (∀ fp, firstPass cfg t = some fp →
      (fp.sameType = REALSXP → ∀ c ∈ t.cols, c.isPlainReal = true) ∧
      (fp.sameType = INTSXP → ∀ c ∈ t.cols, c.isPlainInt = true) ∧
      ∀ start_row upp b, writeBatchRows env pf cfg t fp.sameType start_row upp b =
        generalRows env pf cfg t start_row upp b) ∧
    (t.cols ≠ [] → (∀ c ∈ t.cols, c.isPlainReal = true) →
      ∃ fp, firstPass cfg t = some fp ∧ fp.sameType = REALSXP) ∧
    (t.cols ≠ [] → (∀ c ∈ t.cols, c.isPlainInt = true) →
      ∃ fp, firstPass cfg t = some fp ∧ fp.sameType = INTSXP) := by
  have hreal : cfg.turbo = true → cfg.row_names = false →
      (∀ c ∈ t.cols, c.isPlainReal = true) →
      ∀ start_row upp b, forRows (fastRowReal env cfg t) (upp - start_row) start_row b =
        generalRows env pf cfg t start_row upp b := by
    intro ht hr hall start_row upp b
    exact forRows_congr _ _ (fastRowReal_eq_generalRow env pf cfg t ht hr hall) _ _ _
  have hint : cfg.turbo = true → cfg.row_names = false →
      (∀ c ∈ t.cols, c.isPlainInt = true) →
      ∀ start_row upp b, forRows (fastRowInt cfg t) (upp - start_row) start_row b =
        generalRows env pf cfg t start_row upp b := by
    intro ht hr hall start_row upp b
    exact forRows_congr _ _ (fastRowInt_eq_generalRow env pf cfg t ht hr hall) _ _ _
  have hselR : ∀ fp, firstPass cfg t = some fp → fp.sameType = REALSXP →
      ∀ c ∈ t.cols, c.isPlainReal = true := by
    intro fp hfp hs c hc
    obtain ⟨_, h2⟩ := firstPassLoop_sameType cfg _ _ fp hfp (by rw [hs]; decide)
    obtain ⟨a1, a2, _, a4⟩ := h2 c hc
    exact plainReal_of_typeof cfg c (by rw [a1, hs]) a2 a4
  have hselI : ∀ fp, firstPass cfg t = some fp → fp.sameType = INTSXP →
      ∀ c ∈ t.cols, c.isPlainInt = true := by
    intro fp hfp hs c hc
    obtain ⟨_, h2⟩ := firstPassLoop_sameType cfg _ _ fp hfp (by rw [hs]; decide)
    obtain ⟨a1, _, a3, a4⟩ := h2 c hc
    exact plainInt_of_typeof cfg c (by rw [a1, hs]) a3 a4
  refine ⟨hreal, hint, ?_, ?_, ?_⟩
  · intro fp hfp
    refine ⟨hselR fp hfp, hselI fp hfp, ?_⟩
    intro start_row upp b
    unfold writeBatchRows
    split_ifs with h1 h2
    · exact hreal h1.1 (by simpa using h1.2.2) (hselR fp hfp h1.2.1) _ _ _
    · exact hint h2.1 (by simpa using h2.2.2) (hselI fp hfp h2.2.1) _ _ _
    · rfl
  · intro hne hall
    cases hcols : t.cols with
    | nil => exact absurd hcols hne
    | cons c rest =>
      have hc : c.isPlainReal = true := hall c (by rw [hcols]; exact List.mem_cons_self _ _)
      have hty : c.TYPEOF = REALSXP := by
        cases c with
        | real i v => rfl
        | lgl v => simp [Column.isPlainReal] at hc
        | int lv v => simp [Column.isPlainReal] at hc
        | str v => simp [Column.isPlainReal] at hc
        | other t n => simp [Column.isPlainReal] at hc
      have := firstPassLoop_plainReal cfg t.cols
        (if cfg.row_names = true then
          match t.rn with
          | some rn => wrap32 (2 + wrap32 (maxStrLen cfg rn + 1))
          | none => ((2 + Nat.log 10 t.nrows + 1 + 2 + 1 : Nat) : Int)
        else 2) hall
      simpa [firstPass, hcols, hty] using this
  · intro hne hall
    cases hcols : t.cols with
    | nil => exact absurd hcols hne
    | cons c rest =>
      have hc : c.isPlainInt = true := hall c (by rw [hcols]; exact List.mem_cons_self _ _)
      have hty : c.TYPEOF = INTSXP := by
        cases c with
        | int lv v => rfl
        | lgl v => simp [Column.isPlainInt] at hc
        | real i v => simp [Column.isPlainInt] at hc
        | str v => simp [Column.isPlainInt] at hc
        | other t n => simp [Column.isPlainInt] at hc
      have := firstPassLoop_plainInt cfg t.cols
        (if cfg.row_names = true then
          match t.rn with
          | some rn => wrap32 (2 + wrap32 (maxStrLen cfg rn + 1))
          | none => ((2 + Nat.log 10 t.nrows + 1 + 2 + 1 : Nat) : Int)
        else 2) hall
      simpa [firstPass, hcols, hty] using this

/-- C10 witness: on a table of two plain INT32 columns the first pass yields
`sameType = INTSXP`, and the batch writer (which takes the all-INT32 fast path)
produces the general path's buffer for rows 0..1. -/
theorem fast_paths_refine_general_witness :
    (∃ fp, firstPass exampleConfig ⟨[Column.int none [1, NA_INTEGER], Column.int none [-7, 20]],
        none⟩ = some fp ∧ fp.sameType = INTSXP) ∧
    forRows (fastRowInt exampleConfig
        ⟨[Column.int none [1, NA_INTEGER], Column.int none [-7, 20]], none⟩) (2 - 0) 0 emptyBuf =
      generalRows (constEnv 0 0) examplePlatform exampleConfig
        ⟨[Column.int none [1, NA_INTEGER], Column.int none [-7, 20]], none⟩ 0 2 emptyBuf :=
  ⟨(fast_paths_refine_general (constEnv 0 0) examplePlatform exampleConfig
      ⟨[Column.int none [1, NA_INTEGER], Column.int none [-7, 20]], none⟩).2.2.2.2
      (by simp) (by decide),
   (fast_paths_refine_general (constEnv 0 0) examplePlatform exampleConfig
      ⟨[Column.int none [1, NA_INTEGER], Column.int none [-7, 20]], none⟩).2.1
      rfl rfl (by decide) 0 2 emptyBuf⟩

/-! ## The line-length bound -/

/-- C1 (failing input): a table with one logical column holding `NA`, written with
`na_str = "<missing>"` (9 bytes) and `row_sep = "\n"`. The first pass computes
`lineLenMax = 8`, yet the row encoder writes 10 bytes for row 0. -/
theorem lineLenMax_exceeded_by_na_str :
    firstPass { exampleConfig with na_str := [60, 109, 105, 115, 115, 105, 110, 103, 62] }
        ⟨[Column.lgl [NA_INTEGER]], none⟩ = some ⟨8, LGLSXP⟩ ∧
    (generalRows (constEnv 0 0) examplePlatform
        { exampleConfig with na_str := [60, 109, 105, 115, 115, 105, 110, 103, 62] }
        ⟨[Column.lgl [NA_INTEGER]], none⟩ 0 1 emptyBuf).map (fun b => out 0 b) =
      some [60, 109, 105, 115, 115, 105, 110, 103, 62, 10] ∧
    (writeBatchRows (constEnv 0 0) examplePlatform
        { exampleConfig with na_str := [60, 109, 105, 115, 115, 105, 110, 103, 62] }
        ⟨[Column.lgl [NA_INTEGER]], none⟩ LGLSXP 0 1 emptyBuf).map (fun b => b.ch) =
      some 10 := by
  decide

/-! ## Backward writes -/

theorem Prepends.nil (b : Buf) : Prepends b b [] := by
  refine ⟨by simp, fun _ _ => rfl, ?_⟩
  intro i hi; simp at hi

theorem Prepends.putBack (b : Buf) (c : Nat) : Prepends b (b.putBack c) [c] := by
  refine ⟨by simp [Buf.putBack], ?_, ?_⟩
  · intro p hp
    simp only [Buf.putBack, Function.update_apply] at hp ⊢
    rw [if_neg (by omega)]
  · intro i hi
    simp at hi; subst hi
    simp [Buf.putBack]

theorem Prepends.chain {b b1 b2 : Buf} {l1 l2 : List Nat}
    (h1 : Prepends b b1 l1) (h2 : Prepends b1 b2 l2) : Prepends b b2 (l2 ++ l1) := by
  obtain ⟨c1, m1, g1⟩ := h1
  obtain ⟨c2, m2, g2⟩ := h2
  refine ⟨by rw [c2, c1]; simp; ring, ?_, ?_⟩
  · intro p hp
    rw [m2 p (by omega), m1 p (by omega)]
  · intro i hi
    by_cases h : i < l2.length
    · rw [g2 i h]
      simp [List.getD_eq_getElem?_getD, List.getElem?_append_left h]
    · have hi2 : i - l2.length < l1.length := by simp at hi; omega
      have := g1 (i - l2.length) hi2
      rw [m2 _ (by omega)]
      have e : b2.ch + 1 + (i : Int) = b1.ch + 1 + ((i - l2.length : Nat) : Int) := by omega
      rw [e, this]
      simp [List.getD_eq_getElem?_getD, List.getElem?_append_right (Nat.le_of_not_lt h)]

/-- Writing `l` downwards into the `l.length` bytes that end at `b.ch + width - 1` and
then moving the cursor past them amounts to appending `l`. -/
theorem Prepends.toAppends {b b1 : Buf} {l : List Nat} {width : Int}
    (h : Prepends (b.move (width - 1)) b1 l) (hw : width = l.length) :
    Appends b (b1.move (width + 1)) l := by
  obtain ⟨c, m, g⟩ := h
  simp only [Buf.move] at c m g
  refine ⟨by simp only [Buf.move]; omega, ?_, ?_⟩
  · intro p hp
    exact m p (by omega)
  · intro i hi
    have := g i hi
    have e : b1.ch + 1 + (i : Int) = b.ch + i := by omega
    rw [e] at this
    exact this

theorem lowDigits_length (l k : Nat) : (lowDigits l k).length = k := by
  induction k generalizing l with
  | zero => rfl
  | succ k ih => simp [lowDigits, ih]

theorem putZerosBack_prepends (n : Nat) (b : Buf) :
    Prepends b (putZerosBack n b) (List.replicate n 48) := by
  induction n generalizing b with
  | zero => exact Prepends.nil b
  | succ n ih =>
    have := (Prepends.putBack b 48).chain (ih (b.putBack 48))
    rw [← List.replicate_succ'] at this
    exact this

theorem decIntDigits_prepends (sf l : Nat) (b : Buf) :
    Prepends b (decIntDigits sf l b) (lowDigits l sf) := by
  induction sf generalizing l b with
  | zero => exact Prepends.nil b
  | succ k ih =>
    simp only [decIntDigits, lowDigits, byteOf_digit _ (Nat.mod_lt l (by norm_num))]
    exact (Prepends.putBack b _).chain (ih _ _)

theorem sciFracDigits_prepends (n l : Nat) (b : Buf) :
    (sciFracDigits n l b).1 = l / 10 ^ n ∧
      Prepends b (sciFracDigits n l b).2 (lowDigits l n) := by
  induction n generalizing l b with
  | zero => exact ⟨by simp [sciFracDigits], Prepends.nil b⟩
  | succ k ih =>
    simp only [sciFracDigits, lowDigits, byteOf_digit _ (Nat.mod_lt l (by norm_num))]
    obtain ⟨h1, h2⟩ := ih (l / 10) (b.putBack (48 + l % 10))
    refine ⟨?_, (Prepends.putBack b _).chain h2⟩
    rw [h1, Nat.div_div_eq_div_mul, pow_succ, Nat.mul_comm]

theorem decFracDigits_prepends (fuel l : Nat) (dr sf : Int) (b : Buf)
    (hdr : 0 ≤ dr) (hsf : 0 ≤ sf) (hf : dr.toNat ≤ fuel) :
    (decFracDigits fuel l dr sf b).1 = l / 10 ^ (min dr.toNat sf.toNat) ∧
    (decFracDigits fuel l dr sf b).2.1 = dr - (min dr.toNat sf.toNat : Nat) ∧
    (decFracDigits fuel l dr sf b).2.2.1 = sf - (min dr.toNat sf.toNat : Nat) ∧
    Prepends b (decFracDigits fuel l dr sf b).2.2.2 (lowDigits l (min dr.toNat sf.toNat)) := by
  induction fuel generalizing l dr sf b with
  | zero =>
    have : dr.toNat = 0 := by omega
    rw [this]
    simp only [decFracDigits, Nat.zero_min, pow_zero, Nat.div_one, lowDigits]
    exact ⟨trivial, by simp, by simp, Prepends.nil b⟩
  | succ fuel ih =>
    unfold decFracDigits
    by_cases hc : dr ≠ 0 ∧ sf ≠ 0
    · rw [if_pos hc, byteOf_digit _ (Nat.mod_lt l (by norm_num))]
      obtain ⟨h1, h2, h3, h4⟩ := ih (l / 10) (dr - 1) (sf - 1)
        (b.putBack (48 + l % 10)) (by omega) (by omega) (by omega)
      have hk : min dr.toNat sf.toNat = min (dr - 1).toNat (sf - 1).toNat + 1 := by omega
      rw [hk]
      refine ⟨?_, by rw [h2]; push_cast; ring, by rw [h3]; push_cast; ring, ?_⟩
      · rw [h1, Nat.div_div_eq_div_mul, pow_succ, Nat.mul_comm]
      · exact (Prepends.putBack b _).chain h4
    · rw [if_neg hc]
      have hk : min dr.toNat sf.toNat = 0 := by
        simp only [not_and_or, not_not] at hc
        rcases hc with h | h <;> simp [h]
      rw [hk]
      simp only [pow_zero, Nat.div_one, lowDigits]
      exact ⟨trivial, by simp, by simp, Prepends.nil b⟩

/-! ## writeNumeric: the decimal and scientific branches -/

theorem writeDecimal_appends (dec_sep l : Nat) (sf dr dl0 width : Int) (b : Buf)
    (hsf : 0 ≤ sf) (hdr : 0 ≤ dr)
    (hw : width = (decimalBytes dec_sep l sf dr dl0).length) :
    Appends b (writeDecimal dec_sep l sf dr dl0 width b) (decimalBytes dec_sep l sf dr dl0) := by
  unfold writeDecimal
  apply Prepends.toAppends _ hw
  by_cases hd : dr ≠ 0
  · obtain ⟨h1, h2, h3, h4⟩ := decFracDigits_prepends dr.toNat l dr sf (b.move (width - 1))
      hdr hsf (le_refl _)
    simp only [if_pos hd, decimalBytes]
    rw [h1, h2, h3]
    have e1 : (dr - ((min dr.toNat sf.toNat : Nat) : Int)).toNat = dr.toNat - min dr.toNat sf.toNat := by
      omega
    have e2 : (sf - ((min dr.toNat sf.toNat : Nat) : Int)).toNat = sf.toNat - min dr.toNat sf.toNat := by
      omega
    rw [e1, e2]
    have p1 := h4.chain (putZerosBack_prepends (dr.toNat - min dr.toNat sf.toNat) _)
    have p2 := p1.chain (Prepends.putBack _ dec_sep)
    have p3 := p2.chain (putZerosBack_prepends dl0.toNat _)
    have p4 := p3.chain (decIntDigits_prepends (sf.toNat - min dr.toNat sf.toNat)
      (l / 10 ^ min dr.toNat sf.toNat) _)
    simpa using p4
  · simp only [if_neg hd, decimalBytes]
    have p3 := putZerosBack_prepends dl0.toNat (b.move (width - 1))
    have p4 := p3.chain (decIntDigits_prepends sf.toNat l _)
    simpa using p4

theorem Buf.poke_eq (b : Buf) (c : Nat) : b.poke c = (b.putBack c).move 1 := by
  simp [Buf.poke, Buf.putBack, Buf.move]

theorem Buf.move_move (b : Buf) (m n : Int) : (b.move m).move n = b.move (m + n) := by
  simp [Buf.move, add_assoc]

theorem exponent_appends (exp : Int) (b : Buf) :
    Appends b
      (if (if exp < 0 then -exp else exp) < 100 then
        ((if exp < 0 then (b.put 101).put 45 else (b.put 101).put 43).put
          (byteOf (48 + (if exp < 0 then -exp else exp) / 10).toNat)).put
          (byteOf (48 + (if exp < 0 then -exp else exp) % 10).toNat)
      else
        (((if exp < 0 then (b.put 101).put 45 else (b.put 101).put 43).put
          (byteOf (48 + (if exp < 0 then -exp else exp) / 100).toNat)).put
          (byteOf (48 + ((if exp < 0 then -exp else exp) / 10) % 10).toNat)).put
          (byteOf (48 + (if exp < 0 then -exp else exp) % 10).toNat))
      (exponentBytes exp) := by
  unfold exponentBytes
  by_cases hneg : exp < 0
  · simp only [hneg, if_true]
    split_ifs
    · exact (((Appends.put b _).trans (Appends.put _ _)).trans (Appends.put _ _)).trans
        (Appends.put _ _)
    · exact ((((Appends.put b _).trans (Appends.put _ _)).trans (Appends.put _ _)).trans
        (Appends.put _ _)).trans (Appends.put _ _)
  · simp only [hneg, if_false]
    split_ifs
    · exact (((Appends.put b _).trans (Appends.put _ _)).trans (Appends.put _ _)).trans
        (Appends.put _ _)
    · exact ((((Appends.put b _).trans (Appends.put _ _)).trans (Appends.put _ _)).trans
        (Appends.put _ _)).trans (Appends.put _ _)

theorem writeScientific_appends (dec_sep l : Nat) (sf exp : Int) (b : Buf) (hsf : 1 ≤ sf) :
    Appends b (writeScientific dec_sep l sf exp b) (scientificBytes dec_sep l sf exp) := by
  have hm : Appends b
      ((((if sf = 1 then (sciFracDigits (sf - 1).toNat l (b.move sf)).2.move (-1)
          else (sciFracDigits (sf - 1).toNat l (b.move sf)).2.putBack dec_sep).poke
          (byteOf (48 + (sciFracDigits (sf - 1).toNat l (b.move sf)).1))).move
          (sf + (if sf > 1 then 1 else 0))))
      (byteOf (48 + l / 10 ^ (sf - 1).toNat) ::
        (if sf = 1 then [] else dec_sep :: lowDigits l (sf - 1).toNat)) := by
    obtain ⟨h1, h2⟩ := sciFracDigits_prepends (sf - 1).toNat l (b.move sf)
    rw [h1, Buf.poke_eq, Buf.move_move]
    by_cases h : sf = 1
    · subst h
      simp only [if_true, sub_self, Int.toNat_zero, sciFracDigits, gt_iff_lt, lt_self_iff_false,
        if_false, Buf.move_move]
      have p : Prepends (b.move ((1 : Int) - 1)) ((b.move (1 + -1)).putBack
          (byteOf (48 + l / 10 ^ 0))) [byteOf (48 + l / 10 ^ 0)] := by
        have := Prepends.putBack (b.move (1 + -1)) (byteOf (48 + l / 10 ^ 0))
        simpa using this
      have := p.toAppends (by simp)
      simpa using this
    · simp only [if_neg h, if_pos (show sf > 1 by omega)]
      have p := (h2.chain (Prepends.putBack _ dec_sep)).chain
        (Prepends.putBack _ (byteOf (48 + l / 10 ^ (sf - 1).toNat)))
      have e : b.move sf = b.move ((sf + 1) - 1) := by simp
      rw [e] at p
      have := p.toAppends (by simp [lowDigits_length]; omega)
      have e2 : (1 : Int) + (sf + 1) = sf + 1 + 1 := by ring
      rw [e2]
      simpa using this
  have := hm.trans (exponent_appends exp _)
  unfold writeScientific scientificBytes
  simp only
  convert this using 2

theorem stripZeros_spec (fuel l : Nat) (tz : Int) (hl : 0 < l) :
    ∃ k : Nat, (stripZeros fuel l tz).2 = tz + k ∧ (stripZeros fuel l tz).1 * 10 ^ k = l := by
  induction fuel generalizing l tz with
  | zero => exact ⟨0, by simp [stripZeros], by simp [stripZeros]⟩
  | succ fuel ih =>
    unfold stripZeros
    by_cases h : l % 10 = 0
    · rw [if_pos h]
      obtain ⟨k, h1, h2⟩ := ih (l / 10) (tz + 1) (by omega)
      refine ⟨k + 1, by rw [h1]; push_cast; ring, ?_⟩
      rw [pow_succ, ← Nat.mul_assoc, h2]
      omega
    · rw [if_neg h]
      exact ⟨0, by simp, by simp⟩

theorem decimalBytes_length (dec_sep l : Nat) (sf dr dl0 : Int) :
    ((decimalBytes dec_sep l sf dr dl0).length : Int) =
      if dr ≠ 0 then
        ((sf.toNat - min dr.toNat sf.toNat : Nat) : Int) + dl0.toNat + 1 +
          (dr.toNat - min dr.toNat sf.toNat : Nat) + (min dr.toNat sf.toNat : Nat)
      else (sf.toNat : Int) + dl0.toNat := by
  unfold decimalBytes
  by_cases h : dr ≠ 0
  · simp only [if_pos h, List.length_append, lowDigits_length, List.length_replicate,
      List.length_cons]
    push_cast
    ring
  · simp only [if_neg h, List.length_append, lowDigits_length, List.length_replicate,
      List.length_nil]
    push_cast
    simp

theorem numLayout_ok (dec_sep l2 : Nat) (exp0 : Int) (h1 : 0 < l2) (h2 : l2 < 10 ^ 16) :
    1 ≤ (numLayout l2 exp0).sf ∧ 0 ≤ (numLayout l2 exp0).dr ∧
      (numLayout l2 exp0).width =
        (decimalBytes dec_sep (numLayout l2 exp0).l (numLayout l2 exp0).sf (numLayout l2 exp0).dr
          (numLayout l2 exp0).dl0).length := by
  obtain ⟨k, hk1, hk2⟩ := stripZeros_spec l2 l2 0 h1
  have hk : k ≤ 15 := by
    by_contra hc
    have h16 : 16 ≤ k := by omega
    have hpos : 0 < (stripZeros l2 l2 0).1 := by
      rcases Nat.eq_zero_or_pos (stripZeros l2 l2 0).1 with h | h
      · rw [h] at hk2; omega
      · exact h
    have : 10 ^ 16 ≤ 10 ^ k := Nat.pow_le_pow_right (by norm_num) h16
    have : 10 ^ k ≤ l2 := by
      calc 10 ^ k = 1 * 10 ^ k := by ring
        _ ≤ (stripZeros l2 l2 0).1 * 10 ^ k := Nat.mul_le_mul_right _ hpos
        _ = l2 := hk2
    omega
  rw [decimalBytes_length]
  simp only [numLayout, hk1, NUM_SF, zero_add, Nat.cast_ofNat]
  have hkk : (k : Int) ≤ 15 := by omega
  have hkk0 : (0 : Int) ≤ k := by omega
  generalize (k : Int) = kk at hkk hkk0 ⊢
  clear hk1 hk2 hk
  refine ⟨by split_ifs <;> omega, by split_ifs <;> omega, ?_⟩
  split_ifs <;> omega

theorem writeNumericDigits_appends (dec_sep l0 : Nat) (exp0 : Int) (b : Buf)
    (h1 : 0 < roundLast l0) (h2 : roundLast l0 < 10 ^ 16) :
    Appends b (writeNumericDigits dec_sep l0 exp0 b) (numericDigitsBytes dec_sep l0 exp0) := by
  obtain ⟨a1, a2, a3⟩ := numLayout_ok dec_sep (roundLast l0) exp0 h1 h2
  unfold writeNumericDigits numericDigitsBytes
  simp only [if_neg (Nat.pos_iff_ne_zero.mp h1)]
  split_ifs with hd
  · exact writeDecimal_appends _ _ _ _ _ _ b (by omega) a2 a3
  · exact writeScientific_appends _ _ _ _ b a1

theorem roundLast_bounds (l0 : Nat) (h1 : SIZE_SF ≤ l0) (h2 : l0 < 10 * SIZE_SF) :
    0 < roundLast l0 ∧ roundLast l0 < 10 ^ 16 := by
  unfold SIZE_SF at h1 h2
  unfold roundLast
  norm_num
  split_ifs <;> omega

theorem writeNumeric_appends {F : Type} (env : FloatEnv F) (cfg : Config) (x : Nat) (b : Buf)
    (henv : SixteenDigits env) :
    Appends b (writeNumeric env cfg x b) (numericBytes env cfg x) := by
  by_cases hf : R_FINITE x = true
  · by_cases hz : dblIsZero x = true
    · have := (writeNumeric_special_appends env cfg x b).2.2.2 hz
      simpa [numericBytes, hf, hz] using this
    · simp only [writeNumeric, numericBytes, hf, hz, Bool.not_true, Bool.false_eq_true, if_false]
      obtain ⟨r1, r2⟩ := henv (if dblLtZero x = true then dblNeg x else x)
      obtain ⟨q1, q2⟩ := roundLast_bounds _ r1 r2
      have key := fun b1 => writeNumericDigits_appends cfg.dec_sep
        (mantissaExp env (if dblLtZero x = true then dblNeg x else x)).1
        (mantissaExp env (if dblLtZero x = true then dblNeg x else x)).2 b1 q1 q2
      by_cases hneg : dblLtZero x = true
      · simp only [hneg, if_true] at key ⊢
        exact (Appends.put b 45).trans (key _)
      · simp only [hneg, if_false] at key ⊢
        simpa using key b
  · have hf2 : R_FINITE x = false := by simpa using hf
    by_cases hn : ISNAN x = true
    · have := (writeNumeric_special_appends env cfg x b).1 hn
      simpa [numericBytes, hf2, hn] using this
    · have hn2 : ISNAN x = false := by simpa using hn
      by_cases hs : signOf x = true
      · have := (writeNumeric_special_appends env cfg x b).2.2.1 ⟨hf2, hn2, hs⟩
        simpa [numericBytes, hf2, hn2, dblGtZero, hs] using this
      · have hs2 : signOf x = false := by simpa using hs
        have hz : dblIsZero x = false := by
          simp only [dblIsZero, R_FINITE, decide_eq_false_iff_not, not_not] at hf2 ⊢
          rw [hf2]; simp
        have := (writeNumeric_special_appends env cfg x b).2.1 ⟨hf2, hn2, hs2⟩
        simpa [numericBytes, hf2, hn2, dblGtZero, hs2, hz] using this

/-! ## writeString for arbitrary byte vectors -/

theorem cstr_cons (c : Nat) (tt : List Nat) :
    cstr (c :: tt) = if c ≠ 0 then c :: cstr tt else [] := by
  unfold cstr
  by_cases h : c = 0 <;> simp [List.takeWhile, h]

theorem cstr_of_no_nul (s : List Nat) (h0 : 0 ∉ s) : cstr s = s := by
  induction s with
  | nil => rfl
  | cons c tt ih =>
    simp only [List.mem_cons, not_or] at h0
    rw [cstr_cons, if_pos (fun h => h0.1 h.symm), ih h0.2]

theorem escapeLoop_cstr (s : List Nat) (b : Buf) :
    escapeLoop s b = b.memcpy (escapeBytes (cstr s)) := by
  induction s generalizing b with
  | nil => rfl
  | cons c tt ih =>
    by_cases hc : c ≠ 0
    · simp only [escapeLoop, if_pos hc, ih, cstr_cons, escapeBytes, List.flatMap_cons]
      split_ifs <;> simp [Buf.memcpy]
    · simp only [escapeLoop, if_neg hc, cstr_cons, escapeBytes, List.flatMap_nil, Buf.memcpy]

theorem doubleLoop_cstr (s : List Nat) (b : Buf) :
    doubleLoop s b = b.memcpy (doubleBytes (cstr s)) := by
  induction s generalizing b with
  | nil => rfl
  | cons c tt ih =>
    by_cases hc : c ≠ 0
    · simp only [doubleLoop, if_pos hc, ih, cstr_cons, doubleBytes, List.flatMap_cons]
      split_ifs with h
      · subst h; simp [Buf.memcpy]
      · simp [Buf.memcpy]
    · simp only [doubleLoop, if_neg hc, cstr_cons, doubleBytes, List.flatMap_nil, Buf.memcpy]

theorem autoScan_cstr_clean (col_sep : Nat) (s : List Nat) (b : Buf)
    (hs : col_sep ∉ cstr s) (hn : 10 ∉ cstr s) :
    autoScan col_sep s b = (b.memcpy (cstr s), true) := by
  induction s generalizing b with
  | nil => rfl
  | cons c tt ih =>
    by_cases hc : c ≠ 0
    · rw [cstr_cons, if_pos hc] at hs hn ⊢
      simp only [List.mem_cons, not_or] at hs hn
      have hcond : c ≠ 0 ∧ c ≠ col_sep ∧ c ≠ 10 :=
        ⟨hc, fun h => hs.1 h.symm, fun h => hn.1 h.symm⟩
      simp only [autoScan, if_pos hcond, ih _ hs.2 hn.2, Buf.memcpy]
    · have hcond : ¬ (c ≠ 0 ∧ c ≠ col_sep ∧ c ≠ 10) := fun h => hc h.1
      rw [cstr_cons, if_neg hc]
      simp only [autoScan, if_neg hcond, Buf.memcpy]
      simp only [not_not] at hc
      simp [hc]

theorem autoScan_cstr_dirty (col_sep : Nat) (s : List Nat) (b : Buf)
    (hs : col_sep ∈ cstr s ∨ 10 ∈ cstr s) :
    (autoScan col_sep s b).2 = false ∧
      ∀ p, p < b.ch → (autoScan col_sep s b).1.mem p = b.mem p := by
  induction s generalizing b with
  | nil => simp [cstr] at hs
  | cons c tt ih =>
    by_cases hc : c ≠ 0
    · rw [cstr_cons, if_pos hc] at hs
      by_cases hcond : c ≠ 0 ∧ c ≠ col_sep ∧ c ≠ 10
      · have hs2 : col_sep ∈ cstr tt ∨ 10 ∈ cstr tt := by
          rcases hs with h | h
          · left; simpa [Ne.symm hcond.2.1] using h
          · right; simpa [Ne.symm hcond.2.2] using h
        obtain ⟨h1, h3⟩ := ih (b.put c) hs2
        simp only [autoScan, if_pos hcond]
        refine ⟨h1, ?_⟩
        intro p hp
        rw [h3 p (by show p < b.ch + 1; omega)]
        simp only [Buf.put, Function.update_apply]
        rw [if_neg (by omega)]
      · simp only [autoScan, if_neg hcond]
        exact ⟨by simpa using hc, fun _ _ => trivial⟩
    · rw [cstr_cons, if_neg hc] at hs
      simp at hs

theorem quoted_cstr_appends (esc : Bool) (s : List Nat) (b b1 : Buf) (h1 : Appends b b1 []) :
    Appends b ((if esc = true then escapeLoop s (b1.put 34) else doubleLoop s (b1.put 34)).put 34)
      (quotedBytes esc (cstr s)) := by
  have key : Appends b1 ((if esc = true then escapeLoop s (b1.put 34)
      else doubleLoop s (b1.put 34)).put 34) (quotedBytes esc (cstr s)) := by
    unfold quotedBytes
    cases esc
    · simp only [Bool.false_eq_true, if_false, doubleLoop_cstr s _]
      exact ((Appends.put b1 34).trans (Appends.memcpy _ _)).trans (Appends.put _ 34)
    · simp only [if_true, escapeLoop_cstr s _]
      exact ((Appends.put b1 34).trans (Appends.memcpy _ _)).trans (Appends.put _ 34)
  simpa using h1.trans key

theorem writeString_appends (cfg : Config) (x : CharSxp) (b : Buf) :
    Appends b (writeString cfg x b) (stringBytes cfg x) := by
  cases x with
  | none => exact Appends.memcpy b _
  | some s =>
    cases hq : cfg.quote with
    | FALSE =>
      simp only [writeString, stringBytes, hq]
      simp
      exact Appends.memcpy b s
    | TRUE =>
      have := quoted_cstr_appends cfg.qmethod_escape s b b (Appends.refl b)
      simpa [writeString, stringBytes, hq] using this
    | NA_LOGICAL =>
      by_cases hs : cfg.col_sep ∈ cstr s ∨ 10 ∈ cstr s
      · obtain ⟨h1, h3⟩ := autoScan_cstr_dirty cfg.col_sep s b hs
        have hb1 : Appends b ⟨(autoScan cfg.col_sep s b).1.mem, b.ch⟩ [] :=
          ⟨by simp, h3, by intro i hi; simp at hi⟩
        have := quoted_cstr_appends cfg.qmethod_escape s b _ hb1
        simpa [writeString, stringBytes, hq, h1, hs] using this
      · have hs' := hs
        simp only [not_or] at hs
        simp only [writeString, stringBytes, hq, autoScan_cstr_clean _ s b hs.1 hs.2, and_self,
          if_true, if_neg hs']
        exact Appends.memcpy b _

/-! ## Rows -/

theorem Appends.sprintf (b : Buf) (s : List Nat) : Appends b (b.sprintf s) s := by
  obtain ⟨c, m, g⟩ := Appends.memcpy b s
  refine ⟨c, ?_, ?_⟩
  · intro p hp
    simp only [Buf.sprintf, Buf.poke, Function.update_apply]
    rw [if_neg (by omega), m p hp]
  · intro i hi
    simp only [Buf.sprintf, Buf.poke, Function.update_apply]
    rw [if_neg (by omega), g i hi]

theorem Appends.dropLast {b b1 : Buf} {l : List Nat} {c : Nat} (h : Appends b b1 (l ++ [c])) :
    Appends b (b1.move (-1)) l := by
  obtain ⟨hc, m, g⟩ := h
  refine ⟨by simp only [Buf.move, hc, List.length_append, List.length_singleton]; push_cast; ring,
    m, ?_⟩
  intro i hi
  have := g i (by simp; omega)
  simp only [Buf.move]
  rw [this]
  simp [List.getD_eq_getElem?_getD, List.getElem?_append_left hi]

theorem writeCell_appends {F : Type} (env : FloatEnv F) (pf : Platform) (cfg : Config)
    (henv : SixteenDigits env) (column : Column) (row_i : Nat) (b : Buf) (f : List Nat)
    (hf : cellBytes env pf cfg column row_i = some f) :
    ∃ b1, writeCell env pf cfg column row_i b = some b1 ∧ Appends b b1 f := by
  cases column with
  | lgl v =>
    simp only [cellBytes] at hf
    simp only [writeCell]
    cases hx : v[row_i]? with
    | none => simp [hx] at hf
    | some x =>
      simp only [hx] at hf ⊢
      split_ifs at hf ⊢ <;> simp only [Option.some.injEq] at hf <;> subst hf <;>
        exact ⟨_, rfl, Appends.memcpy b _⟩
  | real i64 v =>
    simp only [cellBytes] at hf
    simp only [writeCell]
    cases hx : v[row_i]? with
    | none => simp [hx] at hf
    | some x =>
      simp only [hx] at hf ⊢
      split_ifs at hf ⊢ <;> simp only [Option.some.injEq] at hf <;> subst hf
      · exact ⟨_, rfl, Appends.memcpy b _⟩
      · exact ⟨_, rfl, writeInteger_appends_general _ b⟩
      · exact ⟨_, rfl, Appends.sprintf b _⟩
      · exact ⟨_, rfl, writeNumeric_appends env cfg x b henv⟩
      · exact ⟨_, rfl, Appends.memcpy b _⟩
      · exact ⟨_, rfl, Appends.sprintf b _⟩
  | int lv v =>
    simp only [cellBytes] at hf
    simp only [writeCell]
    cases hx : v[row_i]? with
    | none => simp [hx] at hf
    | some x =>
      simp only [hx] at hf ⊢
      by_cases hna : x = NA_INTEGER
      · simp only [hna, if_true, Option.some.injEq] at hf ⊢
        subst hf
        exact ⟨_, rfl, Appends.memcpy b _⟩
      · simp only [if_neg hna] at hf ⊢
        cases hl : (Column.int lv v).levels with
        | none =>
          simp only [hl] at hf ⊢
          split_ifs at hf ⊢ <;> simp only [Option.some.injEq] at hf <;> subst hf
          · exact ⟨_, rfl, writeInteger_appends_general _ b⟩
          · exact ⟨_, rfl, Appends.sprintf b _⟩
        | some l =>
          simp only [hl] at hf ⊢
          by_cases hneg : x - 1 < 0
          · simp [hneg] at hf
          · rw [if_neg hneg] at hf ⊢
            generalize l[(x - 1).toNat]? = o at hf ⊢
            cases o with
            | none => simp at hf
            | some s =>
              simp only [Option.some.injEq] at hf ⊢
              subst hf
              exact ⟨_, rfl, writeString_appends cfg s b⟩
  | str v =>
    simp only [cellBytes] at hf
    simp only [writeCell]
    cases hx : v[row_i]? with
    | none => simp [hx] at hf
    | some s =>
      simp only [hx, Option.some.injEq] at hf ⊢
      subst hf
      exact ⟨_, rfl, writeString_appends cfg s b⟩
  | other t n =>
    simp only [cellBytes, Option.some.injEq] at hf
    subst hf
    exact ⟨b, rfl, Appends.refl b⟩

theorem forCols_appends {F : Type} (env : FloatEnv F) (pf : Platform) (cfg : Config)
    (henv : SixteenDigits env) (row_i : Nat) (cols : List Column) (fields : List (List Nat))
    (hf : List.Forall₂ (fun column f => cellBytes env pf cfg column row_i = some f) cols fields)
    (b : Buf) :
    ∃ b1, forCols (fun column b1 =>
        match writeCell env pf cfg column row_i b1 with
        | none => none
        | some b2 => some (b2.put cfg.col_sep)) cols b = some b1 ∧
      Appends b b1 (fields.flatMap (fun f => f ++ [cfg.col_sep])) := by
  induction hf generalizing b with
  | nil => exact ⟨b, rfl, Appends.refl b⟩
  | cons hc _ ih =>
    obtain ⟨b1, h1, a1⟩ := writeCell_appends env pf cfg henv _ row_i b _ hc
    obtain ⟨b2, h2, a2⟩ := ih (b1.put cfg.col_sep)
    refine ⟨b2, ?_, ?_⟩
    · simp only [forCols, h1, h2]
    · have := (a1.trans (Appends.put b1 cfg.col_sep)).trans a2
      simpa [List.flatMap_cons] using this

theorem flatMap_sep_eq_intercalate (sep : List Nat) (fields : List (List Nat))
    (h : fields ≠ []) :
    fields.flatMap (fun f => f ++ sep) = List.intercalate sep fields ++ sep := by
  induction fields with
  | nil => exact absurd rfl h
  | cons f rest ih =>
    cases rest with
    | nil => simp [List.intercalate, List.intersperse]
    | cons g rest =>
      have := ih (by simp)
      simp only [List.flatMap_cons] at this ⊢
      rw [this]
      simp [List.intercalate, List.intersperse]

theorem writeRowName_appends (cfg : Config) (t : Table) (row_i : Nat) (b : Buf)
    (rnf : List Nat) (hrn : cfg.row_names = true → rowNameField cfg t row_i = some rnf) :
    ∃ b1, writeRowName cfg t row_i b = some b1 ∧
      Appends b b1 (if cfg.row_names = true then rnf ++ [cfg.col_sep] else []) := by
  by_cases hr : cfg.row_names = true
  · have hrn := hrn hr
    simp only [writeRowName, hr, if_true]
    unfold rowNameField at hrn
    cases hrnv : t.rn with
    | none =>
      simp only [hrnv, Option.some.injEq] at hrn ⊢
      subst hrn
      refine ⟨_, rfl, ?_⟩
      by_cases hq : cfg.quote ≠ Rboolean.FALSE
      · simp only [if_pos hq]
        exact (((Appends.put b 34).trans (writeInteger_appends_general _ _)).trans
          (Appends.put _ 34)).trans (Appends.put _ _)
      · simp only [if_neg hq]
        have := (writeInteger_appends_general ((row_i : Int) + 1) b).trans (Appends.put _ cfg.col_sep)
        simpa using this
    | some rn =>
      simp only [hrnv] at hrn ⊢
      cases hs : rn[row_i]? with
      | none => simp [hs] at hrn
      | some s =>
        simp only [hs, Option.some.injEq] at hrn ⊢
        subst hrn
        exact ⟨_, rfl, (writeString_appends cfg s b).trans (Appends.put _ _)⟩
  · simp only [writeRowName, hr, if_false]
    exact ⟨b, rfl, Appends.refl b⟩

theorem generalRow_appends {F : Type} (env : FloatEnv F) (pf : Platform) (cfg : Config)
    (t : Table) (row_i : Nat) (b : Buf) (rnf : List Nat) (fields : List (List Nat))
    (henv : SixteenDigits env) (hcols : t.cols ≠ [])
    (hrn : cfg.row_names = true → rowNameField cfg t row_i = some rnf)
    (hf : List.Forall₂ (fun column f => cellBytes env pf cfg column row_i = some f) t.cols fields) :
    ∃ b1, generalRow env pf cfg t row_i b = some b1 ∧
      Appends b b1 ((if cfg.row_names = true then rnf ++ [cfg.col_sep] else []) ++
        List.intercalate [cfg.col_sep] fields ++ cfg.row_sep) := by
  obtain ⟨b0, h0, a0⟩ := writeRowName_appends cfg t row_i b rnf hrn
  obtain ⟨b3, h3, a3⟩ := forCols_appends env pf cfg henv row_i t.cols fields hf b0
  have hne : fields ≠ [] := by
    intro h
    have hl := hf.length_eq
    rw [h] at hl
    exact hcols (List.length_eq_zero.mp hl)
  rw [flatMap_sep_eq_intercalate _ _ hne] at a3
  refine ⟨(b3.move (-1)).memcpy cfg.row_sep, ?_, ?_⟩
  · simp only [generalRow, h0, h3]
  · exact (a0.trans a3.dropLast).trans (Appends.memcpy _ _)

theorem constEnv_sixteenDigits (l : Nat) (e : Int) (h1 : SIZE_SF ≤ l) (h2 : l < 10 * SIZE_SF) :
    SixteenDigits (constEnv l e) :=
  fun _ => ⟨h1, h2⟩

/-- C9: for every table with at least one column and every row `row_i` whose cells can
be read, the general row encoder emits exactly: when row names are requested, the
row-identifier field followed by `col_sep`; then the column fields in column order
with exactly one `col_sep` between consecutive fields; then `row_sep`, with no
`col_sep` before `row_sep`. The fields are the bytes the cell formatters emit
(`cellBytes`); for DOUBLE cells written by `writeNumeric` the floating-point part is
assumed to deliver a 16-digit integer, as the source states. The cursor advances by
exactly these bytes and the bytes before the cursor are unchanged. -/
theorem generalRow_layout {F : Type} (env : FloatEnv F) (pf : Platform) (cfg : Config)
    (t : Table) (row_i : Nat) (b : Buf) (rnf : List Nat) (fields : List (List Nat))
    (henv : SixteenDigits env) (hcols : t.cols ≠ [])
    (hrn : cfg.row_names = true → rowNameField cfg t row_i = some rnf)
    (hf : List.Forall₂ (fun column f => cellBytes env pf cfg column row_i = some f)
      t.cols fields) :
    ∃ b1, generalRow env pf cfg t row_i b = some b1 ∧
      out b.ch b1 = (if cfg.row_names = true then rnf ++ [cfg.col_sep] else []) ++
        List.intercalate [cfg.col_sep] fields ++ cfg.row_sep ∧
      b1.ch = b.ch + (out b.ch b1).length ∧
      ∀ p, p < b.ch → b1.mem p = b.mem p := by
  obtain ⟨b1, h1, a1⟩ := generalRow_appends env pf cfg t row_i b rnf fields henv hcols hrn hf
  refine ⟨b1, h1, a1.out_eq, ?_, a1.2.1⟩
  rw [a1.out_eq]
  exact a1.1

/-- C9 witness: the INT32 column `[1, 2, NA, -7]` with `na_str = "NA"`: row 3 is the
field `-7` followed by `"\n"`, and the four rows together are `"1\n2\nNA\n-7\n"`. -/
theorem generalRow_layout_witness :
    (∃ b1, generalRow (constEnv 3141600000000000 0) examplePlatform exampleConfig
        ⟨[Column.int none [1, 2, NA_INTEGER, -7]], none⟩ 3 emptyBuf = some b1 ∧
      out emptyBuf.ch b1 = [45, 55, 10]) ∧
    (generalRows (constEnv 3141600000000000 0) examplePlatform exampleConfig
        ⟨[Column.int none [1, 2, NA_INTEGER, -7]], none⟩ 0 4 emptyBuf).map (fun b => out 0 b) =
      some [49, 10, 50, 10, 78, 65, 10, 45, 55, 10] := by
  refine ⟨?_, by decide⟩
  have e : integerBytes (-7) = [45, 55] := by
    rw [integerBytes_eq_decimalRepr _ (by decide) (by decide)]
    simp [decimalRepr]
  obtain ⟨b1, h1, h2, _⟩ := generalRow_layout (constEnv 3141600000000000 0) examplePlatform
    exampleConfig ⟨[Column.int none [1, 2, NA_INTEGER, -7]], none⟩ 3 emptyBuf [] [[45, 55]]
    (constEnv_sixteenDigits _ _ (by decide) (by decide)) (by simp) (by decide)
    (List.Forall₂.cons (by simp [cellBytes, Column.levels, exampleConfig, NA_INTEGER, e]) List.Forall₂.nil)
  exact ⟨b1, h1, by simpa [exampleConfig, List.intercalate] using h2⟩

/-! ## Subnormal doubles -/

theorem exponentOf_of_lt (f : Nat) (hf : f < 2 ^ 52) : exponentOf f = 0 := by
  unfold exponentOf
  rw [Nat.shiftRight_eq_div_pow, Nat.div_eq_of_lt hf]
  simp

/-- For every arithmetic and every table contents, the decimal exponent computed for a
subnormal double (exponent field 0, fraction `f`) is `exppow[0]` or `exppow[0]+1`,
whatever the fraction: the value `f * 2^-1074` is treated as `(1 + f * 2^-52) * 2^-1023`. -/
theorem mantissaExp_subnormal_exp {F : Type} (env : FloatEnv F) (f : Nat) (hf : f < 2 ^ 52) :
    (mantissaExp env f).2 = env.exppow 0 ∨ (mantissaExp env f).2 = env.exppow 0 + 1 := by
  simp only [mantissaExp, exponentOf_of_lt f hf]
  split_ifs
  · exact Or.inr rfl
  · exact Or.inl rfl

set_option maxRecDepth 100000 in
set_option exponentiation.threshold 2000 in
/-- C3 (failing input): the smallest subnormal double `2^-1074` (bit pattern 1, about
`4.94065645841247e-324`) is finite and non-zero with exponent field 0 and fraction 1.
With the tables as generated (`expsig[0]`, `exppow[0]` for `2^-1023`) and even with
exact arithmetic, `writeNumeric` emits `1.1125369292536e-308` for it. -/
theorem writeNumeric_subnormal_wrong :
    R_FINITE 1 = true ∧ dblIsZero 1 = false ∧ exponentOf 1 = 0 ∧ fractionOf 1 = 1 ∧
    out 0 (writeNumeric exactEnv exampleConfig 1 emptyBuf) =
      [49, 46, 49, 49, 50, 53, 51, 54, 57, 50, 57, 50, 53, 51, 54, 101, 45, 51, 48, 56] := by
  decide

/-! ## The scientific form -/

theorem lowDigits_succ_head (l k : Nat) :
    lowDigits l (k + 1) = (48 + (l / 10 ^ k) % 10) :: lowDigits l k := by
  induction k generalizing l with
  | zero => simp [lowDigits]
  | succ k ih =>
    rw [lowDigits, ih (l / 10)]
    simp only [List.cons_append, lowDigits]
    rw [Nat.div_div_eq_div_mul, pow_succ, Nat.mul_comm]

theorem lowDigits_eq_digitChars (k l : Nat) (h1 : l < 10 ^ k) (h2 : k ≠ 0 → 10 ^ (k - 1) ≤ l) :
    lowDigits l k = digitChars l := by
  induction k generalizing l with
  | zero =>
    have : l = 0 := by simpa using h1
    subst this
    simp [lowDigits, digitChars]
  | succ k ih =>
    have hpos : 0 < l := by
      have := h2 (by simp)
      have : 0 < 10 ^ (k + 1 - 1) := by positivity
      omega
    have h3 : l / 10 < 10 ^ k := by
      rw [Nat.div_lt_iff_lt_mul (by norm_num)]
      rw [pow_succ] at h1
      exact h1
    have h4 : k ≠ 0 → 10 ^ (k - 1) ≤ l / 10 := by
      intro hk
      have := h2 (by simp)
      rw [Nat.le_div_iff_mul_le (by norm_num)]
      have e : 10 ^ (k - 1) * 10 = 10 ^ (k + 1 - 1) := by
        rw [← pow_succ]; congr 1; omega
      rw [e]; exact this
    rw [lowDigits, ih (l / 10) h3 h4]
    unfold digitChars
    rw [Nat.digits_def' (by norm_num) hpos]
    simp

theorem exponentBytes_eq (exp : Int) (h : |exp| ≤ 999) :
    exponentBytes exp = [101, if exp < 0 then 45 else 43] ++
      (if exp.natAbs < 100 then [48 + exp.natAbs / 10, 48 + exp.natAbs % 10]
       else [48 + exp.natAbs / 100, 48 + exp.natAbs / 10 % 10, 48 + exp.natAbs % 10]) := by
  have habs : (if exp < 0 then -exp else exp) = (exp.natAbs : Int) := by
    split_ifs <;> omega
  have hn : exp.natAbs ≤ 999 := by
    have := abs_le.mp h
    omega
  unfold exponentBytes
  simp only [habs]
  congr 1
  have e1 : ((48 : Int) + (exp.natAbs : Int) / 10).toNat = 48 + exp.natAbs / 10 := by omega
  have e2 : ((48 : Int) + (exp.natAbs : Int) % 10).toNat = 48 + exp.natAbs % 10 := by omega
  have e3 : ((48 : Int) + (exp.natAbs : Int) / 100).toNat = 48 + exp.natAbs / 100 := by omega
  have e4 : ((48 : Int) + (exp.natAbs : Int) / 10 % 10).toNat = 48 + exp.natAbs / 10 % 10 := by
    omega
  rw [e1, e2, e3, e4]
  have c : ((exp.natAbs : Int) < 100) ↔ exp.natAbs < 100 := by omega
  simp only [c]
  split_ifs with h100
  · rw [byteOf_digit _ (by omega), byteOf_digit _ (by omega)]
  · rw [byteOf_digit _ (by omega), byteOf_digit _ (by omega), byteOf_digit _ (by omega)]

theorem scientificBytes_eq (dec_sep l sf : Nat) (exp : Int) (hsf : 1 ≤ sf)
    (hl1 : 10 ^ (sf - 1) ≤ l) (hl2 : l < 10 ^ sf) (hexp : |exp| ≤ 999) :
    scientificBytes dec_sep l sf exp =
      (digitChars l).take 1 ++ (if 1 < sf then dec_sep :: (digitChars l).drop 1 else []) ++
      [101, if exp < 0 then 45 else 43] ++
      (if exp.natAbs < 100 then [48 + exp.natAbs / 10, 48 + exp.natAbs % 10]
       else [48 + exp.natAbs / 100, 48 + exp.natAbs / 10 % 10, 48 + exp.natAbs % 10]) := by
  obtain ⟨k, rfl⟩ : ∃ k, sf = k + 1 := ⟨sf - 1, by omega⟩
  have hd : digitChars l = (48 + l / 10 ^ k) :: lowDigits l k := by
    rw [← lowDigits_eq_digitChars (k + 1) l hl2 (fun _ => hl1), lowDigits_succ_head]
    have : l / 10 ^ k < 10 := by
      rw [Nat.div_lt_iff_lt_mul (by positivity)]
      rw [pow_succ, Nat.mul_comm] at hl2
      exact hl2
    rw [Nat.mod_eq_of_lt this]
  have hq : l / 10 ^ k < 10 := by
    rw [Nat.div_lt_iff_lt_mul (by positivity)]
    rw [pow_succ, Nat.mul_comm] at hl2
    exact hl2
  unfold scientificBytes
  rw [exponentBytes_eq exp hexp, hd]
  have e1 : (((k + 1 : Nat) : Int) - 1).toNat = k := by omega
  rw [e1, byteOf_digit _ hq]
  by_cases hk : k = 0
  · subst hk
    simp [lowDigits]
  · have c1 : ¬ (((k + 1 : Nat) : Int) = 1) := by omega
    have c2 : 1 < k + 1 := by omega
    simp [c1, c2, hk]

/-- C14: whenever `writeNumeric` takes the scientific branch (second part: that is
when the rounded integer is not zero and the test of line 178 fails), for a
significand `l` of `sf >= 1` digits and an exponent with `|exp| <= 999` the emitted
text is exactly: the first digit of `l`; then, iff `sf > 1`, `dec_sep` and the
remaining `sf-1` digits; then `'e'`; then `'+'` if `exp >= 0`, `'-'` if `exp < 0`;
then `|exp|` with exactly 2 digits (zero-padded) when `|exp| < 100` and exactly 3
digits otherwise. The cursor advances by exactly these bytes. -/
theorem scientific_form_text (dec_sep : Nat) (b : Buf) :
    (∀ (l sf : Nat) (exp : Int), 1 ≤ sf → 10 ^ (sf - 1) ≤ l → l < 10 ^ sf → |exp| ≤ 999 →
      Appends b (writeScientific dec_sep l sf exp b)
        ((digitChars l).take 1 ++ (if 1 < sf then dec_sep :: (digitChars l).drop 1 else []) ++
          [101, if exp < 0 then 45 else 43] ++
          (if exp.natAbs < 100 then [48 + exp.natAbs / 10, 48 + exp.natAbs % 10]
           else [48 + exp.natAbs / 100, 48 + exp.natAbs / 10 % 10, 48 + exp.natAbs % 10]))) ∧
    (∀ (l0 : Nat) (exp0 : Int), roundLast l0 ≠ 0 →
      (numLayout (roundLast l0) exp0).decimal = false →
      writeNumericDigits dec_sep l0 exp0 b =
        writeScientific dec_sep (numLayout (roundLast l0) exp0).l
          (numLayout (roundLast l0) exp0).sf (numLayout (roundLast l0) exp0).exp b) := by
  refine ⟨?_, ?_⟩
  · intro l sf exp hsf hl1 hl2 hexp
    rw [← scientificBytes_eq dec_sep l sf exp hsf hl1 hl2 hexp]
    exact writeScientific_appends dec_sep l sf exp b (by omega)
  · intro l0 exp0 h0 hd
    simp [writeNumericDigits, h0, hd]

/-- C14 witness: significand 12 (two digits) with exponent -123 is written `1.2e-123`,
and significand 1 with exponent 5 is written `1e+05`. -/
theorem scientific_form_text_witness :
    out emptyBuf.ch (writeScientific 46 12 ((2 : Nat) : Int) (-123) emptyBuf) =
      [49, 46, 50, 101, 45, 49, 50, 51] ∧
    out emptyBuf.ch (writeScientific 46 1 ((1 : Nat) : Int) 5 emptyBuf) = [49, 101, 43, 48, 53] := by
  have h1 := ((scientific_form_text 46 emptyBuf).1 12 2 (-123) (by decide) (by decide)
    (by decide) (by decide)).out_eq
  have h2 := ((scientific_form_text 46 emptyBuf).1 1 1 5 (by decide) (by decide)
    (by decide) (by decide)).out_eq
  refine ⟨?_, ?_⟩
  · rw [h1]; simp [digitChars]
  · rw [h2]; simp [digitChars]

/-! ## Field widths of the two forms -/

theorem decimalLayout_ok (dec_sep l : Nat) (sf exp : Int) (hsf : 1 ≤ sf) :
    0 ≤ (decimalLayout sf exp).1 ∧
      (decimalLayout sf exp).2.2 =
        (decimalBytes dec_sep l sf (decimalLayout sf exp).1 (decimalLayout sf exp).2.1).length := by
  rw [decimalBytes_length]
  unfold decimalLayout
  simp only
  refine ⟨by split_ifs <;> simp <;> omega, ?_⟩
  split_ifs <;> simp at * <;> omega

theorem exponentBytes_length (exp : Int) :
    ((exponentBytes exp).length : Int) = 2 + (if |exp| > 99 then 3 else 2) := by
  have habs : (if exp < 0 then -exp else exp) = |exp| := by
    rcases abs_cases exp with ⟨h1, h2⟩ | ⟨h1, h2⟩ <;> rw [h1] <;> split_ifs <;> omega
  unfold exponentBytes
  simp only [habs]
  by_cases h : |exp| < 100
  · have h2 : ¬ |exp| > 99 := by omega
    simp [h, h2]
  · have h2 : |exp| > 99 := by omega
    simp [h, h2]

theorem scientificBytes_length (dec_sep l : Nat) (sf exp : Int) (hsf : 1 ≤ sf) :
    ((scientificBytes dec_sep l sf exp).length : Int) = sciCost sf exp := by
  unfold scientificBytes sciCost
  rw [List.length_append, Nat.cast_add, exponentBytes_length]
  by_cases h : sf = 1
  · subst h; simp; ring
  · have h2 : sf > 1 := by omega
    simp only [if_neg h, if_pos h2, List.length_cons, lowDigits_length]
    push_cast
    omega

theorem numLayout_eq_decimalLayout (l2 : Nat) (exp0 : Int) :
    ((numLayout l2 exp0).dr, (numLayout l2 exp0).dl0, (numLayout l2 exp0).width) =
      decimalLayout (numLayout l2 exp0).sf (numLayout l2 exp0).exp := by
  unfold numLayout decimalLayout
  simp only
  split_ifs <;> rfl

/-- C20: for every significand `l` with `sf >= 1` digits and every exponent `exp`, with
`dr`, `dl0`, `width` as computed in lines 167-174: the decimal branch writes exactly
`width` bytes, the scientific branch writes exactly
`sf + (sf>1) + 2 + (|exp|>99 ? 3 : 2)` bytes, and `writeNumeric` takes the decimal
branch iff `width` is not greater than that cost (ties go to decimal), so the form
emitted is never longer than the other one. -/
theorem width_and_cost (dec_sep : Nat) (b : Buf) :
    (∀ (l : Nat) (sf exp : Int), 1 ≤ sf →
      Appends b (writeDecimal dec_sep l sf (decimalLayout sf exp).1 (decimalLayout sf exp).2.1
          (decimalLayout sf exp).2.2 b)
        (decimalBytes dec_sep l sf (decimalLayout sf exp).1 (decimalLayout sf exp).2.1) ∧
      ((decimalBytes dec_sep l sf (decimalLayout sf exp).1 (decimalLayout sf exp).2.1).length
        : Int) = (decimalLayout sf exp).2.2 ∧
      Appends b (writeScientific dec_sep l sf exp b) (scientificBytes dec_sep l sf exp) ∧
      ((scientificBytes dec_sep l sf exp).length : Int) = sciCost sf exp) ∧
    (∀ (l2 : Nat) (exp0 : Int),
      ((numLayout l2 exp0).dr, (numLayout l2 exp0).dl0, (numLayout l2 exp0).width) =
        decimalLayout (numLayout l2 exp0).sf (numLayout l2 exp0).exp ∧
      ((numLayout l2 exp0).decimal = true ↔
        (numLayout l2 exp0).width ≤ sciCost (numLayout l2 exp0).sf (numLayout l2 exp0).exp)) ∧
    (∀ (l0 : Nat) (exp0 : Int), roundLast l0 ≠ 0 →
      writeNumericDigits dec_sep l0 exp0 b =
        if (numLayout (roundLast l0) exp0).width ≤
            sciCost (numLayout (roundLast l0) exp0).sf (numLayout (roundLast l0) exp0).exp then
          writeDecimal dec_sep (numLayout (roundLast l0) exp0).l
            (numLayout (roundLast l0) exp0).sf (numLayout (roundLast l0) exp0).dr
            (numLayout (roundLast l0) exp0).dl0 (numLayout (roundLast l0) exp0).width b
        else
          writeScientific dec_sep (numLayout (roundLast l0) exp0).l
            (numLayout (roundLast l0) exp0).sf (numLayout (roundLast l0) exp0).exp b) := by
  refine ⟨?_, ?_, ?_⟩
  · intro l sf exp hsf
    obtain ⟨h1, h2⟩ := decimalLayout_ok dec_sep l sf exp hsf
    exact ⟨writeDecimal_appends _ _ _ _ _ _ b (by omega) h1 h2, h2.symm,
      writeScientific_appends _ _ _ _ b hsf, scientificBytes_length _ _ _ _ hsf⟩
  · intro l2 exp0
    refine ⟨numLayout_eq_decimalLayout l2 exp0, ?_⟩
    simp [NumLayout.decimal, sciCost]
  · intro l0 exp0 h0
    simp only [writeNumericDigits, if_neg h0, NumLayout.decimal, sciCost, decide_eq_true_eq]

/-- C20 witness: for `0.0072` (significand 72, `sf = 2`, `exp = -3`) the decimal width is
6 and the scientific cost is 7; the decimal branch writes the 6 bytes `0.0072`. -/
theorem width_and_cost_witness :
    decimalLayout 2 (-3) = (4, 1, 6) ∧ sciCost 2 (-3) = 7 ∧
    decimalBytes 46 72 2 4 1 = [48, 46, 48, 48, 55, 50] ∧
    Appends emptyBuf
      (writeDecimal 46 72 2 (decimalLayout 2 (-3)).1 (decimalLayout 2 (-3)).2.1
        (decimalLayout 2 (-3)).2.2 emptyBuf)
      (decimalBytes 46 72 2 (decimalLayout 2 (-3)).1 (decimalLayout 2 (-3)).2.1) :=
  ⟨by decide, by decide, by decide,
    ((width_and_cost 46 emptyBuf).1 72 2 (-3) (by decide)).1⟩

/-! ## Factor cells -/

/-- C13 (amended): for every FACTOR cell, the row encoder emits `na_str` when the index
is the missing sentinel `NA_INTEGER`, and for every index in `1..nlevels` it emits
exactly what the string formatter produces for `levels[idx-1]`, a position inside the
dictionary. -/
theorem factor_cell_in_range {F : Type} (env : FloatEnv F) (pf : Platform) (cfg : Config)
    (lv : List CharSxp) (v : List Int) (row_i : Nat) (x : Int) (b : Buf)
    (hx : v[row_i]? = some x) :
    (x = NA_INTEGER →
      ∃ b1, writeCell env pf cfg (Column.int (some lv) v) row_i b = some b1 ∧
        Appends b b1 cfg.na_str) ∧
    (1 ≤ x → x ≤ lv.length →
      ∃ s, lv[(x - 1).toNat]? = some s ∧ (x - 1).toNat < lv.length ∧
        writeCell env pf cfg (Column.int (some lv) v) row_i b = some (writeString cfg s b)) := by
  refine ⟨?_, ?_⟩
  · intro hna
    exact ⟨b.memcpy cfg.na_str, by simp [writeCell, hx, hna], Appends.memcpy b _⟩
  · intro h1 h2
    have hlt : (x - 1).toNat < lv.length := by omega
    have hna : x ≠ NA_INTEGER := by unfold NA_INTEGER; omega
    refine ⟨lv[(x - 1).toNat], List.getElem?_eq_getElem hlt, hlt, ?_⟩
    simp only [writeCell, hx, if_neg hna, Column.levels, if_neg (show ¬ x - 1 < 0 by omega),
      List.getElem?_eq_getElem hlt]

/-- C13 witness: index 2 into the levels `x`, `y` under `quote = TRUE` emits `"y"`;
the missing sentinel emits `NA`. -/
theorem factor_cell_in_range_witness :
    (∃ b1, writeCell (constEnv 0 0) examplePlatform exampleConfig
        (Column.int (some [some [120], some [121]]) [NA_INTEGER, 2]) 0 emptyBuf = some b1 ∧
      Appends emptyBuf b1 [78, 65]) ∧
    (∃ s, [some [120], some [121]][((2 : Int) - 1).toNat]? = some s ∧
      ((2 : Int) - 1).toNat < [some [120], some [121]].length ∧
      writeCell (constEnv 0 0) examplePlatform exampleConfig
        (Column.int (some [some [120], some [121]]) [NA_INTEGER, 2]) 1 emptyBuf =
        some (writeString exampleConfig s emptyBuf)) :=
  ⟨(factor_cell_in_range (constEnv 0 0) examplePlatform exampleConfig [some [120], some [121]]
      [NA_INTEGER, 2] 0 NA_INTEGER emptyBuf rfl).1 rfl,
   (factor_cell_in_range (constEnv 0 0) examplePlatform exampleConfig [some [120], some [121]]
      [NA_INTEGER, 2] 1 2 emptyBuf rfl).2 (by decide) (by decide)⟩

/-- C13 counterexample: a factor cell with index 0 (levels `x`, `y`) is not emitted as
`na_str`: the code only tests for `NA_INTEGER` and then reads `levels[0-1]`, a position
outside the dictionary (the result `none` of the embedding), and the same happens for
an index beyond the last level. -/
theorem factor_index_zero_counterexample :
    writeCell (constEnv 0 0) examplePlatform exampleConfig
      (Column.int (some [some [120], some [121]]) [0]) 0 emptyBuf = none ∧
    writeCell (constEnv 0 0) examplePlatform exampleConfig
      (Column.int (some [some [120], some [121]]) [3]) 0 emptyBuf = none ∧
    ¬ ∃ b1, writeCell (constEnv 0 0) examplePlatform exampleConfig
        (Column.int (some [some [120], some [121]]) [0]) 0 emptyBuf = some b1 ∧
      Appends emptyBuf b1 exampleConfig.na_str := by
  have h : writeCell (constEnv 0 0) examplePlatform exampleConfig
      (Column.int (some [some [120], some [121]]) [0]) 0 emptyBuf = none := rfl
  refine ⟨h, rfl, ?_⟩
  rintro ⟨b1, hb, _⟩
  rw [h] at hb
  exact Option.noConfusion hb

/-! ## The end of writefile: error selection and close -/

/-- C15: after the parallel region, `writefile` ends with OutOfMemory iff a failure with
reason -1 was recorded; otherwise with WriteFailed carrying the recorded `errno` iff a
failure was recorded, whether or not `close` fails too; otherwise with CloseFailed iff
`close` (called for a file sink only) returns an error; otherwise it succeeds. A close
error is never reported when a failure was recorded. The last part is the recording
itself: a failing `WRITE` in the ordered section sets `failed` and stores its `errno`. -/
theorem post_region_outcome (console failed : Bool) (failed_reason : Int)
    (closeErrno : Option Int) :
    ((postRegion console failed failed_reason closeErrno).2 = Outcome.outOfMemory ↔
      (failed = true ∧ failed_reason = -1)) ∧
    ((postRegion console failed failed_reason closeErrno).2 = Outcome.writeFailed failed_reason ↔
      (failed = true ∧ failed_reason ≠ -1)) ∧
    ((postRegion console failed failed_reason closeErrno).2 = Outcome.closeFailed ↔
      (failed = false ∧ console = false ∧ closeErrno.isSome = true)) ∧
    ((postRegion console failed failed_reason closeErrno).2 = Outcome.ok ↔
      (failed = false ∧ ¬ (console = false ∧ closeErrno.isSome = true))) ∧
    (failed = true → (postRegion console failed failed_reason closeErrno).2 ≠ Outcome.closeFailed) ∧
    (∀ {F : Type} (env : FloatEnv F) (pf : Platform) (sys : Sys) (cfg : Config) (t : Table)
      (sameType nrows rowsPerBatch start_row : Nat) (st : Region) (b : Buf) (errno : Int),
      st.failed = false →
      writeBatchRows env pf cfg t sameType start_row
        (batchUpp nrows rowsPerBatch start_row).toNat ⟨st.mem, 0⟩ = some b →
      sys.writeErrno st.nwrites = some errno →
      ∃ st1, batchBody env pf sys cfg t sameType false nrows rowsPerBatch start_row st = some st1 ∧
        st1.failed = true ∧ st1.failed_reason = errno) := by
  refine ⟨?_, ?_, ?_, ?_, ?_, ?_⟩
  · unfold postRegion
    cases failed <;> cases console <;> cases closeErrno <;> by_cases h : failed_reason = -1 <;>
      simp [h]
  · unfold postRegion
    cases failed <;> cases console <;> cases closeErrno <;> by_cases h : failed_reason = -1 <;>
      simp [h]
  · unfold postRegion
    cases failed <;> cases console <;> cases closeErrno <;> by_cases h : failed_reason = -1 <;>
      simp [h]
  · unfold postRegion
    cases failed <;> cases console <;> cases closeErrno <;> by_cases h : failed_reason = -1 <;>
      simp [h]
  · unfold postRegion
    cases failed <;> cases console <;> cases closeErrno <;> by_cases h : failed_reason = -1 <;>
      simp [h]
  · intro F env pf sys cfg t sameType nrows rowsPerBatch start_row st b errno hf hb hw
    refine ⟨{ st with mem := b.mem, failed := true, failed_reason := errno,
                      events := st.events ++ [Event.write (out 0 b) false],
                      nwrites := st.nwrites + 1 }, ?_, rfl, rfl⟩
    simp only [batchBody, hf, hb, hw, Bool.false_eq_true, if_false]

/-- C15 witness: a recorded write failure with `errno` 28 is reported as such even when
`close` fails too; without a recorded failure the close error is reported. -/
theorem post_region_outcome_witness :
    (postRegion false true 28 (some 5)).2 = Outcome.writeFailed 28 ∧
    (postRegion false false 0 (some 5)).2 = Outcome.closeFailed :=
  ⟨(post_region_outcome false true 28 (some 5)).2.1.mpr ⟨rfl, by decide⟩,
   (post_region_outcome false false 0 (some 5)).2.2.1.mpr ⟨rfl, rfl, rfl⟩⟩

/-- C16 (failing inputs): with the file opened successfully, (1) a table holding a column
of an unsupported type ends in the `error()` of the first pass and (2) a failed `malloc`
of the worker buffer ends in the OutOfMemory `error()` of line 649: in both runs `close`
is never called on the descriptor. -/
theorem close_missing_on_error_paths :
    (∃ events, writefile (constEnv 0 0) examplePlatform exampleSys
        ⟨⟨[Column.int none [1], Column.other 15 1], none⟩, [some [97], some [98]], exampleConfig,
          false, false, true⟩ = some (events, Outcome.unsupportedColumnKind) ∧
      events = [Event.open false] ∧ closeCount events = 0) ∧
    (∃ events, writefile (constEnv 0 0) examplePlatform { exampleSys with workerMalloc := false }
        ⟨⟨[Column.int none [1]], none⟩, [some [97]], exampleConfig, false, false, true⟩ =
        some (events, Outcome.outOfMemory) ∧
      events = [Event.open false, Event.write [97, 10] true] ∧ closeCount events = 0) :=
  ⟨⟨_, rfl, rfl, by decide⟩, ⟨_, rfl, rfl, by decide⟩⟩

/-! ## Unsupported column kinds -/

theorem firstPassLoop_other (cfg : Config) (cols : List Column) (st : FirstPass)
    (h : ∃ c ∈ cols, ∃ ty n, c = Column.other ty n) : firstPassLoop cfg cols st = none := by
  induction cols generalizing st with
  | nil => simp at h
  | cons c rest ih =>
    cases hsw : firstPassSwitch cfg c st with
    | none => simp [firstPassLoop, hsw]
    | some st1 =>
      simp only [firstPassLoop, hsw]
      apply ih
      obtain ⟨c', hc', ty, n, rfl⟩ := h
      rcases List.mem_cons.mp hc' with rfl | hc'
      · simp [firstPassSwitch] at hsw
      · exact ⟨_, hc', ty, n, rfl⟩

/-- C17 (amended): for every table with at least one column and columns of equal length
whose sink is the console or a successfully opened file, if some column has an
unsupported kind then `writefile` fails with UnsupportedColumnKind in the first pass
before any header or data byte has been written: the only event so far is the `open`
of the file, so in append mode the content of the file is as it was. -/
theorem unsupported_kind_before_output {F : Type} (env : FloatEnv F) (pf : Platform) (sys : Sys)
    (a : Args) (hne : a.t.cols.length ≠ 0)
    (hshape : a.t.cols.any (fun c => decide (c.length ≠ a.t.nrows)) = false)
    (hopen : a.filename_empty = true ∨ sys.openFd ≠ -1)
    (hother : ∃ c ∈ a.t.cols, ∃ ty n, c = Column.other ty n) :
    ∃ events, writefile env pf sys a = some (events, Outcome.unsupportedColumnKind) ∧
      events = (if a.filename_empty = true then [] else [Event.open a.append]) ∧
      sinkBytes events = [] ∧
      (a.append = true → ∀ content, fileAfter content events = content) := by
  have hfp : ∀ cfg, firstPass cfg a.t = none := fun cfg => firstPassLoop_other cfg _ _ hother
  have hop : ¬ (a.filename_empty = false ∧ sys.openFd = -1) := by
    rintro ⟨h1, h2⟩
    rcases hopen with h | h
    · rw [h1] at h; exact Bool.noConfusion h
    · exact h h2
  refine ⟨_, ?_, rfl, ?_, ?_⟩
  · simp only [writefile, if_neg hne, hshape, Bool.false_eq_true, if_false, if_neg hop, hfp]
  · split_ifs <;> rfl
  · intro happ content
    rw [happ]
    split_ifs <;> rfl

/-- C17 witness: a table with an integer column and a column of type 15, appended to an
opened file. -/
theorem unsupported_kind_before_output_witness :
    ∃ events, writefile (constEnv 0 0) examplePlatform exampleSys
        ⟨⟨[Column.int none [1], Column.other 15 1], none⟩, [some [97], some [98]], exampleConfig,
          false, true, true⟩ = some (events, Outcome.unsupportedColumnKind) ∧
      events = [Event.open true] ∧ sinkBytes events = [] ∧
      (true = true → ∀ content, fileAfter content events = content) :=
  unsupported_kind_before_output (constEnv 0 0) examplePlatform exampleSys
    ⟨⟨[Column.int none [1], Column.other 15 1], none⟩, [some [97], some [98]], exampleConfig,
      false, true, true⟩ (by decide) (by decide) (Or.inr (by decide))
    ⟨Column.other 15 1, by simp, 15, 1, rfl⟩

/-- C17 counterexample: (1) written to an existing file without `append`, a table with a
column of an unsupported kind makes `writefile` fail only after the file has been opened
with `O_TRUNC`: prior content `[1, 2, 3]` is gone; (2) when the columns also differ in
length, the failure reported is ShapeMismatch, not UnsupportedColumnKind. -/
theorem unsupported_kind_counterexample :
    (∃ events, writefile (constEnv 0 0) examplePlatform exampleSys
        ⟨⟨[Column.int none [1], Column.other 15 1], none⟩, [some [97], some [98]], exampleConfig,
          false, false, true⟩ = some (events, Outcome.unsupportedColumnKind) ∧
      fileAfter [1, 2, 3] events = [] ∧ fileAfter [1, 2, 3] events ≠ [1, 2, 3]) ∧
    writefile (constEnv 0 0) examplePlatform exampleSys
        ⟨⟨[Column.int none [1], Column.other 15 2], none⟩, [some [97], some [98]], exampleConfig,
          false, false, true⟩ = some ([], Outcome.shapeMismatch) :=
  ⟨⟨_, rfl, rfl, by decide⟩, rfl⟩

/-! ## The header buffer -/

/-- C18 (failing inputs): (1) one column named `a`, file sink, `row_sep = "<end-row>\n"`
(10 bytes): the header buffer is allocated with `bufSize = 10` and 11 bytes are written
into it; (2) one column whose name is `NA`, `na_str = "Not Available"`, `row_sep = "\n"`:
`bufSize = 12` and 14 bytes are written. -/
theorem header_exceeds_bufSize :
    (headerBufSize [some [97]] 1 = 10 ∧
      headerBytesUsed { exampleConfig with row_sep := [60, 101, 110, 100, 45, 114, 111, 119, 62, 10] }
        [some [97]] false (fun _ => 0) = 11) ∧
    (headerBufSize [none] 1 = 12 ∧
      headerBytesUsed
        { exampleConfig with na_str := [78, 111, 116, 32, 65, 118, 97, 105, 108, 97, 98, 108, 101] }
        [none] false (fun _ => 0) = 14) := by
  decide

/-! ## Batches -/

/-- C19 (failing input): a table of `N = 2147483647` rows with line bound `L = 8` (one
logical column). `rowsPerBatch` is 131072 and there are 16384 batches; the last one
starts at row `16383 * 131072 = 2147352576 < N`, where `start_row + rowsPerBatch` is
`2^31` and does not fit the `int upp`: `upp` becomes negative, is not clamped to `N`,
and the range of rows of this batch is empty instead of ending at `N`. -/
theorem batch_upp_overflow :
    rowsPerBatchOf 8 = 131072 ∧ numBatchesOf 2147483647 131072 = 16384 ∧
    16383 * 131072 = 2147352576 ∧ 2147352576 < 2147483647 ∧
    batchUpp 2147483647 131072 2147352576 = -2147483648 ∧
    (batchUpp 2147483647 131072 2147352576).toNat - 2147352576 = 0 ∧
    batchUpp 2147483647 131072 2147352576 ≠ min 2147483647 (2147352576 + 131072) := by
  decide

/-! ## Batches in row order -/

theorem writeBatchRows_eq_generalRows {F : Type} (env : FloatEnv F) (pf : Platform)
    (cfg : Config) (t : Table) (fp : FirstPass) (hfp : firstPass cfg t = some fp)
    (start_row upp : Nat) (b : Buf) :
    writeBatchRows env pf cfg t fp.sameType start_row upp b =
      generalRows env pf cfg t start_row upp b := by
  unfold writeBatchRows
  split_ifs with h1 h2
  · have hall : ∀ c ∈ t.cols, c.isPlainReal = true := by
      intro c hc
      obtain ⟨_, h2⟩ := firstPassLoop_sameType cfg _ _ fp hfp (by rw [h1.2.1]; decide)
      obtain ⟨a1, a2, _, a4⟩ := h2 c hc
      exact plainReal_of_typeof cfg c (by rw [a1, h1.2.1]) a2 a4
    exact forRows_congr _ _
      (fastRowReal_eq_generalRow env pf cfg t h1.1 (by simpa using h1.2.2) hall) _ _ _
  · have hall : ∀ c ∈ t.cols, c.isPlainInt = true := by
      intro c hc
      obtain ⟨_, h3⟩ := firstPassLoop_sameType cfg _ _ fp hfp (by rw [h2.2.1]; decide)
      obtain ⟨a1, _, a3, a4⟩ := h3 c hc
      exact plainInt_of_typeof cfg c (by rw [a1, h2.2.1]) a3 a4
    exact forRows_congr _ _
      (fastRowInt_eq_generalRow env pf cfg t h2.1 (by simpa using h2.2.2) hall) _ _ _
  · rfl

theorem rowFields_forall2 {F : Type} (env : FloatEnv F) (pf : Platform) (cfg : Config)
    (row_i : Nat) (cols : List Column) (fields : List (List Nat))
    (h : rowFields env pf cfg row_i cols = some fields) :
    List.Forall₂ (fun column f => cellBytes env pf cfg column row_i = some f) cols fields := by
  induction cols generalizing fields with
  | nil =>
    simp only [rowFields, Option.some.injEq] at h
    subst h
    exact List.Forall₂.nil
  | cons c rest ih =>
    simp only [rowFields] at h
    cases hc : cellBytes env pf cfg c row_i with
    | none => simp [hc] at h
    | some f =>
      cases hr : rowFields env pf cfg row_i rest with
      | none => simp [hc, hr] at h
      | some fs =>
        simp only [hc, hr, Option.some.injEq] at h
        subst h
        exact List.Forall₂.cons hc (ih fs hr)

theorem generalRow_of_rowBytes {F : Type} (env : FloatEnv F) (pf : Platform) (cfg : Config)
    (t : Table) (row_i : Nat) (r : List Nat) (b : Buf) (henv : SixteenDigits env)
    (hcols : t.cols ≠ []) (hr : rowBytes env pf cfg t row_i = some r) :
    ∃ b1, generalRow env pf cfg t row_i b = some b1 ∧ Appends b b1 r := by
  unfold rowBytes at hr
  cases hrn : (if cfg.row_names = true then rowNameField cfg t row_i else some []) with
  | none => simp [hrn] at hr
  | some rnf =>
    cases hfs : rowFields env pf cfg row_i t.cols with
    | none => simp [hrn, hfs] at hr
    | some fields =>
      simp only [hrn, hfs, Option.some.injEq] at hr
      subst hr
      refine generalRow_appends env pf cfg t row_i b rnf fields henv hcols ?_
        (rowFields_forall2 env pf cfg row_i t.cols fields hfs)
      intro hrow
      rw [if_pos hrow] at hrn
      exact hrn

theorem forRows_generalRow_appends {F : Type} (env : FloatEnv F) (pf : Platform) (cfg : Config)
    (t : Table) (rows : Nat → List Nat) (henv : SixteenDigits env) (hcols : t.cols ≠ [])
    (n start : Nat) (b : Buf)
    (hrows : ∀ i, start ≤ i → i < start + n → rowBytes env pf cfg t i = some (rows i)) :
    ∃ b1, forRows (generalRow env pf cfg t) n start b = some b1 ∧
      Appends b b1 ((List.range' start n).flatMap rows) := by
  induction n generalizing start b with
  | zero => exact ⟨b, rfl, by simpa using Appends.refl b⟩
  | succ n ih =>
    obtain ⟨b1, h1, a1⟩ := generalRow_of_rowBytes env pf cfg t start (rows start) b henv hcols
      (hrows start (le_refl _) (by omega))
    obtain ⟨b2, h2, a2⟩ := ih (start + 1) b1 (fun i hi1 hi2 => hrows i (by omega) (by omega))
    refine ⟨b2, by simp only [forRows, h1, h2], ?_⟩
    have := a1.trans a2
    simpa [List.range'_succ] using this

theorem batchUpp_eq (nrows rowsPerBatch start_row : Nat)
    (h : start_row + rowsPerBatch < 2 ^ 31) :
    batchUpp nrows rowsPerBatch start_row = ((min nrows (start_row + rowsPerBatch) : Nat) : Int) := by
  have hw : wrap32 ((start_row : Int) + (rowsPerBatch : Int)) = ((start_row + rowsPerBatch : Nat) : Int) := by
    unfold wrap32
    push_cast
    omega
  unfold batchUpp
  simp only [hw]
  split_ifs with hc
  · have : nrows ≤ start_row + rowsPerBatch := by omega
    rw [Nat.min_eq_left this]
  · have : start_row + rowsPerBatch ≤ nrows := by omega
    rw [Nat.min_eq_right this]

theorem sinkBytes_append (l1 l2 : List Event) :
    sinkBytes (l1 ++ l2) = sinkBytes l1 ++ sinkBytes l2 := by
  induction l1 with
  | nil => rfl
  | cons e rest ih =>
    cases e with
    | «open» a => simpa [sinkBytes] using ih
    | write bytes ok =>
      cases ok
      · simpa [sinkBytes] using ih
      · simp [sinkBytes, ih]
    | print bytes => simp [sinkBytes, ih]
    | close => simpa [sinkBytes] using ih

theorem batchBody_rows {F : Type} (env : FloatEnv F) (pf : Platform) (sys : Sys) (cfg : Config)
    (t : Table) (fp : FirstPass) (rows : Nat → List Nat) (console : Bool)
    (nrows rowsPerBatch start_row : Nat) (st : Region)
    (henv : SixteenDigits env) (hcols : t.cols ≠ []) (hfp : firstPass cfg t = some fp)
    (hrows : ∀ i, i < nrows → rowBytes env pf cfg t i = some (rows i))
    (hov : start_row + rowsPerBatch < 2 ^ 31) (hlt : start_row < nrows)
    (hw : ∀ k, sys.writeErrno k = none) (hst : st.failed = false) :
    ∃ st1, batchBody env pf sys cfg t fp.sameType console nrows rowsPerBatch start_row st =
        some st1 ∧ st1.failed = false ∧
      sinkBytes st1.events = sinkBytes st.events ++
        (List.range' start_row (min nrows (start_row + rowsPerBatch) - start_row)).flatMap rows := by
  have hupp : (batchUpp nrows rowsPerBatch start_row).toNat = min nrows (start_row + rowsPerBatch) := by
    rw [batchUpp_eq _ _ _ hov, Int.toNat_ofNat]
  obtain ⟨b, hb, ab⟩ := forRows_generalRow_appends env pf cfg t rows henv hcols
    (min nrows (start_row + rowsPerBatch) - start_row) start_row ⟨st.mem, 0⟩
    (fun i _ hi2 => hrows i (by omega))
  have hwb : writeBatchRows env pf cfg t fp.sameType start_row
      (batchUpp nrows rowsPerBatch start_row).toNat ⟨st.mem, 0⟩ = some b := by
    rw [writeBatchRows_eq_generalRows env pf cfg t fp hfp, hupp]
    exact hb
  have hout : out 0 b = (List.range' start_row
      (min nrows (start_row + rowsPerBatch) - start_row)).flatMap rows := ab.out_eq
  cases console with
  | true =>
    refine ⟨{ st with mem := (b.poke 0).mem,
                      events := st.events ++ [Event.print (out 0 b)] }, ?_, hst, ?_⟩
    · simp only [batchBody, hst, hwb, Bool.false_eq_true, if_false, if_true]
    · simp [sinkBytes_append, sinkBytes, hout]
  | false =>
    refine ⟨{ st with mem := b.mem, events := st.events ++ [Event.write (out 0 b) true],
                      nwrites := st.nwrites + 1 }, ?_, hst, ?_⟩
    · simp only [batchBody, hst, hwb, hw, Bool.false_eq_true, if_false]
    · simp [sinkBytes_append, sinkBytes, hout]

theorem batchLoop_rows {F : Type} (env : FloatEnv F) (pf : Platform) (sys : Sys) (cfg : Config)
    (t : Table) (fp : FirstPass) (rows : Nat → List Nat) (console : Bool)
    (nrows rowsPerBatch : Nat)
    (henv : SixteenDigits env) (hcols : t.cols ≠ []) (hfp : firstPass cfg t = some fp)
    (hrows : ∀ i, i < nrows → rowBytes env pf cfg t i = some (rows i))
    (hB : 1 ≤ rowsPerBatch) (hov : nrows + rowsPerBatch ≤ 2 ^ 31)
    (hw : ∀ k, sys.writeErrno k = none)
    (fuel start_row : Nat) (st : Region) (hfuel : nrows - start_row ≤ fuel)
    (hst : st.failed = false) :
    ∃ st1, batchLoop env pf sys cfg t fp.sameType console nrows rowsPerBatch fuel start_row st =
        some st1 ∧ st1.failed = false ∧
      sinkBytes st1.events = sinkBytes st.events ++
        (List.range' start_row (nrows - start_row)).flatMap rows := by
  induction fuel generalizing start_row st with
  | zero =>
    have : nrows - start_row = 0 := by omega
    exact ⟨st, rfl, hst, by simp [this]⟩
  | succ fuel ih =>
    unfold batchLoop
    by_cases hlt : start_row < nrows
    · rw [if_pos hlt]
      obtain ⟨st1, h1, f1, s1⟩ := batchBody_rows env pf sys cfg t fp rows console nrows
        rowsPerBatch start_row st henv hcols hfp hrows (by omega) hlt hw hst
      obtain ⟨st2, h2, f2, s2⟩ := ih (start_row + rowsPerBatch) st1 (by omega) f1
      refine ⟨st2, by simp only [h1, h2], f2, ?_⟩
      rw [s2, s1, List.append_assoc, ← List.flatMap_append]
      congr 2
      by_cases hle : start_row + rowsPerBatch ≤ nrows
      · rw [Nat.min_eq_right hle]
        have e0 : start_row + rowsPerBatch - start_row = rowsPerBatch := by omega
        rw [e0, List.range'_append_1]
        congr 1
        omega
      · have hle2 : nrows ≤ start_row + rowsPerBatch := by omega
        rw [Nat.min_eq_left hle2]
        have e : nrows - (start_row + rowsPerBatch) = 0 := by omega
        rw [e]
        simp
    · rw [if_neg hlt]
      have : nrows - start_row = 0 := by omega
      exact ⟨st, rfl, hst, by simp [this]⟩

/-- C11: for every table (of supported kinds, with at least one column, whose cells can
all be read) and every batch size `rowsPerBatch >= 1` (with `nrows + rowsPerBatch`
within the range of `int`), when no write fails: each batch, encoded from the start of
the reset buffer whatever the buffer held before, contributes exactly the encodings of
its rows `[start_row, min(nrows, start_row + rowsPerBatch))` in order, and the bytes
committed by the batch loop in ascending batch order are, after what the sink held
before, exactly the concatenation of the encodings of rows `0 .. nrows-1`: the data
stream does not depend on the batch size. -/
theorem batches_concatenate_rows {F : Type} (env : FloatEnv F) (pf : Platform) (sys : Sys)
    (cfg : Config) (t : Table) (fp : FirstPass) (rows : Nat → List Nat) (console : Bool)
    (rowsPerBatch : Nat) (st : Region)
    (henv : SixteenDigits env) (hcols : t.cols ≠ []) (hfp : firstPass cfg t = some fp)
    (hrows : ∀ i, i < t.nrows → rowBytes env pf cfg t i = some (rows i))
    (hB : 1 ≤ rowsPerBatch) (hov : t.nrows + rowsPerBatch ≤ 2 ^ 31)
    (hw : ∀ k, sys.writeErrno k = none) (hst : st.failed = false) :
    (∀ start_row, start_row < t.nrows →
      ∃ st1, batchBody env pf sys cfg t fp.sameType console t.nrows rowsPerBatch start_row st =
          some st1 ∧
        sinkBytes st1.events = sinkBytes st.events ++
          (List.range' start_row
            (min t.nrows (start_row + rowsPerBatch) - start_row)).flatMap rows) ∧
    (∃ st1, batchLoop env pf sys cfg t fp.sameType console t.nrows rowsPerBatch t.nrows 0 st =
        some st1 ∧
      sinkBytes st1.events = sinkBytes st.events ++ (List.range t.nrows).flatMap rows) := by
  refine ⟨?_, ?_⟩
  · intro start_row hlt
    obtain ⟨st1, h1, _, s1⟩ := batchBody_rows env pf sys cfg t fp rows console t.nrows
      rowsPerBatch start_row st henv hcols hfp hrows (by omega) hlt hw hst
    exact ⟨st1, h1, s1⟩
  · obtain ⟨st1, h1, _, s1⟩ := batchLoop_rows env pf sys cfg t fp rows console t.nrows
      rowsPerBatch henv hcols hfp hrows hB hov hw t.nrows 0 st (by omega) hst
    refine ⟨st1, h1, ?_⟩
    rw [s1, List.range_eq_range']
    simp

/-- C11 witness: the logical column `[TRUE, FALSE, NA]` written in batches of 2 rows and
in batches of 1 row commits the same bytes `TRUE\nFALSE\nNA\n`. -/
theorem batches_concatenate_rows_witness :
    (∃ st1, batchLoop (constEnv 3141600000000000 0) examplePlatform exampleSys exampleConfig
        ⟨[Column.lgl [1, 0, NA_INTEGER]], none⟩ LGLSXP false 3 2 3 0
        ⟨fun _ => 0, false, 0, [], 0⟩ = some st1 ∧
      sinkBytes st1.events = [84, 82, 85, 69, 10, 70, 65, 76, 83, 69, 10, 78, 65, 10]) ∧
    (∃ st1, batchLoop (constEnv 3141600000000000 0) examplePlatform exampleSys exampleConfig
        ⟨[Column.lgl [1, 0, NA_INTEGER]], none⟩ LGLSXP true 3 1 3 0
        ⟨fun _ => 0, false, 0, [], 0⟩ = some st1 ∧
      sinkBytes st1.events = [84, 82, 85, 69, 10, 70, 65, 76, 83, 69, 10, 78, 65, 10]) := by
  have hrows : ∀ i, i < (⟨[Column.lgl [1, 0, NA_INTEGER]], none⟩ : Table).nrows →
      rowBytes (constEnv 3141600000000000 0) examplePlatform exampleConfig
        ⟨[Column.lgl [1, 0, NA_INTEGER]], none⟩ i =
      some ((fun i => if i = 0 then [84, 82, 85, 69, 10] else if i = 1 then [70, 65, 76, 83, 69, 10]
        else [78, 65, 10]) i) := by
    intro i hi
    have hi3 : i < 3 := hi
    interval_cases i <;> rfl
  have h2 := (batches_concatenate_rows (constEnv 3141600000000000 0) examplePlatform exampleSys
    exampleConfig ⟨[Column.lgl [1, 0, NA_INTEGER]], none⟩ ⟨8, LGLSXP⟩ _ false 2
    ⟨fun _ => 0, false, 0, [], 0⟩ (constEnv_sixteenDigits _ _ (by decide) (by decide))
    (by simp) rfl hrows (by decide) (by decide) (fun _ => rfl) rfl).2
  have h1 := (batches_concatenate_rows (constEnv 3141600000000000 0) examplePlatform exampleSys
    exampleConfig ⟨[Column.lgl [1, 0, NA_INTEGER]], none⟩ ⟨8, LGLSXP⟩ _ true 1
    ⟨fun _ => 0, false, 0, [], 0⟩ (constEnv_sixteenDigits _ _ (by decide) (by decide))
    (by simp) rfl hrows (by decide) (by decide) (fun _ => rfl) rfl).2
  exact ⟨h2, h1⟩

theorem batchStarts_eq (nrows rowsPerBatch : Nat) (hB : 1 ≤ rowsPerBatch) (fuel s : Nat)
    (hfuel : nrows - s ≤ fuel) :
    batchStarts nrows rowsPerBatch fuel s =
      (List.range ((nrows - s + rowsPerBatch - 1) / rowsPerBatch)).map
        (fun j => s + j * rowsPerBatch) := by
  induction fuel generalizing s with
  | zero =>
    have h0 : nrows - s = 0 := by omega
    have : (nrows - s + rowsPerBatch - 1) / rowsPerBatch = 0 := by
      rw [h0]
      exact Nat.div_eq_of_lt (by omega)
    simp [batchStarts, this]
  | succ fuel ih =>
    unfold batchStarts
    by_cases hlt : s < nrows
    · rw [if_pos hlt, ih (s + rowsPerBatch) (by omega)]
      have hc : (nrows - s + rowsPerBatch - 1) / rowsPerBatch =
          (nrows - (s + rowsPerBatch) + rowsPerBatch - 1) / rowsPerBatch + 1 := by
        by_cases hle : s + rowsPerBatch ≤ nrows
        · have e : nrows - s + rowsPerBatch - 1 =
              (nrows - (s + rowsPerBatch) + rowsPerBatch - 1) + rowsPerBatch := by omega
          rw [e, Nat.add_div_right _ (by omega)]
        · have e1 : nrows - (s + rowsPerBatch) + rowsPerBatch - 1 = rowsPerBatch - 1 := by omega
          have e2 : nrows - s + rowsPerBatch - 1 = (nrows - s - 1) + rowsPerBatch := by omega
          have r : (nrows - (s + rowsPerBatch) + rowsPerBatch - 1) / rowsPerBatch = 0 := by
            rw [e1]
            exact Nat.div_eq_of_lt (by omega)
          have l : (nrows - s + rowsPerBatch - 1) / rowsPerBatch = 1 := by
            rw [e2, Nat.add_div_right _ (by omega), Nat.div_eq_of_lt (by omega)]
          rw [l, r]
      rw [hc, List.range_succ_eq_map]
      simp only [List.map_cons, List.map_map, Nat.zero_mul, Nat.add_zero]
      congr 1
      apply List.map_congr_left
      intro j _
      simp only [Function.comp, Nat.succ_eq_add_one]
      ring
    · rw [if_neg hlt]
      have h0 : nrows - s = 0 := by omega
      have : (nrows - s + rowsPerBatch - 1) / rowsPerBatch = 0 := by
        rw [h0]
        exact Nat.div_eq_of_lt (by omega)
      simp [this]

/-- Without overflow of `int` the batch arithmetic is as intended: `rowsPerBatch >= 1`,
`rowsPerBatch * lineLenMax <= bufSize = max(1 MiB, lineLenMax)`, `numBatches` is
`ceil(nrows / rowsPerBatch)`, the loop visits the start rows `0, B, 2B, ...`,
`numBatches` of them, and the rows of the batch starting at `k*B` are the non-empty
range `[k*B, min(nrows, (k+1)*B))`. -/
theorem batch_plan_no_overflow (nrows lineLenMax : Nat) (hN : 1 ≤ nrows) (hL : 1 ≤ lineLenMax) :
    1 ≤ rowsPerBatchOf lineLenMax ∧
    rowsPerBatchOf lineLenMax * lineLenMax ≤ bufSizeOf lineLenMax ∧
    bufSizeOf lineLenMax = max (1024 * 1024) lineLenMax ∧
    numBatchesOf nrows (rowsPerBatchOf lineLenMax) =
      (nrows + rowsPerBatchOf lineLenMax - 1) / rowsPerBatchOf lineLenMax ∧
    batchStarts nrows (rowsPerBatchOf lineLenMax) nrows 0 =
      (List.range (numBatchesOf nrows (rowsPerBatchOf lineLenMax))).map
        (fun k => k * rowsPerBatchOf lineLenMax) ∧
    (nrows + rowsPerBatchOf lineLenMax ≤ 2 ^ 31 →
      ∀ k, k < numBatchesOf nrows (rowsPerBatchOf lineLenMax) →
        k * rowsPerBatchOf lineLenMax < nrows ∧
        batchUpp nrows (rowsPerBatchOf lineLenMax) (k * rowsPerBatchOf lineLenMax) =
          ((min nrows ((k + 1) * rowsPerBatchOf lineLenMax) : Nat) : Int) ∧
        k * rowsPerBatchOf lineLenMax < min nrows ((k + 1) * rowsPerBatchOf lineLenMax)) := by
  have hbuf : lineLenMax ≤ bufSizeOf lineLenMax := by
    unfold bufSizeOf; split_ifs <;> omega
  have hB : 1 ≤ rowsPerBatchOf lineLenMax := by
    unfold rowsPerBatchOf
    exact (Nat.one_le_div_iff (by omega)).mpr hbuf
  have hnb : numBatchesOf nrows (rowsPerBatchOf lineLenMax) =
      (nrows + rowsPerBatchOf lineLenMax - 1) / rowsPerBatchOf lineLenMax := by
    unfold numBatchesOf
    have e : nrows + rowsPerBatchOf lineLenMax - 1 = (nrows - 1) + rowsPerBatchOf lineLenMax := by
      omega
    rw [e, Nat.add_div_right _ (by omega)]
  refine ⟨hB, Nat.div_mul_le_self _ _, ?_, hnb, ?_, ?_⟩
  · unfold bufSizeOf
    split_ifs with h
    · rw [Nat.max_eq_right (by omega)]
    · rw [Nat.max_eq_left (by omega)]
  · rw [batchStarts_eq _ _ hB _ _ (by omega), hnb]
    simp
  · intro hov k hk
    generalize rowsPerBatchOf lineLenMax = B at *
    have hkB : k * B < nrows := by
      unfold numBatchesOf at hk
      have h1 : k ≤ (nrows - 1) / B := by omega
      have h2 : k * B ≤ nrows - 1 := (Nat.le_div_iff_mul_le (by omega)).mp h1
      omega
    refine ⟨hkB, ?_, ?_⟩
    · rw [batchUpp_eq _ _ _ (by omega)]
      congr 2
      ring
    · have : (k + 1) * B = k * B + B := by ring
      rw [this]
      omega

/-! ## Threads -/

theorem writeCell_lgl_eq {F : Type} (env : FloatEnv F) (pf : Platform) (cfg : Config)
    (v : List Int) (row_i : Nat) (x : Int) (b : Buf) (hx : v[row_i]? = some x) :
    writeCell env pf cfg (Column.lgl v) row_i b = some (lglEmit cfg x b) := by
  simp only [writeCell, hx, lglEmit]
  split_ifs <;> rfl

/-- C12 (failing execution): two threads encode the logical cells `TRUE` (thread A) and
`FALSE` (thread B) of their batches, each into its own buffer. When each thread's store
to the shared `true_false` is followed by its own tests, A writes `TRUE` and B writes
`FALSE`, as a single thread does. In the interleaving store A, store B, tests A,
tests B - possible with two threads - thread A writes `FALSE` for its `TRUE` cell, so
the committed stream differs from the single-threaded one. -/
theorem shared_true_false_race :
    (out 0 (runWorkers exampleConfig 1 0
        [WorkerStep.storeA, WorkerStep.emitA, WorkerStep.storeB, WorkerStep.emitB]
        ⟨0, emptyBuf, emptyBuf⟩).bufA = [84, 82, 85, 69] ∧
     out 0 (runWorkers exampleConfig 1 0
        [WorkerStep.storeA, WorkerStep.emitA, WorkerStep.storeB, WorkerStep.emitB]
        ⟨0, emptyBuf, emptyBuf⟩).bufB = [70, 65, 76, 83, 69]) ∧
    (out 0 (runWorkers exampleConfig 1 0
        [WorkerStep.storeA, WorkerStep.storeB, WorkerStep.emitA, WorkerStep.emitB]
        ⟨0, emptyBuf, emptyBuf⟩).bufA = [70, 65, 76, 83, 69] ∧
     out 0 (runWorkers exampleConfig 1 0
        [WorkerStep.storeA, WorkerStep.storeB, WorkerStep.emitA, WorkerStep.emitB]
        ⟨0, emptyBuf, emptyBuf⟩).bufB = [70, 65, 76, 83, 69]) := by
  decide

/-! ## Rounding and trailing zeros -/

theorem stripZeros_full (fuel l : Nat) (tz : Int) (hl : 0 < l) (hf : l ≤ fuel) :
    (stripZeros fuel l tz).1 % 10 ≠ 0 := by
  induction fuel generalizing l tz with
  | zero => omega
  | succ fuel ih =>
    unfold stripZeros
    by_cases h : l % 10 = 0
    · rw [if_pos h]
      exact ih (l / 10) (tz + 1) (by omega) (by omega)
    · rw [if_neg h]
      exact h

theorem roundLast_eq (l0 : Nat) (h2 : l0 < 10 ^ 16) :
    roundLast l0 = l0 / 10 + (if l0 % 10 ≥ 5 then 1 else 0) := by
  unfold roundLast
  split_ifs with h
  · rw [Nat.mod_eq_of_lt (by omega)]
    omega
  · omega

theorem numLayout_digits (l0 : Nat) (exp : Int) (h1 : 10 ^ 15 ≤ l0) (h2 : l0 < 10 ^ 16) :
    ∃ k : Nat, k ≤ 15 ∧ (numLayout (roundLast l0) exp).l * 10 ^ k = roundLast l0 ∧
      (numLayout (roundLast l0) exp).l % 10 ≠ 0 ∧
      (numLayout (roundLast l0) exp).sf = (if k = 15 then 1 else 15 - (k : Int)) ∧
      (numLayout (roundLast l0) exp).exp = (if k = 15 then exp + 1 else exp) ∧
      10 ^ 14 ≤ roundLast l0 ∧ roundLast l0 ≤ 10 ^ 15 := by
  have hr := roundLast_eq l0 h2
  have hr1 : 10 ^ 14 ≤ roundLast l0 := by
    rw [hr]; split_ifs <;> omega
  have hr2 : roundLast l0 ≤ 10 ^ 15 := by
    rw [hr]; split_ifs <;> omega
  have hpos : 0 < roundLast l0 := by omega
  obtain ⟨k, hk1, hk2⟩ := stripZeros_spec (roundLast l0) (roundLast l0) 0 hpos
  have hfull := stripZeros_full (roundLast l0) (roundLast l0) 0 hpos (le_refl _)
  have hlpos : 0 < (stripZeros (roundLast l0) (roundLast l0) 0).1 := by omega
  have hk : k ≤ 15 := by
    by_contra hc
    have h16 : 16 ≤ k := by omega
    have : 10 ^ 16 ≤ 10 ^ k := Nat.pow_le_pow_right (by norm_num) h16
    have : 10 ^ k ≤ roundLast l0 := by
      calc 10 ^ k = 1 * 10 ^ k := by ring
        _ ≤ (stripZeros (roundLast l0) (roundLast l0) 0).1 * 10 ^ k :=
          Nat.mul_le_mul_right _ hlpos
        _ = roundLast l0 := hk2
    omega
  refine ⟨k, hk, by simpa [numLayout] using hk2, by simpa [numLayout] using hfull, ?_, ?_,
    hr1, hr2⟩
  · simp only [numLayout, hk1, NUM_SF, zero_add, Nat.cast_ofNat]
    split_ifs <;> omega
  · simp only [numLayout, hk1, NUM_SF, zero_add, Nat.cast_ofNat]
    split_ifs <;> omega

theorem numLayout_significand (l0 : Nat) (exp : Int) (h1 : 10 ^ 15 ≤ l0) (h2 : l0 < 10 ^ 16) :
    1 ≤ (numLayout (roundLast l0) exp).sf ∧ (numLayout (roundLast l0) exp).sf ≤ 15 ∧
    10 ^ ((numLayout (roundLast l0) exp).sf.toNat - 1) ≤ (numLayout (roundLast l0) exp).l ∧
    (numLayout (roundLast l0) exp).l < 10 ^ (numLayout (roundLast l0) exp).sf.toNat ∧
    (numLayout (roundLast l0) exp).l % 10 ≠ 0 ∧
    ((numLayout (roundLast l0) exp).l : ℚ) *
        (10 : ℚ) ^ ((numLayout (roundLast l0) exp).exp - (numLayout (roundLast l0) exp).sf + 1) =
      (roundLast l0 : ℚ) * (10 : ℚ) ^ (exp - 14) ∧
    (roundLast l0 = 10 ^ 15 →
      (numLayout (roundLast l0) exp).l = 1 ∧ (numLayout (roundLast l0) exp).sf = 1 ∧
        (numLayout (roundLast l0) exp).exp = exp + 1) := by
  obtain ⟨k, hk, hmul, hmod, hsf, hexp, hr1, hr2⟩ := numLayout_digits l0 exp h1 h2
  generalize (numLayout (roundLast l0) exp).l = l at hmul hmod ⊢
  generalize (numLayout (roundLast l0) exp).sf = sf at hsf ⊢
  generalize (numLayout (roundLast l0) exp).exp = e at hexp ⊢
  generalize roundLast l0 = r at hmul hr1 hr2 ⊢
  have hq : (l : ℚ) * (10 : ℚ) ^ (e - sf + 1) = (r : ℚ) * (10 : ℚ) ^ (exp - 14) := by
    have he : e - sf + 1 = (exp - 14) + (k : Int) := by
      rw [hsf, hexp]; split_ifs <;> omega
    rw [he, zpow_add₀ (by norm_num), zpow_natCast, ← hmul]
    push_cast
    ring
  refine ⟨?_, ?_, ?_, ?_, hmod, hq, ?_⟩
  · rw [hsf]; split_ifs <;> omega
  · rw [hsf]; split_ifs <;> omega
  · rw [hsf]
    interval_cases k <;> simp at hmul ⊢ <;> omega
  · rw [hsf]
    interval_cases k <;> simp at hmul ⊢ <;> omega
  · intro h15
    subst h15
    have hk15 : k = 15 := by
      interval_cases k <;> simp at hmul <;> omega
    subst hk15
    refine ⟨?_, by rw [hsf]; simp, by rw [hexp]; simp⟩
    simp at hmul
    omega

/-- C22: for every 16-digit integer `l0` in `[10^15, 10^16)` and every exponent `exp`,
lines 152-162 (round half-up on the 16th digit, divide by 10, strip trailing zeros,
renormalise on carry) give `r = floor(l0/10) + (1 if l0 mod 10 >= 5 else 0)`, which is
not zero, so the `l == 0` branch is not taken and the field is written by the decimal
or the scientific branch from `l`, `sf`, `exp'`; `1 <= sf <= 15`; `l` has exactly `sf`
decimal digits and is not divisible by 10; `l * 10^(exp' - sf + 1) = r * 10^(exp - 14)`
(in the rationals); and when `r = 10^15` the result is `l = 1`, `sf = 1`,
`exp' = exp + 1`. -/
theorem round_and_strip (l0 : Nat) (exp : Int) (h1 : 10 ^ 15 ≤ l0) (h2 : l0 < 10 ^ 16) :
    roundLast l0 = l0 / 10 + (if l0 % 10 ≥ 5 then 1 else 0) ∧
    roundLast l0 ≠ 0 ∧
    (∀ (dec_sep : Nat) (b : Buf), writeNumericDigits dec_sep l0 exp b =
      if (numLayout (roundLast l0) exp).decimal = true then
        writeDecimal dec_sep (numLayout (roundLast l0) exp).l (numLayout (roundLast l0) exp).sf
          (numLayout (roundLast l0) exp).dr (numLayout (roundLast l0) exp).dl0
          (numLayout (roundLast l0) exp).width b
      else
        writeScientific dec_sep (numLayout (roundLast l0) exp).l
          (numLayout (roundLast l0) exp).sf (numLayout (roundLast l0) exp).exp b) ∧
    1 ≤ (numLayout (roundLast l0) exp).sf ∧ (numLayout (roundLast l0) exp).sf ≤ 15 ∧
    10 ^ ((numLayout (roundLast l0) exp).sf.toNat - 1) ≤ (numLayout (roundLast l0) exp).l ∧
    (numLayout (roundLast l0) exp).l < 10 ^ (numLayout (roundLast l0) exp).sf.toNat ∧
    (numLayout (roundLast l0) exp).l % 10 ≠ 0 ∧
    ((numLayout (roundLast l0) exp).l : ℚ) *
        (10 : ℚ) ^ ((numLayout (roundLast l0) exp).exp - (numLayout (roundLast l0) exp).sf + 1) =
      (roundLast l0 : ℚ) * (10 : ℚ) ^ (exp - 14) ∧
    (roundLast l0 = 10 ^ 15 →
      (numLayout (roundLast l0) exp).l = 1 ∧ (numLayout (roundLast l0) exp).sf = 1 ∧
        (numLayout (roundLast l0) exp).exp = exp + 1) := by
  have h0 : roundLast l0 ≠ 0 := by
    have := (roundLast_bounds l0 (by unfold SIZE_SF; omega) (by unfold SIZE_SF; omega)).1
    omega
  refine ⟨roundLast_eq l0 h2, h0, ?_, numLayout_significand l0 exp h1 h2⟩
  intro dec_sep b
  simp only [writeNumericDigits, if_neg h0]

/-- C22 witness: `l0 = 3046000000000004` (the double 30460, `exp = 4`) rounds to
`304600000000000` and strips to `l = 3046`, `sf = 4`, `exp' = 4`; and
`l0 = 9999999999999995` with `exp = 2` carries to `10^15`, giving `l = 1`, `sf = 1`,
`exp' = 3`. -/
theorem round_and_strip_witness :
    roundLast 3046000000000004 = 304600000000000 ∧
    (numLayout (roundLast 3046000000000004) 4).l = 3046 ∧
    (numLayout (roundLast 3046000000000004) 4).sf = 4 ∧
    (numLayout (roundLast 3046000000000004) 4).exp = 4 ∧
    roundLast 9999999999999995 = 10 ^ 15 ∧
    ((numLayout (roundLast 9999999999999995) 2).l = 1 ∧
      (numLayout (roundLast 9999999999999995) 2).sf = 1 ∧
      (numLayout (roundLast 9999999999999995) 2).exp = 2 + 1) :=
  ⟨by decide, by decide, by decide, by decide, by decide,
    (round_and_strip 9999999999999995 2 (by decide) (by decide)).2.2.2.2.2.2.2.2.2
      (by decide)⟩

/-! ## The decimal form -/

theorem lowDigits_split (l a k : Nat) :
    lowDigits l (a + k) = lowDigits (l / 10 ^ k) a ++ lowDigits l k := by
  induction k generalizing l with
  | zero => simp [lowDigits]
  | succ k ih =>
    rw [← Nat.add_assoc, lowDigits, ih (l / 10), lowDigits, List.append_assoc,
      Nat.div_div_eq_div_mul, pow_succ, Nat.mul_comm]

theorem decimalBytes_eq_positional (dec_sep l sf : Nat) (exp : Int)
    (hl1 : 10 ^ (sf - 1) ≤ l) (hl2 : l < 10 ^ sf) :
    decimalBytes dec_sep l sf (decimalLayout sf exp).1 (decimalLayout sf exp).2.1 =
      positionalBytes dec_sep l sf exp := by
  have hd : lowDigits l sf = digitChars l := lowDigits_eq_digitChars sf l hl2 (fun _ => hl1)
  unfold decimalLayout positionalBytes decimalBytes
  simp only
  by_cases hA : (sf : Int) - exp - 1 ≤ 0
  · have hA2 : (sf : Int) - 1 ≤ exp := by omega
    rw [if_pos hA, if_pos hA2]
    have e : (-((sf : Int) - exp - 1)).toNat = (exp - ((sf : Int) - 1)).toNat := by congr 1; ring
    rw [e]
    simp [hd]
  · have hA2 : ¬ ((sf : Int) - 1 ≤ exp) := by omega
    rw [if_neg hA, if_neg hA2]
    by_cases hB : (sf : Int) > (sf : Int) - exp - 1
    · have hB2 : 0 ≤ exp := by omega
      rw [if_pos hB, if_pos hB2]
      obtain ⟨n, hn⟩ : ∃ n : Nat, exp = n := ⟨exp.toNat, by omega⟩
      subst hn
      obtain ⟨d, hd2⟩ : ∃ d : Nat, sf = (n + 1) + d := ⟨sf - (n + 1), by omega⟩
      have hd0 : d ≠ 0 := by omega
      have e1 : ((sf : Int) - (n : Int) - 1) = (d : Int) := by omega
      have hsplit : digitChars l = lowDigits (l / 10 ^ d) (n + 1) ++ lowDigits l d := by
        rw [← hd, hd2, lowDigits_split]
      have hne : ¬ ((d : Int) = 0) := by omega
      have hmin : min d sf = d := by omega
      have hsub : sf - d = n + 1 := by omega
      simp only [e1, hne, ne_eq, not_false_eq_true, if_true, Int.toNat_ofNat, hmin, hsub,
        Nat.sub_self, List.replicate_zero, List.nil_append, List.append_nil]
      rw [hsplit]
      have hlen : (lowDigits (l / 10 ^ d) (n + 1)).length = n + 1 := lowDigits_length _ _
      rw [List.take_left' hlen, List.drop_left' hlen]
      simp
    · have hB2 : ¬ (0 ≤ exp) := by omega
      rw [if_neg hB, if_neg hB2]
      obtain ⟨m, hm⟩ : ∃ m : Nat, exp = -((m : Int) + 1) := ⟨(-exp).toNat - 1, by omega⟩
      subst hm
      have e1 : ((sf : Int) - (-((m : Int) + 1)) - 1) = ((sf + m : Nat) : Int) := by
        push_cast; ring
      have hne : ¬ (((sf + m : Nat) : Int) = 0) := by omega
      have hmin : min (sf + m) sf = sf := by omega
      have e2 : (-(-((m : Int) + 1))).toNat - 1 = m := by omega
      simp only [e1, hne, ne_eq, not_false_eq_true, if_true, Int.toNat_ofNat, hmin,
        Nat.sub_self, lowDigits, List.nil_append, e2, hd]
      have e3 : sf + m - sf = m := by omega
      rw [e3]
      simp [List.replicate]

/-- C21: whenever `writeNumeric` chooses the decimal form (second part: that is when
the rounded integer is not zero and the test of line 178 holds, and then `dr`, `dl0`,
`width` are those of lines 167-174), for a significand `l` of `sf >= 1` digits and an
exponent `exp` it writes exactly `width` bytes, the plain positional decimal expansion
of `l * 10^(exp - sf + 1)` with `dec_sep` as the decimal point: all `sf` digits of
`l` in order; followed by `exp - (sf - 1)` zeros and no `dec_sep` when `exp >= sf - 1`;
with `dec_sep` after the first `exp + 1` digits when `0 <= exp < sf - 1`; preceded by
a single `"0"`, `dec_sep` and `-exp - 1` zeros when `exp < 0`. The bytes before the
cursor are unchanged and the cursor ends immediately after the last byte written. -/
theorem decimal_form_text (dec_sep : Nat) (b : Buf) :
    (∀ (l sf : Nat) (exp : Int), 1 ≤ sf → 10 ^ (sf - 1) ≤ l → l < 10 ^ sf →
      Appends b
        (writeDecimal dec_sep l sf (decimalLayout sf exp).1 (decimalLayout sf exp).2.1
          (decimalLayout sf exp).2.2 b)
        (positionalBytes dec_sep l sf exp) ∧
      ((positionalBytes dec_sep l sf exp).length : Int) = (decimalLayout sf exp).2.2) ∧
    (∀ (l0 : Nat) (exp0 : Int), roundLast l0 ≠ 0 →
      (numLayout (roundLast l0) exp0).decimal = true →
      writeNumericDigits dec_sep l0 exp0 b =
        writeDecimal dec_sep (numLayout (roundLast l0) exp0).l
          (numLayout (roundLast l0) exp0).sf
          (decimalLayout (numLayout (roundLast l0) exp0).sf (numLayout (roundLast l0) exp0).exp).1
          (decimalLayout (numLayout (roundLast l0) exp0).sf
            (numLayout (roundLast l0) exp0).exp).2.1
          (decimalLayout (numLayout (roundLast l0) exp0).sf
            (numLayout (roundLast l0) exp0).exp).2.2 b) := by
  refine ⟨?_, ?_⟩
  · intro l sf exp hsf hl1 hl2
    obtain ⟨h1, h2⟩ := decimalLayout_ok dec_sep l sf exp (by omega)
    rw [← decimalBytes_eq_positional dec_sep l sf exp hl1 hl2]
    exact ⟨writeDecimal_appends _ _ _ _ _ _ b (by omega) h1 h2, h2.symm⟩
  · intro l0 exp0 h0 hd
    rw [← numLayout_eq_decimalLayout]
    simp [writeNumericDigits, h0, hd]

/-- C21 witness: significand 3046 (4 digits) with exponent 4 is written `30460`,
significand 72 with exponent -3 is written `0.0072`, and significand 31416 with
exponent 0 is written `3.1416`. -/
theorem decimal_form_text_witness :
    out emptyBuf.ch (writeDecimal 46 3046 ((4 : Nat) : Int) (decimalLayout ((4 : Nat) : Int) 4).1
      (decimalLayout ((4 : Nat) : Int) 4).2.1 (decimalLayout ((4 : Nat) : Int) 4).2.2 emptyBuf) =
      [51, 48, 52, 54, 48] ∧
    out emptyBuf.ch (writeDecimal 46 72 ((2 : Nat) : Int) (decimalLayout ((2 : Nat) : Int) (-3)).1
      (decimalLayout ((2 : Nat) : Int) (-3)).2.1 (decimalLayout ((2 : Nat) : Int) (-3)).2.2
      emptyBuf) = [48, 46, 48, 48, 55, 50] ∧
    out emptyBuf.ch (writeDecimal 46 31416 ((5 : Nat) : Int) (decimalLayout ((5 : Nat) : Int) 0).1
      (decimalLayout ((5 : Nat) : Int) 0).2.1 (decimalLayout ((5 : Nat) : Int) 0).2.2
      emptyBuf) = [51, 46, 49, 52, 49, 54] := by
  have h1 := ((decimal_form_text 46 emptyBuf).1 3046 4 4 (by decide) (by decide)
    (by decide)).1.out_eq
  have h2 := ((decimal_form_text 46 emptyBuf).1 72 2 (-3) (by decide) (by decide)
    (by decide)).1.out_eq
  have h3 := ((decimal_form_text 46 emptyBuf).1 31416 5 0 (by decide) (by decide)
    (by decide)).1.out_eq
  refine ⟨?_, ?_, ?_⟩
  · rw [h1]; simp [positionalBytes, digitChars]
  · rw [h2]; simp [positionalBytes, digitChars]
  · rw [h3]; simp [positionalBytes, digitChars]

/-! ## Widths of the numeric fields -/

theorem digits_length_le (n k : Nat) (h : n < 10 ^ k) : (Nat.digits 10 n).length ≤ k := by
  by_cases hn : n = 0
  · subst hn; simp
  · have h1 := Nat.base_pow_length_digits_le 10 n (by norm_num) hn
    by_contra hc
    have h2 : 10 ^ (k + 1) ≤ 10 ^ (Nat.digits 10 n).length :=
      Nat.pow_le_pow_right (by norm_num) (by omega)
    rw [pow_succ] at h2
    omega

theorem integerBytes_length_le (x : Int) (k : Nat) (h1 : -(10 ^ k : Int) < x)
    (h2 : x < 10 ^ k) (h4 : -2 ^ 63 < x) (h5 : x < 2 ^ 63) : (integerBytes x).length ≤ k + 1 := by
  rw [integerBytes_eq_decimalRepr x h4 h5]
  unfold decimalRepr
  have hd : (Nat.digits 10 x.natAbs).length ≤ k := by
    apply digits_length_le
    have : ((x.natAbs : Nat) : Int) < (10 : Int) ^ k := by omega
    exact_mod_cast this
  split_ifs <;> simp <;> omega

theorem integerBytes_llong_min : integerBytes (-2 ^ 63) = [45] := by
  simp [integerBytes, wrap64]

theorem numLayout_sf_le (l2 : Nat) (exp0 : Int) (h1 : 0 < l2) : (numLayout l2 exp0).sf ≤ 15 := by
  obtain ⟨k, hk1, -⟩ := stripZeros_spec l2 l2 0 h1
  simp only [numLayout, hk1, NUM_SF, zero_add, Nat.cast_ofNat]
  split_ifs <;> omega

theorem sciCost_le (sf exp : Int) (h : sf ≤ 15) : sciCost sf exp ≤ 21 := by
  unfold sciCost
  split_ifs <;> omega

theorem numericDigitsBytes_length_le (dec_sep l0 : Nat) (exp0 : Int)
    (h1 : 0 < roundLast l0) (h2 : roundLast l0 < 10 ^ 16) :
    (numericDigitsBytes dec_sep l0 exp0).length ≤ 21 := by
  obtain ⟨a1, a2, a3⟩ := numLayout_ok dec_sep (roundLast l0) exp0 h1 h2
  have hsf := numLayout_sf_le (roundLast l0) exp0 h1
  have hc := sciCost_le (numLayout (roundLast l0) exp0).sf (numLayout (roundLast l0) exp0).exp hsf
  unfold numericDigitsBytes
  simp only [if_neg (Nat.pos_iff_ne_zero.mp h1)]
  split_ifs with hd
  · have hw : (numLayout (roundLast l0) exp0).width ≤
        sciCost (numLayout (roundLast l0) exp0).sf (numLayout (roundLast l0) exp0).exp := by
      simpa [NumLayout.decimal, sciCost] using hd
    omega
  · have := scientificBytes_length dec_sep (numLayout (roundLast l0) exp0).l
      (numLayout (roundLast l0) exp0).sf (numLayout (roundLast l0) exp0).exp a1
    omega

theorem numericBytes_length_le {F : Type} (env : FloatEnv F) (cfg : Config) (x : Nat)
    (henv : SixteenDigits env) (hf : R_FINITE x = true) :
    (numericBytes env cfg x).length ≤ 22 := by
  unfold numericBytes
  simp only [hf, Bool.not_true, Bool.false_eq_true, if_false]
  split_ifs with hz hneg
  · simp
  · obtain ⟨r1, r2⟩ := henv (dblNeg x)
    obtain ⟨q1, q2⟩ := roundLast_bounds _ r1 r2
    have := numericDigitsBytes_length_le cfg.dec_sep (mantissaExp env (dblNeg x)).1
      (mantissaExp env (dblNeg x)).2 q1 q2
    simp only [List.length_append, List.length_cons, List.length_nil]
    omega
  · obtain ⟨r1, r2⟩ := henv x
    obtain ⟨q1, q2⟩ := roundLast_bounds _ r1 r2
    have := numericDigitsBytes_length_le cfg.dec_sep (mantissaExp env x).1
      (mantissaExp env x).2 q1 q2
    simp only [List.length_append, List.length_nil]
    omega

/-- C24: the fixed widths of the line bound cover every non-missing numeric field.
`writeInteger` writes at most 11 bytes for every INT32 value other than `NA_INTEGER`
and at most 20 bytes for every INT64 value other than `-2^63` (the sentinel);
`writeNumeric` writes at most 22 bytes, sign included, for every finite double (the
integer `l` having 16 digits, so that `1 <= sf <= 15`; the exponent takes at most 3
digits). The first pass adds 11 to the line bound for an INT32 column and 25 for a
DOUBLE or INT64 column, so none of these fields exceeds the width added for its
column. -/
theorem numeric_field_widths :
    (∀ (x : Int) (b : Buf), x ≠ NA_INTEGER → -2 ^ 31 ≤ x → x < 2 ^ 31 →
      Appends b (writeInteger x b) (integerBytes x) ∧ (integerBytes x).length ≤ 11) ∧
    (∀ (x : Int) (b : Buf), -2 ^ 63 < x → x < 2 ^ 63 →
      Appends b (writeInteger x b) (integerBytes x) ∧ (integerBytes x).length ≤ 20) ∧
    (∀ {F : Type} (env : FloatEnv F) (cfg : Config) (x : Nat) (b : Buf),
      SixteenDigits env → R_FINITE x = true →
      Appends b (writeNumeric env cfg x b) (numericBytes env cfg x) ∧
        (numericBytes env cfg x).length ≤ 22) ∧
    (∀ (cfg : Config) (v : List Int) (st : FirstPass),
      firstPassSwitch cfg (Column.int none v) st = some ⟨st.lineLenMax + 11, st.sameType⟩) ∧
    (∀ (cfg : Config) (i64 : Bool) (v : List Nat) (st : FirstPass),
      firstPassSwitch cfg (Column.real i64 v) st = some ⟨st.lineLenMax + 25, st.sameType⟩) := by
  refine ⟨?_, ?_, ?_, fun _ _ _ => rfl, fun _ _ _ _ => rfl⟩
  · intro x b hna h1 h2
    unfold NA_INTEGER at hna
    exact ⟨writeInteger_appends_general x b,
      integerBytes_length_le x 10 (by norm_num; omega) (by norm_num; omega) (by omega) (by omega)⟩
  · intro x b h1 h2
    exact ⟨writeInteger_appends_general x b,
      integerBytes_length_le x 19 (by norm_num; omega) (by norm_num; omega) h1 h2⟩
  · intro F env cfg x b henv hf
    exact ⟨writeNumeric_appends env cfg x b henv, numericBytes_length_le env cfg x henv hf⟩

/-- C24 witness: `-2147483647` takes 11 bytes, `-9223372036854775807` takes 20 bytes,
and the negative double whose 16-digit integer is `1234567890123454` with decimal
exponent `-123` takes 22 bytes (`-1.23456789012345e-123`). -/
theorem numeric_field_widths_witness :
    out 0 (writeInteger (-2147483647) emptyBuf) =
      [45, 50, 49, 52, 55, 52, 56, 51, 54, 52, 55] ∧
    (Appends emptyBuf (writeInteger (-2147483647) emptyBuf) (integerBytes (-2147483647)) ∧
      (integerBytes (-2147483647)).length ≤ 11) ∧
    (writeInteger (-9223372036854775807) emptyBuf).ch = 20 ∧
    (Appends emptyBuf (writeInteger (-9223372036854775807) emptyBuf)
        (integerBytes (-9223372036854775807)) ∧
      (integerBytes (-9223372036854775807)).length ≤ 20) ∧
    out 0 (writeNumeric (constEnv 1234567890123454 (-123)) exampleConfig 13830554455654793216
        emptyBuf) =
      [45, 49, 46, 50, 51, 52, 53, 54, 55, 56, 57, 48, 49, 50, 51, 52, 53, 101, 45, 49, 50, 51] ∧
    (Appends emptyBuf
        (writeNumeric (constEnv 1234567890123454 (-123)) exampleConfig 13830554455654793216
          emptyBuf)
        (numericBytes (constEnv 1234567890123454 (-123)) exampleConfig 13830554455654793216) ∧
      (numericBytes (constEnv 1234567890123454 (-123)) exampleConfig
        13830554455654793216).length ≤ 22) :=
  ⟨by decide, numeric_field_widths.1 (-2147483647) emptyBuf (by decide) (by decide) (by decide),
    by decide,
    numeric_field_widths.2.1 (-9223372036854775807) emptyBuf (by decide) (by decide),
    by decide,
    numeric_field_widths.2.2.1 (constEnv 1234567890123454 (-123)) exampleConfig
      13830554455654793216 emptyBuf
      (constEnv_sixteenDigits 1234567890123454 (-123) (by decide) (by decide)) (by decide)⟩

/-! ## The accumulation loop -/

theorem sumSigparts_trace {F : Type} (env : FloatEnv F) (fuel g : Nat) (i : Int) (acc : F) :
    sumSigparts env fuel g i acc =
      (sumSigparts traceEnv fuel g i []).foldl (fun a idx => env.add a (env.sigparts idx)) acc := by
  have key : ∀ (fuel g : Nat) (i : Int) (acc : F) (tr : List Nat),
      sumSigparts env fuel g i
          (tr.foldl (fun a idx => env.add a (env.sigparts idx)) acc) =
        (sumSigparts traceEnv fuel g i tr).foldl
          (fun a idx => env.add a (env.sigparts idx)) acc := by
    intro fuel
    induction fuel with
    | zero => intro g i acc tr; simp [sumSigparts]
    | succ fuel ih =>
      intro g i acc tr
      unfold sumSigparts
      by_cases hg : g ≠ 0
      · rw [if_pos hg, if_pos hg]
        have := ih (g >>> 1) (i - 1) acc (tr ++ [sigIndex g i])
        simp only [List.foldl_append, List.foldl_cons, List.foldl_nil] at this
        exact this
      · rw [if_neg hg, if_neg hg]
  simpa using key fuel g i acc []

theorem sigIndex_eq (g p : Nat) (hp : p ≤ 52) :
    sigIndex g ((52 : Int) - p) = if g.testBit 0 then 52 - p else 0 := by
  have hi : (((52 : Int) - p) % 2 ^ 64).toNat = 52 - p := by omega
  unfold sigIndex
  rw [hi, Nat.and_one_is_mod, Nat.testBit_zero]
  rcases Nat.mod_two_eq_zero_or_one g with h | h
  · rw [h]
    simp
  · rw [h]
    have e : ((1 ^^^ 1) + (2 ^ 64 - 1)) % 2 ^ 64 = 2 ^ 64 - 1 := by decide
    rw [e, Nat.and_comm, Nat.and_pow_two_sub_one_eq_mod, Nat.mod_eq_of_lt (by omega)]
    simp

theorem size_half (g : Nat) (hg : g ≠ 0) : Nat.size g = Nat.size (g / 2) + 1 := by
  apply le_antisymm
  · rw [Nat.size_le]
    have := Nat.lt_size_self (g / 2)
    rw [pow_succ]
    omega
  · rw [Nat.succ_le_iff, Nat.lt_size]
    by_cases hs : Nat.size (g / 2) = 0
    · rw [hs]; simp; omega
    · have h1 : Nat.size (g / 2) - 1 < Nat.size (g / 2) := by omega
      rw [Nat.lt_size] at h1
      have e : 2 ^ Nat.size (g / 2) = 2 ^ (Nat.size (g / 2) - 1) * 2 := by
        rw [← pow_succ]; congr 1; omega
      rw [e]
      omega

theorem sumSigparts_indices (fuel g p : Nat) (acc : List Nat) (hg : g ≤ fuel)
    (hp : p + Nat.size g ≤ 52) :
    sumSigparts traceEnv fuel g ((52 : Int) - p) acc =
      acc ++ (List.range (Nat.size g)).map (fun n => if g.testBit n then 52 - (p + n) else 0) := by
  induction fuel generalizing g p acc with
  | zero =>
    have : g = 0 := by omega
    subst this
    simp [sumSigparts]
  | succ fuel ih =>
    unfold sumSigparts
    by_cases h0 : g ≠ 0
    · rw [if_pos h0]
      have hs := size_half g h0
      have e1 : g >>> 1 = g / 2 := by simp [Nat.shiftRight_eq_div_pow]
      have e2 : ((52 : Int) - p) - 1 = (52 : Int) - ((p + 1 : Nat) : Int) := by push_cast; ring
      rw [e1, e2, ih (g / 2) (p + 1) _ (by omega) (by omega), hs, List.range_succ_eq_map,
        sigIndex_eq g p (by omega)]
      simp only [traceEnv, List.append_assoc, List.singleton_append, List.map_cons,
        List.map_map, Nat.add_zero]
      congr 2
      apply List.map_congr_left
      intro n _
      simp only [Function.comp, Nat.succ_eq_add_one, Nat.testBit_succ]
      congr 1
      omega
    · have : g = 0 := by simpa using h0
      subst this
      simp

theorem skipZeroBytes_fuel (fuel1 fuel2 g : Nat) (i : Int) (h0 : 0 < g) (h1 : g ≤ fuel1)
    (h2 : g ≤ fuel2) : skipZeroBytes fuel1 g i = skipZeroBytes fuel2 g i := by
  induction fuel1 generalizing fuel2 g i with
  | zero => omega
  | succ fuel1 ih =>
    cases fuel2 with
    | zero => omega
    | succ fuel2 =>
      unfold skipZeroBytes
      by_cases hb : g &&& 0xFF = 0
      · rw [if_pos hb, if_pos hb]
        have hm : g % 256 = 0 := by
          have := Nat.and_pow_two_sub_one_eq_mod g 8
          simpa [hb] using this.symm
        have e : g >>> 8 = g / 256 := by simp [Nat.shiftRight_eq_div_pow]
        rw [e]
        exact ih fuel2 (g / 256) (i - 8) (by omega) (by omega) (by omega)
      · rw [if_neg hb, if_neg hb]

theorem skipZeroBytes_spec (fuel g : Nat) (i : Int) (h0 : 0 < g) (h1 : g ≤ fuel) :
    ∃ m : Nat, skipZeroBytes fuel g i = (g >>> (8 * m), i - 8 * (m : Int)) ∧
      (g >>> (8 * m)) &&& 0xFF ≠ 0 ∧ (∀ k, k < 8 * m → g.testBit k = false) := by
  induction fuel generalizing g i with
  | zero => omega
  | succ fuel ih =>
    unfold skipZeroBytes
    by_cases hb : g &&& 0xFF = 0
    · rw [if_pos hb]
      have hm : g % 2 ^ 8 = 0 := by
        have := Nat.and_pow_two_sub_one_eq_mod g 8
        simpa [hb] using this.symm
      have e : g >>> 8 = g / 256 := by simp [Nat.shiftRight_eq_div_pow]
      obtain ⟨m, a1, a2, a3⟩ := ih (g >>> 8) (i - 8) (by rw [e]; omega) (by rw [e]; omega)
      refine ⟨m + 1, ?_, ?_, ?_⟩
      · rw [a1, ← Nat.shiftRight_add]
        have e3 : 8 + 8 * m = 8 * (m + 1) := by ring
        rw [e3]
        congr 1
        push_cast
        ring
      · rw [← Nat.shiftRight_add] at a2
        have e3 : 8 + 8 * m = 8 * (m + 1) := by ring
        rw [e3] at a2
        exact a2
      · intro k hk
        by_cases hk8 : k < 8
        · have := Nat.testBit_mod_two_pow g 8 k
          rw [hm] at this
          simp [hk8] at this
          exact this
        · have := a3 (k - 8) (by omega)
          rw [Nat.testBit_shiftRight] at this
          have e4 : 8 + (k - 8) = k := by omega
          rw [e4] at this
          exact this
    · rw [if_neg hb]
      exact ⟨0, by simp, by simpa using hb, by intro k hk; omega⟩

theorem size_shiftRight_of_ne (f s : Nat) (h : f >>> s ≠ 0) :
    Nat.size (f >>> s) + s = Nat.size f := by
  induction s generalizing f with
  | zero => simp
  | succ s ih =>
    have e : f >>> (s + 1) = (f / 2) >>> s := by
      rw [Nat.shiftRight_eq_div_pow, Nat.shiftRight_eq_div_pow, pow_succ, Nat.mul_comm,
        Nat.div_div_eq_div_mul]
    rw [e] at h ⊢
    have hf : f ≠ 0 := by
      intro h0
      subst h0
      simp at h
    rw [size_half f hf, ← ih (f / 2) h]
    omega

theorem filter_map_indices (P : Nat → Bool) (L : List Nat) (hL : ∀ k ∈ L, k < 52) :
    (L.map (fun k => if P k = true then 52 - k else 0)).filter (fun idx => decide (idx ≠ 0)) =
      (L.filter P).map (fun k => 52 - k) := by
  induction L with
  | nil => simp
  | cons a L ih =>
    have ha := hL a (List.mem_cons_self _ _)
    have ih2 := ih (fun k hk => hL k (List.mem_cons_of_mem _ hk))
    simp only [List.map_cons, List.filter_cons]
    by_cases hp : P a = true
    · have hne : (52 - a ≠ 0) := by omega
      simp only [hp, if_true, hne, ne_eq, not_false_eq_true, decide_True, List.map_cons, ih2]
    · simp only [hp, Bool.false_eq_true, if_false, ne_eq, not_true_eq_false, decide_False, ih2]

theorem accumulate_trace_shape (f : Nat) (hf : f < 2 ^ 52) (h0 : f ≠ 0) :
    ∃ m : Nat, 8 * m < Nat.size f ∧ Nat.size f ≤ 52 ∧
      skipZeroBytes f f 52 = (f >>> (8 * m), 52 - 8 * (m : Int)) ∧
      (f >>> (8 * m)) &&& 0xFF ≠ 0 ∧
      (∀ k, k < 8 * m → f.testBit k = false) ∧
      accumulate traceEnv f =
        (List.range' (8 * m) (Nat.size f - 8 * m)).map
          (fun k => if f.testBit k then 52 - k else 0) ∧
      (∀ n, sumSigparts traceEnv (f >>> (8 * m) + n) (f >>> (8 * m)) (52 - 8 * (m : Int)) [] =
        accumulate traceEnv f) := by
  obtain ⟨m, a1, a2, a3⟩ := skipZeroBytes_spec f f 52 (Nat.pos_of_ne_zero h0) (le_refl _)
  have hg : f >>> (8 * m) ≠ 0 := by
    intro h
    rw [h] at a2
    simp at a2
  have hsize := size_shiftRight_of_ne f (8 * m) hg
  have hs52 : Nat.size f ≤ 52 := Nat.size_le.mpr hf
  have hgpos : 0 < Nat.size (f >>> (8 * m)) := Nat.size_pos.mpr (Nat.pos_of_ne_zero hg)
  have ei : (52 : Int) - 8 * (m : Int) = (52 : Int) - ((8 * m : Nat) : Int) := by push_cast; ring
  have hsum : ∀ n, sumSigparts traceEnv (f >>> (8 * m) + n) (f >>> (8 * m))
      (52 - 8 * (m : Int)) [] =
      (List.range' (8 * m) (Nat.size f - 8 * m)).map
        (fun k => if f.testBit k then 52 - k else 0) := by
    intro n
    rw [ei, sumSigparts_indices _ _ (8 * m) [] (by omega) (by omega), List.range'_eq_map_range]
    have e5 : Nat.size f - 8 * m = Nat.size (f >>> (8 * m)) := by omega
    rw [e5]
    simp only [List.nil_append, List.map_map]
    apply List.map_congr_left
    intro k _
    simp only [Function.comp, Nat.testBit_shiftRight]
  have hacc : accumulate traceEnv f =
      (List.range' (8 * m) (Nat.size f - 8 * m)).map
        (fun k => if f.testBit k then 52 - k else 0) := by
    have := hsum 0
    unfold accumulate
    rw [if_pos h0, a1]
    simpa [traceEnv] using this
  refine ⟨m, by omega, hs52, a1, a2, a3, hacc, ?_⟩
  intro n
  rw [hsum n, hacc]

theorem accumulate_foldl {F : Type} (env : FloatEnv F) (f : Nat) :
    accumulate env f =
      (accumulate traceEnv f).foldl (fun a idx => env.add a (env.sigparts idx)) (env.lit 0) := by
  unfold accumulate
  by_cases h0 : f ≠ 0
  · rw [if_pos h0, if_pos h0, sumSigparts_trace]
    rfl
  · rw [if_neg h0, if_neg h0]
    rfl

theorem range_split (a N c : Nat) :
    List.range (a + N + c) =
      List.range' 0 a ++ (List.range' a N ++ List.range' (a + N) c) := by
  rw [List.range_eq_range', List.range'_append_1]
  have := List.range'_append_1 0 a (c + N)
  rw [Nat.zero_add] at this
  rw [this]
  congr 1
  omega

theorem accumulate_nonzero_indices (f : Nat) (hf : f < 2 ^ 52) :
    (accumulate traceEnv f).filter (fun idx => decide (idx ≠ 0)) =
      ((List.range 52).filter (fun k => f.testBit k)).map (fun k => 52 - k) := by
  by_cases h0 : f = 0
  · subst h0
    have : (List.range 52).filter (fun k => (0 : Nat).testBit k) = [] := by
      rw [List.filter_eq_nil_iff]
      intro k _
      simp
    rw [this]
    simp [accumulate, traceEnv]
  · obtain ⟨m, b1, b2, -, -, b5, b6, -⟩ := accumulate_trace_shape f hf h0
    rw [b6, filter_map_indices (fun k => f.testBit k) _ (by
      intro k hk
      rw [List.mem_range'_1] at hk
      omega)]
    congr 1
    have hsplit : List.range 52 =
        List.range' 0 (8 * m) ++ (List.range' (8 * m) (Nat.size f - 8 * m) ++
          List.range' (Nat.size f) (52 - Nat.size f)) := by
      have := range_split (8 * m) (Nat.size f - 8 * m) (52 - Nat.size f)
      have e : 8 * m + (Nat.size f - 8 * m) + (52 - Nat.size f) = 52 := by omega
      have e1 : 8 * m + (Nat.size f - 8 * m) = Nat.size f := by omega
      rw [e, e1] at this
      exact this
    rw [hsplit, List.filter_append, List.filter_append]
    have hlow : (List.range' 0 (8 * m)).filter (fun k => f.testBit k) = [] := by
      rw [List.filter_eq_nil_iff]
      intro k hk
      rw [List.mem_range'_1] at hk
      simp [b5 k (by omega)]
    have hhigh : (List.range' (Nat.size f) (52 - Nat.size f)).filter (fun k => f.testBit k) =
        [] := by
      rw [List.filter_eq_nil_iff]
      intro k hk
      rw [List.mem_range'_1] at hk
      have : f < 2 ^ k :=
        lt_of_lt_of_le (Nat.lt_size_self f) (Nat.pow_le_pow_right (by norm_num) hk.1)
      simp [Nat.testBit_lt_two_pow this]
    rw [hlow, hhigh]
    simp

theorem fractionOf_lt (bits : Nat) : fractionOf bits < 2 ^ 52 := by
  unfold fractionOf
  exact Nat.and_lt_two_pow bits (by decide)

/-- C26: the fraction extracted on line 120 is below `2^52`, and for every 52-bit
fraction `f`, the indices into `sigparts` used by the
accumulation loop (lines 129-138; `accumulate traceEnv f` lists them in order of use,
and for every arithmetic the accumulated value is the fold of `acc += sigparts[idx]`
over that list) all lie in `[0, 52]`; the non-zero ones are exactly `52 - k` for each
set bit `k` of `f`, each once and in order of ascending `k`. When `f` is not zero, both
loops terminate (more fuel changes nothing): the first skips `m` zero bytes, which
contain no set bit, and stops on a non-zero byte; the second runs once for each bit
position from `8m` up to the highest set bit, using index `52 - k` for a set bit `k`
and index 0 for an unset one. -/
theorem accumulate_indices (f : Nat) (hf : f < 2 ^ 52) :
    (∀ bits, fractionOf bits < 2 ^ 52) ∧
    (∀ {F : Type} (env : FloatEnv F), accumulate env f =
      (accumulate traceEnv f).foldl (fun a idx => env.add a (env.sigparts idx)) (env.lit 0)) ∧
    (∀ idx ∈ accumulate traceEnv f, idx ≤ 52) ∧
    (accumulate traceEnv f).filter (fun idx => decide (idx ≠ 0)) =
      ((List.range 52).filter (fun k => f.testBit k)).map (fun k => 52 - k) ∧
    (f ≠ 0 → ∃ m : Nat, 8 * m < Nat.size f ∧ Nat.size f ≤ 52 ∧
      skipZeroBytes f f 52 = (f >>> (8 * m), 52 - 8 * (m : Int)) ∧
      (f >>> (8 * m)) &&& 0xFF ≠ 0 ∧
      (∀ n, skipZeroBytes (f + n) f 52 = skipZeroBytes f f 52) ∧
      (∀ k, k < 8 * m → f.testBit k = false) ∧
      accumulate traceEnv f =
        (List.range' (8 * m) (Nat.size f - 8 * m)).map
          (fun k => if f.testBit k then 52 - k else 0) ∧
      (∀ n, sumSigparts traceEnv (f >>> (8 * m) + n) (f >>> (8 * m)) (52 - 8 * (m : Int)) [] =
        accumulate traceEnv f)) := by
  refine ⟨fractionOf_lt, fun env => accumulate_foldl env f, ?_,
    accumulate_nonzero_indices f hf, ?_⟩
  · intro idx hidx
    by_cases h0 : f = 0
    · subst h0
      simp [accumulate, traceEnv] at hidx
    · obtain ⟨m, -, -, -, -, -, b6, -⟩ := accumulate_trace_shape f hf h0
      rw [b6, List.mem_map] at hidx
      obtain ⟨k, -, hk⟩ := hidx
      rw [← hk]
      split_ifs <;> omega
  · intro h0
    obtain ⟨m, b1, b2, b3, b4, b5, b6, b7⟩ := accumulate_trace_shape f hf h0
    exact ⟨m, b1, b2, b3, b4,
      fun n => skipZeroBytes_fuel (f + n) f f 52 (Nat.pos_of_ne_zero h0) (by omega) (le_refl _),
      b5, b6, b7⟩

/-- C26 witness: for the fraction with bits 8 and 51 set (`2^51 + 2^8`) one zero byte is
skipped, the loop then uses index 44 (bit 8), index 0 for the 42 unset bits 9..50, and
index 1 (bit 51); the non-zero indices are 44 and 1 in this order. -/
theorem accumulate_indices_witness :
    2251799813685504 < 2 ^ 52 ∧
    skipZeroBytes 2251799813685504 2251799813685504 52 = (8796093022209, 44) ∧
    accumulate traceEnv 2251799813685504 = 44 :: (List.replicate 42 0 ++ [1]) ∧
    (accumulate traceEnv 2251799813685504).filter (fun idx => decide (idx ≠ 0)) =
      ((List.range 52).filter (fun k => (2251799813685504 : Nat).testBit k)).map
        (fun k => 52 - k) ∧
    ((List.range 52).filter (fun k => (2251799813685504 : Nat).testBit k)).map
        (fun k => 52 - k) = [44, 1] :=
  ⟨by decide, by decide, by decide,
    (accumulate_indices 2251799813685504 (by decide)).2.2.2.1, by decide⟩

/-! ## String widths -/

theorem wrap32_of_range (v : Int) (h1 : -2 ^ 31 ≤ v) (h2 : v < 2 ^ 31) : wrap32 v = v := by
  unfold wrap32
  omega

theorem wrap32_add_wrap32 (a b : Int) : wrap32 (wrap32 a + b) = wrap32 (a + b) := by
  unfold wrap32
  omega

theorem maxStrLenLoop_eq (x : List CharSxp) (m : Nat) :
    maxStrLenLoop x (m : Int) = ((max m (widestValue x) : Nat) : Int) := by
  induction x generalizing m with
  | nil => simp [maxStrLenLoop, widestValue]
  | cons s x ih =>
    rw [maxStrLenLoop]
    have e : (if (LENGTH s : Int) > (m : Int) then (LENGTH s : Int) else (m : Int)) =
        ((max m (LENGTH s) : Nat) : Int) := by
      split_ifs <;> omega
    rw [e, ih]
    simp only [widestValue, List.map_cons, List.foldr_cons]
    omega

theorem maxStrLen_of_long (cfg : Config) (s : List Nat) (hs : s.length = 1073741823)
    (hna : cfg.na_str.length ≤ 1073741823) : maxStrLen cfg [some s] = -2147483648 := by
  have hw : widestValue [some s] = 1073741823 := by
    simp only [widestValue, List.map_cons, List.map_nil, List.foldr_cons, List.foldr_nil,
      LENGTH, hs]
    rfl
  have h := maxStrLenLoop_eq [some s] cfg.na_str.length
  rw [hw, max_eq_right hna] at h
  unfold maxStrLen
  rw [wrap32_of_range (cfg.na_str.length : Int) (by omega) (by omega), h]
  decide

theorem writeString_never_ch (cfg : Config) (s : List Nat) (b : Buf)
    (hq : cfg.quote = Rboolean.FALSE) : (writeString cfg (some s) b).ch = b.ch + s.length := by
  have h := (writeString_appends cfg (some s) b).1
  simpa [stringBytes, hq] using h

/-- Beyond the size bound of C23 the `int` of `maxStrLen` overflows: for a vector holding
one string of `2^30 - 1` bytes, `maxStrLen` is `-2^31`, while with `quote = FALSE`
`writeString` advances the cursor by the `2^30 - 1` bytes of the string. -/
theorem maxStrLen_int_overflow :
    maxStrLen { exampleConfig with quote := Rboolean.FALSE }
      [some (List.replicate 1073741823 97)] = -2147483648 ∧
    (writeString { exampleConfig with quote := Rboolean.FALSE }
      (some (List.replicate 1073741823 97)) emptyBuf).ch =
      emptyBuf.ch + ((List.replicate 1073741823 97).length : Int) ∧
    (List.replicate 1073741823 97).length = 1073741823 :=
  ⟨maxStrLen_of_long _ _ (List.length_replicate _ _) (by decide),
    writeString_never_ch _ _ _ rfl, List.length_replicate _ _⟩

/-! ## The line bound as a sum of column widths -/

theorem firstPass_of_long (cfg : Config) (s : List Nat) (hs : s.length = 1073741823)
    (hna : cfg.na_str.length ≤ 1073741823) (hrn : cfg.row_names = false) :
    firstPass cfg ⟨[Column.str [some s]], none⟩ = some ⟨-2147483645, STRSXP⟩ ∧
    2 + ([Column.str [some s]].map (fun c => colWidth cfg c + 1)).sum = 2147483651 := by
  have hw : widestValue [some s] = 1073741823 := by
    simp only [widestValue, List.map_cons, List.map_nil, List.foldr_cons, List.foldr_nil,
      LENGTH, hs]
    rfl
  refine ⟨?_, ?_⟩
  · have e : wrap32 (2 + -2147483648 + 1) = -2147483645 := by decide
    simp only [firstPass, firstPassLoop, firstPassSwitch, maxStrLen_of_long cfg s hs hna,
      Column.TYPEOF, Column.integer64, hrn, Bool.false_eq_true, if_false, e]
    simp
  · simp only [List.map_cons, List.map_nil, List.sum_cons, List.sum_nil, colWidth, hw]
    omega

/-- Beyond the size bound of C25 the `int` holding the line bound overflows: for one
STRING column holding a string of `2^30 - 1` bytes the first pass yields
`lineLenMax = -2147483645`, whereas 2 plus the sum of the widths is `2^31 + 3`. -/
theorem lineLenMax_int_overflow :
    firstPass exampleConfig ⟨[Column.str [some (List.replicate 1073741823 97)]], none⟩ =
      some ⟨-2147483645, STRSXP⟩ ∧
    2 + ([Column.str [some (List.replicate 1073741823 97)]].map
      (fun c => colWidth exampleConfig c + 1)).sum = 2147483651 :=
  firstPass_of_long exampleConfig (List.replicate 1073741823 97) (List.length_replicate _ _)
    (by decide) rfl

end Fwrite
